import Mathlib

/-!
# Graph traversals of `Paturkar/HPC/01_Parallel_BFS.cpp` and `02_Parallel_DFS.cpp`

A shallow embedding of `struct Graph` (constructor, `addEdge`, `BFS`, `DFS`, `DFSUtil`).

Conventions of the embedding.
* A C++ `int` is an `Int`.  All values met here are vertex ids and loop counters, far from
  the limits of the type.
* `vector<T>` is a `List T`, `queue<int>` is a `List Int` whose head is the front.
* `v[i]` on a vector is defined only for `0 ≤ i < v.size()`.  An access outside these bounds
  has no defined behaviour in C++; the embedding stops there and returns `Run.oob` with the
  state reached just before the access.
* The passes of a `#pragma omp parallel for` loop are run one after the other in index order.
* OpenMP leaves open when the body of a `#pragma omp task` runs.  `DFSUtil` runs it where the
  task is created, which is what the build without `-fopenmp` of the header comment does;
  `DFSUtilDeferred` runs it at the barrier that ends the neighbour loop, which a build with
  `-fopenmp` may do.  Results about `DFSUtil` tell nothing about the order or the number of
  the calls in a run that defers a task.
* `cout << u` appends `u` to the `out` component of the state.
-/

namespace LP5

/-- Result of running a fragment of the program on a state. -/
inductive Run (σ : Type) where
  /-- The fragment ran to its end. -/
  | done (s : σ) : Run σ
  /-- The fragment reached an element access outside the bounds of a vector;
  `s` is the state just before that access. -/
  | oob (s : σ) : Run σ
deriving DecidableEq

/-- The state carried by a run. -/
def Run.state {σ : Type} : Run σ → σ
  | .done s => s
  | .oob s => s

/-- Bounds test `0 ≤ i < n` for an `int` index into a vector of size `n`. -/
def inBounds (i : Int) (n : Nat) : Bool :=
  decide (0 ≤ i) && decide (i < (n : Int))

/-- The type `struct Graph`: `int V; vector<vector<int>> adj;`.  The constructor is the only way the
program makes one, and it rejects a negative `V`, so `V` is kept as a natural number. -/
structure Graph where
  V : Nat
  adj : List (List Int)
deriving DecidableEq

/-- Constructor `Graph(int V)`: `this->V = V; adj.resize(V);`.  For a negative `V` the `resize` is
asked for more than `max_size()` elements and throws, so no graph is made. -/
def Graph.create (V : Int) : Option Graph :=
  if 0 ≤ V then some { V := V.toNat, adj := List.replicate V.toNat [] } else none

/-- The statement `adj[u].push_back(v)` for an index `u` inside the bounds. -/
def pushBack (adj : List (List Int)) (u v : Int) : List (List Int) :=
  adj.set u.toNat (adj.getD u.toNat [] ++ [v])

/-- Method `Graph::addEdge(u, v)`: `adj[u].push_back(v); adj[v].push_back(u);`. -/
def Graph.addEdge (g : Graph) (u v : Int) : Run Graph :=
  if inBounds u g.adj.length then
    let g1 : Graph := { g with adj := pushBack g.adj u v }
    if inBounds v g1.adj.length then
      .done { g1 with adj := pushBack g1.adj v u }
    else .oob g1
  else .oob g

/-- The graph made by `Graph g(V)` followed by one `addEdge` per pair, as `main` does. -/
def addEdges : Graph → List (Int × Int) → Run Graph
  | g, [] => .done g
  | g, (u, v) :: es =>
    match g.addEdge u v with
    | .done g1 => addEdges g1 es
    | .oob g1 => .oob g1

/-- Construction of a graph from a vertex count and an edge list. -/
def buildGraph (V : Int) (edges : List (Int × Int)) : Option (Run Graph) :=
  match Graph.create V with
  | some g => some (addEdges g edges)
  | none => none

/-! ## Breadth-first traversal -/

/-- Local state of `Graph::BFS`: `visited`, the queue `q`, and the text sent to `cout`. -/
structure BFSState where
  visited : List Bool
  q : List Int
  out : List Int
deriving DecidableEq

/-- Body of the neighbour loop of `Graph::BFS` for one neighbour `v`:
`if (!visited[v]) { critical { if (!visited[v]) { visited[v] = true; q.push(v); } } }`. -/
def claim (st : BFSState) (v : Int) : Run BFSState :=
  if inBounds v st.visited.length then
    if !(st.visited.getD v.toNat false) then
      if !(st.visited.getD v.toNat false) then
        .done { st with visited := st.visited.set v.toNat true, q := st.q ++ [v] }
      else .done st
    else .done st
  else .oob st

/-- The loop `for (int i = 0; i < adj[u].size(); i++) { int v = adj[u][i]; ... }`,
given the vector `adj[u]`. -/
def scan : List Int → BFSState → Run BFSState
  | [], st => .done st
  | v :: rest, st =>
    match claim st v with
    | .done st1 => scan rest st1
    | .oob st1 => .oob st1

/-- One pass of the `while` body of `Graph::BFS` once `u` has been taken from the queue
and printed. -/
def bfsBody (g : Graph) (u : Int) (st : BFSState) : Run BFSState :=
  if inBounds u g.adj.length then scan (g.adj.getD u.toNat []) st else .oob st

/-- The loop `while (!q.empty())` of `Graph::BFS`, with a bound on the number of passes;
`none` when the bound is reached with a non-empty queue. -/
def bfsLoop (g : Graph) : Nat → BFSState → Option (Run BFSState)
  | 0, st =>
    match st.q with
    | [] => some (.done st)
    | _ :: _ => none
  | fuel + 1, st =>
    match st.q with
    | [] => some (.done st)
    | u :: rest =>
      match bfsBody g u { st with q := rest, out := st.out ++ [u] } with
      | .done st1 => bfsLoop g fuel st1
      | .oob st1 => some (.oob st1)

/-- Method `Graph::BFS(start)` run for at most `fuel` passes of its loop. -/
def Graph.BFSFuel (g : Graph) (fuel : Nat) (start : Int) : Option (Run BFSState) :=
  let st0 : BFSState := { visited := List.replicate g.V false, q := [], out := [] }
  if inBounds start st0.visited.length then
    bfsLoop g fuel { st0 with visited := st0.visited.set start.toNat true, q := [start] }
  else some (.oob st0)

/-- Method `Graph::BFS(start)`.  The loop takes one vertex from the queue per pass and a vertex
enters the queue only when its `visited` entry flips, so `V` passes are enough
(`BFS_spec` below, for a graph whose stored neighbours are in range). -/
def Graph.BFS (g : Graph) (start : Int) : Option (Run BFSState) :=
  g.BFSFuel g.V start

/-! ## Depth-first traversal -/

/-- State of `Graph::DFS`: the `visited` vector, the text sent to `cout`, and the record
`calls` of the calls `DFSUtil(v, visited)` made from the neighbour loop of `DFSUtil(u, _)`,
one pair `(u, v)` per call.  `calls` is a history of the run; the program never reads it. -/
structure DFSState where
  visited : List Bool
  out : List Int
  calls : List (Int × Int)
deriving DecidableEq

/-- The neighbour loop of `DFSUtil(u, visited)` over the vector `adj[u]`:
`int v = adj[u][i]; if (!visited[v]) { DFSUtil(v, visited); }`, with `call` the
recursive call.  The body of the task runs where the task is created, so nothing happens
between the test of `visited[v]` and the call; see `dfsSpawn` for the other case. -/
def dfsScan (call : Int → DFSState → Option (Run DFSState)) (u : Int) :
    List Int → DFSState → Option (Run DFSState)
  | [], st => some (.done st)
  | v :: rest, st =>
    if inBounds v st.visited.length then
      if !(st.visited.getD v.toNat false) then
        match call v { st with calls := st.calls ++ [(u, v)] } with
        | some (.done st1) => dfsScan call u rest st1
        | some (.oob st1) => some (.oob st1)
        | none => none
      else dfsScan call u rest st
    else some (.oob st)

/-- Method `Graph::DFSUtil(u, visited)` with a bound on the depth of the recursion;
`none` when the bound is reached.  Every task body runs where the task is created (the build
without `-fopenmp`, and one of the schedules of a build with it). -/
def DFSUtil (g : Graph) : Nat → Int → DFSState → Option (Run DFSState)
  | 0, _, _ => none
  | fuel + 1, u, st =>
    if inBounds u st.visited.length then
      let st1 : DFSState :=
        { st with visited := st.visited.set u.toNat true, out := st.out ++ [u] }
      if inBounds u g.adj.length then
        dfsScan (DFSUtil g fuel) u (g.adj.getD u.toNat []) st1
      else some (.oob st1)
    else some (.oob st)

/-- Method `Graph::DFS(start)` with recursion depth at most `fuel`. -/
def Graph.DFSFuel (g : Graph) (fuel : Nat) (start : Int) : Option (Run DFSState) :=
  DFSUtil g fuel start { visited := List.replicate g.V false, out := [], calls := [] }

/-- Method `Graph::DFS(start)`.  A nested call is made only on a vertex whose `visited` entry is
still false, so the recursion is at most `V` deep (`DFS_spec` below, for a graph whose
stored neighbours are in range). -/
def Graph.DFS (g : Graph) (start : Int) : Option (Run DFSState) :=
  g.DFSFuel (g.V + 1) start

/-! ## Vocabulary of the statements -/

/-- The access `visited[v]` is defined and reads `true`. -/
def isVisited (vis : List Bool) (v : Int) : Prop :=
  inBounds v vis.length = true ∧ vis.getD v.toNat false = true

instance (vis : List Bool) (v : Int) : Decidable (isVisited vis v) := by
  unfold isVisited; infer_instance

/-- The vertex `v` occurs in the vector `adj[u]`. -/
def Graph.Adj (g : Graph) (u v : Int) : Prop :=
  inBounds u g.adj.length = true ∧ v ∈ g.adj.getD u.toNat []

/-- The vector `adj` has `V` entries and every stored neighbour is a vertex id in `[0, V)`. -/
def Graph.WF (g : Graph) : Prop :=
  g.adj.length = g.V ∧ ∀ l ∈ g.adj, ∀ v ∈ l, inBounds v g.V = true

/-- The two ends of an edge of the list, in either order. -/
def Linked (edges : List (Int × Int)) (a b : Int) : Prop :=
  (a, b) ∈ edges ∨ (b, a) ∈ edges

/-- The vertex `v` lies in the connected component of `s` in the undirected graph with the
given edges. -/
def Connected (edges : List (Int × Int)) (s v : Int) : Prop :=
  Relation.ReflTransGen (Linked edges) s v

/-- There is a walk of `n` steps from `s` to `v` along the relation `R`. -/
inductive Walk (R : Int → Int → Prop) (s : Int) : Int → Nat → Prop where
  | refl : Walk R s s 0
  | step {u v : Int} {n : Nat} : Walk R s u n → R u v → Walk R s v (n + 1)

/-- The shortest-path distance from `s` to `v` along `R` is `d`. -/
def IsDist (R : Int → Int → Prop) (s v : Int) (d : Nat) : Prop :=
  Walk R s v d ∧ ∀ n, Walk R s v n → d ≤ n

/-- All end points of the edge list are vertex ids in `[0, V)`. -/
def EdgesInRange (V : Nat) (edges : List (Int × Int)) : Prop :=
  ∀ e ∈ edges, inBounds e.1 V = true ∧ inBounds e.2 V = true

/-- The first example of `main`: `Graph g1(5)` with edges (0,1), (0,2), (1,3), (2,4). -/
def exampleEdges : List (Int × Int) := [(0, 1), (0, 2), (1, 3), (2, 4)]

/-- The neighbours that a sequence of `addEdge` calls appends to the list of vertex `a`,
in the order of insertion. -/
def insertedNeighbours : List (Int × Int) → Int → List Int
  | [], _ => []
  | (u, v) :: es, a =>
    (if a = u then [v] else []) ++ (if a = v then [u] else []) ++ insertedNeighbours es a

/-- The state of `Graph::BFS(start)` when its loop is entered. -/
def bfsInit (g : Graph) (start : Int) : BFSState :=
  { visited := (List.replicate g.V false).set start.toNat true, q := [start], out := [] }

/-- Invariant of the loop of `Graph::BFS(s)`: the vertices with a true `visited` entry are
those printed or queued, none of them twice, all reachable from `s`, and every neighbour of
a printed vertex has been claimed. -/
structure BFSInv (g : Graph) (s : Int) (st : BFSState) : Prop where
  len : st.visited.length = g.V
  vis : ∀ v, isVisited st.visited v ↔ v ∈ st.out ++ st.q
  nodup : (st.out ++ st.q).Nodup
  reach : ∀ v ∈ st.out ++ st.q, Relation.ReflTransGen g.Adj s v
  closed : ∀ u ∈ st.out, ∀ v, g.Adj u v → v ∈ st.out ++ st.q
  start : s ∈ st.out ++ st.q

/-- Invariant of the loop of `Graph::BFS(s)` about the distance `d` from `s`: it never
decreases along the printed and queued vertices, nothing claimed is more than one step
beyond the front of the queue, and every vertex no further than the front is claimed. -/
structure BFSLevelInv (d : Int → Nat) (g : Graph) (s : Int) (st : BFSState) : Prop where
  mono : (st.out ++ st.q).Pairwise (fun a b => d a ≤ d b)
  near : ∀ x, st.q.head? = some x → ∀ y ∈ st.out ++ st.q, d y ≤ d x + 1
  full : ∀ x, st.q.head? = some x → ∀ w, Relation.ReflTransGen g.Adj s w → d w ≤ d x →
    w ∈ st.out ++ st.q

/-- Relation between the state `st` before and the state `st1` after a completed fragment of
the depth-first traversal that printed `new` and made the calls `nc`, all of it below the
vertex `root`; `base` lists the vertices printed by the enclosing call. -/
structure DFSPost (g : Graph) (root : Int) (base : List Int) (st st1 : DFSState)
    (new : List Int) (nc : List (Int × Int)) : Prop where
  len : st1.visited.length = st.visited.length
  out : st1.out = st.out ++ new
  calls : st1.calls = st.calls ++ nc
  nodup : new.Nodup
  fresh : ∀ v ∈ new, ¬ isVisited st.visited v
  vis : ∀ v, isVisited st1.visited v ↔ isVisited st.visited v ∨ v ∈ new
  reach : ∀ v ∈ new, Relation.ReflTransGen g.Adj root v
  closed : ∀ a ∈ new, ∀ b, g.Adj a b → isVisited st1.visited b
  cnt : st1.visited.count false ≤ st.visited.count false
  parent : ∀ p c, (p, c) ∈ nc →
    g.Adj p c ∧ ∃ l1 l2, new = l1 ++ c :: l2 ∧ (p ∈ base ∨ p ∈ l1)

/-- Every entry that reads `true` in `a` reads `true` in `b`, and the sizes agree. -/
def VisLE (a b : List Bool) : Prop :=
  a.length = b.length ∧ ∀ i : Nat, a.getD i false = true → b.getD i false = true

instance (edges : List (Int × Int)) (a b : Int) : Decidable (Linked edges a b) := by
  unfold Linked; infer_instance

/-! ## `Graph::BFS` with a single test of `visited[v]` -/

/-- The claim step of `Graph::BFS` with the outer, unprotected `if (!visited[v])` taken away,
so that only the test inside the critical block is left:
`critical { if (!visited[v]) { visited[v] = true; q.push(v); } }`. -/
def claimInner (st : BFSState) (v : Int) : Run BFSState :=
  if inBounds v st.visited.length then
    if !(st.visited.getD v.toNat false) then
      .done { st with visited := st.visited.set v.toNat true, q := st.q ++ [v] }
    else .done st
  else .oob st

/-- The neighbour loop of `Graph::BFS` over the vector `adj[u]`, with `claimInner` as
its body. -/
def scanInner : List Int → BFSState → Run BFSState
  | [], st => .done st
  | v :: rest, st =>
    match claimInner st v with
    | .done st1 => scanInner rest st1
    | .oob st1 => .oob st1

/-- One pass of the `while` body of `Graph::BFS` with `scanInner` as its neighbour loop. -/
def bfsBodyInner (g : Graph) (u : Int) (st : BFSState) : Run BFSState :=
  if inBounds u g.adj.length then scanInner (g.adj.getD u.toNat []) st else .oob st

/-- The loop `while (!q.empty())` of `Graph::BFS` with `bfsBodyInner` as its body. -/
def bfsLoopInner (g : Graph) : Nat → BFSState → Option (Run BFSState)
  | 0, st =>
    match st.q with
    | [] => some (.done st)
    | _ :: _ => none
  | fuel + 1, st =>
    match st.q with
    | [] => some (.done st)
    | u :: rest =>
      match bfsBodyInner g u { st with q := rest, out := st.out ++ [u] } with
      | .done st1 => bfsLoopInner g fuel st1
      | .oob st1 => some (.oob st1)

/-- The method `Graph::BFS(start)` with the outer test of `visited[v]` taken away, run for
at most `fuel` passes of its loop. -/
def Graph.BFSInnerFuel (g : Graph) (fuel : Nat) (start : Int) : Option (Run BFSState) :=
  let st0 : BFSState := { visited := List.replicate g.V false, q := [], out := [] }
  if inBounds start st0.visited.length then
    bfsLoopInner g fuel { st0 with visited := st0.visited.set start.toNat true, q := [start] }
  else some (.oob st0)

/-- The method `Graph::BFS(start)` with the outer test of `visited[v]` taken away. -/
def Graph.BFSInner (g : Graph) (start : Int) : Option (Run BFSState) :=
  g.BFSInnerFuel g.V start

/-! ## Edge lists without repeats -/

/-- The edge list without self-loops and without a second copy of an edge, the pairs `(u, v)`
and `(v, u)` standing for the same edge. -/
def simpleEdges : List (Int × Int) → List (Int × Int)
  | [] => []
  | (u, v) :: es =>
    if u = v ∨ (u, v) ∈ simpleEdges es ∨ (v, u) ∈ simpleEdges es then simpleEdges es
    else (u, v) :: simpleEdges es

/-! ## Reductions of `Paturkar/HPC/5_Min_Max_Sum_Avg.cpp` -/

/-- The loop of `parallelMin` over the elements after the first:
`if (vec[i] < min_val) min_val = vec[i];`, the reduction read as one thread running the
iterations in index order. -/
def minLoop : List Int → Int → Int
  | [], m => m
  | x :: xs, m => minLoop xs (if x < m then x else m)

/-- Function `parallelMin(vec)`: `min_val = vec[0]`, then the loop from index 1, then
`return min_val`.  `none` when `vec` is empty, where `vec[0]` is outside the bounds. -/
def parallelMin (vec : List Int) : Option Int :=
  match vec with
  | [] => none
  | x :: xs => some (minLoop xs x)

/-- The loop of `parallelMax` over the elements after the first:
`if (vec[i] > max_val) max_val = vec[i];`. -/
def maxLoop : List Int → Int → Int
  | [], m => m
  | x :: xs, m => maxLoop xs (if x > m then x else m)

/-- Function `parallelMax(vec)`: `max_val = vec[0]`, then the loop from index 1, then
`return max_val`.  `none` when `vec` is empty, where `vec[0]` is outside the bounds. -/
def parallelMax (vec : List Int) : Option Int :=
  match vec with
  | [] => none
  | x :: xs => some (maxLoop xs x)

/-! ## Midpoint of `Paturkar/HPC/04_Merge_Sort.cpp` -/

/-- A value of the 32-bit type `int`. -/
def inInt32 (x : Int) : Prop := -2147483648 ≤ x ∧ x ≤ 2147483647

/-- The expression `l + (r - l) / 2` of `sequentialMergeSort` and `parallelMergeSort`; the
division of `int` rounds toward zero. -/
def midpoint (l r : Int) : Int := l + (r - l).tdiv 2

/-! ## Sorting loops of `Paturkar/HPC/03_Bubble_Sort.cpp` -/

/-- The loop `for (int i = start; i < n - 1; i += step)` with the body
`if (arr[i] > arr[i + 1]) { swap(arr[i], arr[i + 1]); flag = mark; }`, from the value `i` of
the loop variable, on the pair of the vector and the flag (`swapped` with `mark = true` in
`sequentialBubbleSort`, `isSorted` with `mark = false` in `parallelOddEvenSort`).  The
first argument bounds the number of passes; the loop variable grows in every pass, so `n`
passes always reach the exit test. -/
def sweep (n step : Nat) (mark : Bool) : Nat → Nat → List Int × Bool → Run (List Int × Bool)
  | 0, _, st => .done st
  | fuel + 1, i, st =>
    if i + 1 < n then
      match st.1[i]?, st.1[i + 1]? with
      | some a, some b =>
        if a > b then sweep n step mark fuel (i + step) ((st.1.set i b).set (i + 1) a, mark)
        else sweep n step mark fuel (i + step) st
      | _, _ => .oob st
    else .done st

/-- The loop `while (swapped)` of `sequentialBubbleSort`, entered with `swapped` true, with a
bound on the number of passes; `none` when the bound is reached. -/
def bubbleLoop (n : Nat) : Nat → List Int → Option (Run (List Int))
  | 0, _ => none
  | fuel + 1, arr =>
    match sweep n 1 true n 0 (arr, false) with
    | .done (arr1, swapped) => if swapped then bubbleLoop n fuel arr1 else some (.done arr1)
    | .oob (arr1, _) => some (.oob arr1)

/-- Function `sequentialBubbleSort(arr)`: `n = arr.size(); swapped = true;` and the loop.
Every pass that swaps removes an inversion, so `n * n + 1` passes are enough. -/
def sequentialBubbleSort (arr : List Int) : Option (Run (List Int)) :=
  bubbleLoop arr.length (arr.length * arr.length + 1) arr

/-- The loop `while (!isSorted)` of `parallelOddEvenSort`, entered with `isSorted` false:
`isSorted = true`, the even phase (`i = 0, 2, ...`), the odd phase (`i = 1, 3, ...`), with a
bound on the number of passes; `none` when the bound is reached.  The pairs handled inside
one phase do not overlap, so the order of the iterations of a phase does not matter. -/
def oddEvenLoop (n : Nat) : Nat → List Int → Option (Run (List Int))
  | 0, _ => none
  | fuel + 1, arr =>
    match sweep n 2 false n 0 (arr, true) with
    | .done st1 =>
      match sweep n 2 false n 1 st1 with
      | .done (arr2, isSorted) =>
        if isSorted then some (.done arr2) else oddEvenLoop n fuel arr2
      | .oob (arr2, _) => some (.oob arr2)
    | .oob (arr1, _) => some (.oob arr1)

/-- Function `parallelOddEvenSort(arr)`: `n = arr.size(); isSorted = false;` and the loop. -/
def parallelOddEvenSort (arr : List Int) : Option (Run (List Int)) :=
  oddEvenLoop arr.length (arr.length * arr.length + 1) arr

/-- The read `v[i]` of a vector at an `int` index; `none` outside the bounds. -/
def rd (v : List Int) (i : Int) : Option Int :=
  if inBounds i v.length then v[i.toNat]? else none

/-- Locals of `merge`: the vector `temp` and the indexes `left` and `right`. -/
structure MergeState where
  temp : List Int
  left : Int
  right : Int
deriving DecidableEq

/-- The loop `while (left <= m && right <= r)` of `merge`:
`if (arr[left] <= arr[right]) temp.push_back(arr[left++]); else temp.push_back(arr[right++]);`
with a bound on the number of passes. -/
def mergeBoth (arr : List Int) (m r : Int) : Nat → MergeState → Option (Run MergeState)
  | 0, st => if st.left ≤ m ∧ st.right ≤ r then none else some (.done st)
  | fuel + 1, st =>
    if st.left ≤ m ∧ st.right ≤ r then
      match rd arr st.left, rd arr st.right with
      | some a, some b =>
        if a ≤ b then
          mergeBoth arr m r fuel { st with temp := st.temp ++ [a], left := st.left + 1 }
        else
          mergeBoth arr m r fuel { st with temp := st.temp ++ [b], right := st.right + 1 }
      | _, _ => some (.oob st)
    else some (.done st)

/-- The loop `while (left <= m) temp.push_back(arr[left++]);` of `merge`. -/
def mergeLeft (arr : List Int) (m : Int) : Nat → MergeState → Option (Run MergeState)
  | 0, st => if st.left ≤ m then none else some (.done st)
  | fuel + 1, st =>
    if st.left ≤ m then
      match rd arr st.left with
      | some a => mergeLeft arr m fuel { st with temp := st.temp ++ [a], left := st.left + 1 }
      | none => some (.oob st)
    else some (.done st)

/-- The loop `while (right <= r) temp.push_back(arr[right++]);` of `merge`. -/
def mergeRight (arr : List Int) (r : Int) : Nat → MergeState → Option (Run MergeState)
  | 0, st => if st.right ≤ r then none else some (.done st)
  | fuel + 1, st =>
    if st.right ≤ r then
      match rd arr st.right with
      | some b => mergeRight arr r fuel { st with temp := st.temp ++ [b], right := st.right + 1 }
      | none => some (.oob st)
    else some (.done st)

/-- The loop `for (int i = l; i <= r; ++i) arr[i] = temp[i - l];` of `merge`, from the
value `i` of the loop variable. -/
def writeBack (temp : List Int) (l r : Int) : Nat → Int → List Int → Option (Run (List Int))
  | 0, i, arr => if i ≤ r then none else some (.done arr)
  | fuel + 1, i, arr =>
    if i ≤ r then
      match rd temp (i - l) with
      | some v =>
        if inBounds i arr.length then writeBack temp l r fuel (i + 1) (arr.set i.toNat v)
        else some (.oob arr)
      | none => some (.oob arr)
    else some (.done arr)

/-- The three `while` loops of `merge` one after the other, from `left = l`,
`right = m + 1` and an empty `temp`. -/
def mergeFill (arr : List Int) (l m r : Int) (fuel : Nat) : Option (Run MergeState) :=
  match mergeBoth arr m r fuel { temp := [], left := l, right := m + 1 } with
  | some (.done st1) =>
    match mergeLeft arr m fuel st1 with
    | some (.done st2) => mergeRight arr r fuel st2
    | other => other
  | other => other

/-- Function `merge(arr, l, m, r)`.  Each loop makes at most `r - l + 1` passes when
`l ≤ m + 1 ≤ r + 1`; `none` when that bound is reached. -/
def merge (arr : List Int) (l m r : Int) : Option (Run (List Int)) :=
  match mergeFill arr l m r (r - l + 1).toNat with
  | some (.done st) => writeBack st.temp l r (r - l + 1).toNat l arr
  | some (.oob _) => some (.oob arr)
  | none => none

/-- Function `sequentialMergeSort(arr, l, r)` with a bound on the depth of the recursion;
`none` when the bound is reached. -/
def sequentialMergeSortFuel : Nat → List Int → Int → Int → Option (Run (List Int))
  | 0, _, _, _ => none
  | fuel + 1, arr, l, r =>
    if l < r then
      match sequentialMergeSortFuel fuel arr l (midpoint l r) with
      | some (.done arr1) =>
        match sequentialMergeSortFuel fuel arr1 (midpoint l r + 1) r with
        | some (.done arr2) => merge arr2 l (midpoint l r) r
        | other => other
      | other => other
    else some (.done arr)

/-- Function `sequentialMergeSort(arr, l, r)`.  The range is halved at every call, so a
depth of `r - l + 2` is enough. -/
def sequentialMergeSort (arr : List Int) (l r : Int) : Option (Run (List Int)) :=
  sequentialMergeSortFuel ((r - l + 1).toNat + 1) arr l r

/-- Function `parallelMergeSort(arr, l, r)` with a bound on the depth of the recursion.  The
two sections work on the ranges `[l, m]` and `[m + 1, r]`, which do not overlap; they are run
one after the other, the second section first when `rightFirst` is set. -/
def parallelMergeSortFuel (rightFirst : Bool) : Nat → List Int → Int → Int →
    Option (Run (List Int))
  | 0, _, _, _ => none
  | fuel + 1, arr, l, r =>
    if l < r then
      if rightFirst then
        match parallelMergeSortFuel rightFirst fuel arr (midpoint l r + 1) r with
        | some (.done arr1) =>
          match parallelMergeSortFuel rightFirst fuel arr1 l (midpoint l r) with
          | some (.done arr2) => merge arr2 l (midpoint l r) r
          | other => other
        | other => other
      else
        match parallelMergeSortFuel rightFirst fuel arr l (midpoint l r) with
        | some (.done arr1) =>
          match parallelMergeSortFuel rightFirst fuel arr1 (midpoint l r + 1) r with
          | some (.done arr2) => merge arr2 l (midpoint l r) r
          | other => other
        | other => other
    else some (.done arr)

/-- Function `parallelMergeSort(arr, l, r)`, the sections run in the order of the text. -/
def parallelMergeSort (arr : List Int) (l r : Int) : Option (Run (List Int)) :=
  parallelMergeSortFuel false ((r - l + 1).toNat + 1) arr l r

/-- The elements `arr[l], ..., arr[r]` of a vector. -/
def segment (arr : List Int) (l r : Int) : List Int :=
  (arr.drop l.toNat).take (r + 1 - l).toNat

/-- The comparison `a <= b` of `merge` as a Boolean test. -/
def leB (a b : Int) : Bool := decide (a ≤ b)

/-! ## The tree of `OG/HPC/1 BFS DFS/1_BFS_DFS_Tree.cpp` -/

/-- The type `struct TreeNode { int data; vector<TreeNode*> children; }`.  Nodes are made by
`new` in `Tree(val)` and `addChild` only and a new node is stored in one `children` vector,
so the nodes reached from a root form a finite tree; a child pointer is never null. -/
inductive TreeNode where
  | mk (data : Int) (children : List TreeNode) : TreeNode

/-- Field `data` of a node. -/
def TreeNode.data : TreeNode → Int
  | .mk d _ => d

/-- Field `children` of a node. -/
def TreeNode.children : TreeNode → List TreeNode
  | .mk _ cs => cs

/-- A non-null `TreeNode*` into a tree: the node pointed to, and its place in the tree (the
child indexes on the way down from the root), which stands for the address. -/
structure NodePtr where
  addr : List Nat
  node : TreeNode

/-- The class `Tree`: its only field is `TreeNode* root`. -/
structure Tree where
  root : Option TreeNode

/-- Constructor `Tree(int val)`: `root = new TreeNode(val);`. -/
def Tree.create (val : Int) : Tree :=
  { root := some (.mk val []) }

/-- The node found at a place of the tree below `t`, if there is one. -/
def nodeAt : List Nat → TreeNode → Option TreeNode
  | [], t => some t
  | i :: rest, t =>
    match t.children[i]? with
    | some c => nodeAt rest c
    | none => none

/-- The statement `parent->children.push_back(new TreeNode(val))` on the node at place
`parent` below `t`; `none` when `parent` is not the place of a node. -/
def addChildAt : List Nat → Int → TreeNode → Option TreeNode
  | [], val, .mk d cs => some (.mk d (cs ++ [.mk val []]))
  | i :: rest, val, .mk d cs =>
    match cs[i]? with
    | some c =>
      match addChildAt rest val c with
      | some c1 => some (.mk d (cs.set i c1))
      | none => none
    | none => none

/-- Method `Tree::addChild(parent, val)`, the pointer `parent` given by its place in the tree;
`none` when `parent` does not point to a node of the tree. -/
def Tree.addChild (t : Tree) (parent : List Nat) (val : Int) : Option Tree :=
  match t.root with
  | some r =>
    match addChildAt parent val r with
    | some r1 => some { root := some r1 }
    | none => none
  | none => none

/-- The pointers stored in `children` of the node behind `p`, from index `i` on. -/
def kidsFrom (addr : List Nat) : Nat → List TreeNode → List NodePtr
  | _, [] => []
  | i, c :: cs => { addr := addr ++ [i], node := c } :: kidsFrom addr (i + 1) cs

/-- The pointers stored in `p->children`, in order. -/
def NodePtr.kids (p : NodePtr) : List NodePtr :=
  kidsFrom p.addr 0 p.node.children

mutual
/-- Method `Tree::parallelDFS(node)` for a non-null `node` at place `addr`:
`cout << node->data; for (child : node->children) parallelDFS(child);`.  The result is the
sequence of nodes printed, each with the data printed for it. -/
def dfsNode : List Nat → TreeNode → List (List Nat × Int)
  | addr, .mk d cs => (addr, d) :: dfsKids addr 0 cs
/-- The loop `for (TreeNode* child : node->children) parallelDFS(child);` from the child of
index `i` on. -/
def dfsKids : List Nat → Nat → List TreeNode → List (List Nat × Int)
  | _, _, [] => []
  | addr, i, c :: cs => dfsNode (addr ++ [i]) c ++ dfsKids addr (i + 1) cs
end

/-- Method `Tree::parallelDFS(node)`: `if (!node) return;` and then the body above. -/
def Tree.parallelDFS (node : Option NodePtr) : List (List Nat × Int) :=
  match node with
  | none => []
  | some p => dfsNode p.addr p.node

/-- Locals of `Tree::parallelBFS`: the queue, the vector `nextLevel` of the current pass,
and the nodes printed so far with the data printed for them. -/
structure TreeBFSState where
  q : List NodePtr
  nextLevel : List NodePtr
  out : List (List Nat × Int)

/-- Body of the loop `for (int i = 0; i < levelSize; ++i)`: take `current` from the front of
the queue, print `current->data`, append the children of `current` to `nextLevel`.
`q.front()` on an empty queue has no defined behaviour. -/
def levelStep (st : TreeBFSState) : Run TreeBFSState :=
  match st.q with
  | [] => .oob st
  | current :: rest =>
    .done { q := rest, nextLevel := st.nextLevel ++ current.kids,
            out := st.out ++ [(current.addr, current.node.data)] }

/-- The loop `for (int i = 0; i < levelSize; ++i)`, given the number of passes left. -/
def levelLoop : Nat → TreeBFSState → Run TreeBFSState
  | 0, st => .done st
  | n + 1, st =>
    match levelStep st with
    | .done st1 => levelLoop n st1
    | .oob st1 => .oob st1

/-- The loop `while (!q.empty())` of `Tree::parallelBFS` with a bound on the number of
passes; `none` when the bound is reached with a non-empty queue. -/
def treeBfsLoop : Nat → TreeBFSState → Option (Run TreeBFSState)
  | 0, st =>
    match st.q with
    | [] => some (.done st)
    | _ :: _ => none
  | fuel + 1, st =>
    match st.q with
    | [] => some (.done st)
    | _ :: _ =>
      match levelLoop st.q.length { st with nextLevel := [] } with
      | .done st1 => treeBfsLoop fuel { st1 with q := st1.q ++ st1.nextLevel }
      | .oob st1 => some (.oob st1)

mutual
/-- Number of levels of the tree below a node. -/
def TreeNode.height : TreeNode → Nat
  | .mk _ cs => heightKids cs + 1
/-- The largest number of levels below one of the nodes of a list. -/
def heightKids : List TreeNode → Nat
  | [] => 0
  | c :: cs => max c.height (heightKids cs)
end

/-- Method `Tree::parallelBFS()` run for at most `fuel` passes of its `while` loop. -/
def Tree.parallelBFSFuel (t : Tree) (fuel : Nat) : Option (Run TreeBFSState) :=
  match t.root with
  | none => some (.done { q := [], nextLevel := [], out := [] })
  | some r => treeBfsLoop fuel { q := [{ addr := [], node := r }], nextLevel := [], out := [] }

/-- Method `Tree::parallelBFS()`.  Each pass of the `while` loop handles one level of the
tree, so as many passes as the tree has levels are enough. -/
def Tree.parallelBFS (t : Tree) : Option (Run TreeBFSState) :=
  match t.root with
  | none => t.parallelBFSFuel 0
  | some r => t.parallelBFSFuel r.height

/-- The tree built by `main`. -/
def exampleTree : TreeNode :=
  .mk 1 [.mk 2 [.mk 5 [], .mk 6 []], .mk 3 [], .mk 4 [.mk 7 [], .mk 8 []]]

/-- The pointers to the nodes at depth `d` below `t`, from left to right. -/
def levelNodes (t : TreeNode) : Nat → List NodePtr
  | 0 => [{ addr := [], node := t }]
  | d + 1 => (levelNodes t d).flatMap NodePtr.kids

/-- What is printed for a list of pointers: the place and the data of each. -/
def printed (ps : List NodePtr) : List (List Nat × Int) :=
  ps.map (fun p => (p.addr, p.node.data))

/-- What is printed for the `k` levels of `t` from depth `d` on, level after level. -/
def levelsOut (t : TreeNode) : Nat → Nat → List (List Nat × Int)
  | _, 0 => []
  | d, k + 1 => printed (levelNodes t d) ++ levelsOut t (d + 1) k

/-- The tree as `main` builds it: `Tree tree(1)`, then `addChild` three times on `root`,
twice on `node2 = root->children[0]` and twice on `node4 = root->children[2]`. -/
def mainTree : Option Tree := do
  let t0 := Tree.create 1
  let t1 ← t0.addChild [] 2
  let t2 ← t1.addChild [] 3
  let t3 ← t2.addChild [] 4
  let t4 ← t3.addChild [0] 5
  let t5 ← t4.addChild [0] 6
  let t6 ← t5.addChild [2] 7
  t6.addChild [2] 8

/-! ## Depth-first traversal with deferred tasks -/

/-- The neighbour loop of `DFSUtil(u, visited)` when the body of `#pragma omp task` does not
run where the task is created: `int v = adj[u][i]; if (!visited[v])` and, on an entry that
reads false, the creation of the task for `DFSUtil(v, visited)`, recorded in `calls`.
`pending` lists the tasks created so far, oldest first. -/
def dfsSpawn (u : Int) : List Int → DFSState → List Int → Run (DFSState × List Int)
  | [], st, pending => .done (st, pending)
  | v :: rest, st, pending =>
    if inBounds v st.visited.length then
      if !(st.visited.getD v.toNat false) then
        dfsSpawn u rest { st with calls := st.calls ++ [(u, v)] } (pending ++ [v])
      else dfsSpawn u rest st pending
    else .oob (st, pending)

/-- The barrier that ends the `#pragma omp parallel for` of `DFSUtil`: the tasks created in
the loop run one after the other, oldest first; `call` is the body `DFSUtil(v, visited)`. -/
def runTasks (call : Int → DFSState → Option (Run DFSState)) :
    List Int → DFSState → Option (Run DFSState)
  | [], st => some (.done st)
  | v :: rest, st =>
    match call v st with
    | some (.done st1) => runTasks call rest st1
    | some (.oob st1) => some (.oob st1)
    | none => none

/-- Method `Graph::DFSUtil(u, visited)` in a run that defers every task to the barrier at the
end of the neighbour loop that created it, with a bound on the depth of the recursion;
`none` when the bound is reached. -/
def DFSUtilDeferred (g : Graph) : Nat → Int → DFSState → Option (Run DFSState)
  | 0, _, _ => none
  | fuel + 1, u, st =>
    if inBounds u st.visited.length then
      let st1 : DFSState :=
        { st with visited := st.visited.set u.toNat true, out := st.out ++ [u] }
      if inBounds u g.adj.length then
        match dfsSpawn u (g.adj.getD u.toNat []) st1 [] with
        | .done (st2, tasks) => runTasks (DFSUtilDeferred g fuel) tasks st2
        | .oob (st2, _) => some (.oob st2)
      else some (.oob st1)
    else some (.oob st)

/-- Method `Graph::DFS(start)` in a run that defers every task, with the bound on the depth
of the recursion that `Graph::DFS` has. -/
def Graph.DFSDeferred (g : Graph) (start : Int) : Option (Run DFSState) :=
  DFSUtilDeferred g (g.V + 1) start
    { visited := List.replicate g.V false, out := [], calls := [] }

/-! ## Method calls on a `Graph` object -/

/-- The result of a run, with `f` applied to the state it carries. -/
def Run.map {σ τ : Type} (f : σ → τ) : Run σ → Run τ
  | .done s => .done (f s)
  | .oob s => .oob (f s)

/-- Everything a call `g.BFS(start)` can read or write: the fields `V` and `adj` of the
object, the locals `visited` and `q`, and the text sent to `cout`. -/
structure BFSMem where
  V : Nat
  adj : List (List Int)
  visited : List Bool
  q : List Int
  out : List Int
deriving DecidableEq

/-- The object held in a memory of `Graph::BFS`. -/
def BFSMem.graph (m : BFSMem) : Graph :=
  { V := m.V, adj := m.adj }

/-- The locals and the output held in a memory of `Graph::BFS`. -/
def BFSMem.locals (m : BFSMem) : BFSState :=
  { visited := m.visited, q := m.q, out := m.out }

/-- The memory made of the object `g` and the locals `st`. -/
def Graph.withBFS (g : Graph) (st : BFSState) : BFSMem :=
  { V := g.V, adj := g.adj, visited := st.visited, q := st.q, out := st.out }

/-- Body of the neighbour loop of `Graph::BFS` for one neighbour `v`, on the whole memory:
`if (!visited[v]) { critical { if (!visited[v]) { visited[v] = true; q.push(v); } } }`. -/
def claimMem (m : BFSMem) (v : Int) : Run BFSMem :=
  if inBounds v m.visited.length then
    if !(m.visited.getD v.toNat false) then
      if !(m.visited.getD v.toNat false) then
        .done { m with visited := m.visited.set v.toNat true, q := m.q ++ [v] }
      else .done m
    else .done m
  else .oob m

/-- The loop `for (int i = 0; i < adj[u].size(); i++) { int v = adj[u][i]; ... }` of
`Graph::BFS` from the value `i` of the loop variable, for at most `passes` passes.  Every
pass reads `adj[u]` from the memory it is handed; `none` when the bound is reached. -/
def scanMem (u : Int) : Nat → Nat → BFSMem → Option (Run BFSMem)
  | 0, i, m =>
    if inBounds u m.adj.length then
      if i < (m.adj.getD u.toNat []).length then none else some (.done m)
    else some (.oob m)
  | passes + 1, i, m =>
    if inBounds u m.adj.length then
      if i < (m.adj.getD u.toNat []).length then
        match claimMem m ((m.adj.getD u.toNat []).getD i 0) with
        | .done m1 => scanMem u passes (i + 1) m1
        | .oob m1 => some (.oob m1)
      else some (.done m)
    else some (.oob m)

/-- The loop `while (!q.empty())` of `Graph::BFS` on the whole memory, with a bound on the
number of passes.  The neighbour loop is given as many passes as `adj[u]` has entries when
it starts. -/
def bfsLoopMem : Nat → BFSMem → Option (Run BFSMem)
  | 0, m =>
    match m.q with
    | [] => some (.done m)
    | _ :: _ => none
  | fuel + 1, m =>
    match m.q with
    | [] => some (.done m)
    | u :: rest =>
      match scanMem u (m.adj.getD u.toNat []).length 0
          { m with q := rest, out := m.out ++ [u] } with
      | some (.done m1) => bfsLoopMem fuel m1
      | some (.oob m1) => some (.oob m1)
      | none => none

/-- A call `BFS(start)` entered with the memory `m`, giving the memory when the call ends.
The declarations `vector<bool> visited(V, false); queue<int> q;` make the locals afresh,
whatever `m` holds in their place, and `out` records the text of this call from its start;
then `visited[start] = true; q.push(start);` and the loop, with the bound `V` on its passes
that `Graph.BFS` has. -/
def BFSMem.call (m : BFSMem) (start : Int) : Option (Run BFSMem) :=
  let m0 : BFSMem := { m with visited := List.replicate m.V false, q := [], out := [] }
  if inBounds start m0.visited.length then
    bfsLoopMem m0.V { m0 with visited := m0.visited.set start.toNat true, q := [start] }
  else some (.oob m0)

/-- A call `g.BFS(start)` on the object `g`: the memory when the call ends, the fields of
the object after the call with the last values of the locals and the text printed. -/
def Graph.callBFS (g : Graph) (start : Int) : Option (Run BFSMem) :=
  BFSMem.call { V := g.V, adj := g.adj, visited := [], q := [], out := [] } start

/-- Everything a call `g.DFS(start)` can read or write: the fields `V` and `adj` of the
object, the local `visited`, the text sent to `cout`, and the record of the calls. -/
structure DFSMem where
  V : Nat
  adj : List (List Int)
  visited : List Bool
  out : List Int
  calls : List (Int × Int)
deriving DecidableEq

/-- The object held in a memory of `Graph::DFS`. -/
def DFSMem.graph (m : DFSMem) : Graph :=
  { V := m.V, adj := m.adj }

/-- The locals and the output held in a memory of `Graph::DFS`. -/
def DFSMem.locals (m : DFSMem) : DFSState :=
  { visited := m.visited, out := m.out, calls := m.calls }

/-- The memory made of the object `g` and the locals `st`. -/
def Graph.withDFS (g : Graph) (st : DFSState) : DFSMem :=
  { V := g.V, adj := g.adj, visited := st.visited, out := st.out, calls := st.calls }

/-- The neighbour loop of `DFSUtil(u, visited)` on the whole memory, from the value `i` of
the loop variable, for at most `passes` passes:
`int v = adj[u][i]; if (!visited[v]) { DFSUtil(v, visited); }`, every task body run where
the task is created.  Every pass reads `adj[u]` from the memory it is handed. -/
def dfsScanMem (call : Int → DFSMem → Option (Run DFSMem)) (u : Int) :
    Nat → Nat → DFSMem → Option (Run DFSMem)
  | 0, i, m =>
    if inBounds u m.adj.length then
      if i < (m.adj.getD u.toNat []).length then none else some (.done m)
    else some (.oob m)
  | passes + 1, i, m =>
    if inBounds u m.adj.length then
      if i < (m.adj.getD u.toNat []).length then
        if inBounds ((m.adj.getD u.toNat []).getD i 0) m.visited.length then
          if !(m.visited.getD ((m.adj.getD u.toNat []).getD i 0).toNat false) then
            match call ((m.adj.getD u.toNat []).getD i 0)
                { m with calls := m.calls ++ [(u, (m.adj.getD u.toNat []).getD i 0)] } with
            | some (.done m1) => dfsScanMem call u passes (i + 1) m1
            | some (.oob m1) => some (.oob m1)
            | none => none
          else dfsScanMem call u passes (i + 1) m
        else some (.oob m)
      else some (.done m)
    else some (.oob m)

/-- Method `Graph::DFSUtil(u, visited)` on the whole memory, with a bound on the depth of
the recursion.  The neighbour loop is given as many passes as `adj[u]` has entries when it
starts. -/
def DFSUtilMem : Nat → Int → DFSMem → Option (Run DFSMem)
  | 0, _, _ => none
  | fuel + 1, u, m =>
    if inBounds u m.visited.length then
      dfsScanMem (DFSUtilMem fuel) u (m.adj.getD u.toNat []).length 0
        { m with visited := m.visited.set u.toNat true, out := m.out ++ [u] }
    else some (.oob m)

/-- A call `DFS(start)` entered with the memory `m`, giving the memory when the call ends.
The declaration `vector<bool> visited(V, false);` makes the local afresh, whatever `m` holds
in its place, and `out` and `calls` record this call from its start; then
`DFSUtil(start, visited);` with the bound on the depth that `Graph.DFS` has. -/
def DFSMem.call (m : DFSMem) (start : Int) : Option (Run DFSMem) :=
  DFSUtilMem (m.V + 1) start
    { m with visited := List.replicate m.V false, out := [], calls := [] }

/-- A call `g.DFS(start)` on the object `g`: the memory when the call ends. -/
def Graph.callDFS (g : Graph) (start : Int) : Option (Run DFSMem) :=
  DFSMem.call { V := g.V, adj := g.adj, visited := [], out := [], calls := [] } start

/-! ## Index arithmetic and the `visited` vector -/

theorem inBounds_iff {i : Int} {n : Nat} : inBounds i n = true ↔ 0 ≤ i ∧ i < (n : Int) := by
  simp [inBounds]

theorem toNat_lt_of_inBounds {i : Int} {n : Nat} (h : inBounds i n = true) : i.toNat < n := by
  rw [inBounds_iff] at h; omega

theorem toNat_eq_iff_of_inBounds {a b : Int} {n m : Nat} (ha : inBounds a n = true)
    (hb : inBounds b m = true) : a.toNat = b.toNat ↔ a = b := by
  rw [inBounds_iff] at ha hb; omega

theorem getD_set_true (vis : List Bool) (i j : Nat) (hi : i < vis.length) :
    (vis.set i true).getD j false = (decide (j = i) || vis.getD j false) := by
  simp only [List.getD_eq_getElem?_getD, List.getElem?_set]
  by_cases h : i = j
  · subst h; simp [hi]
  · have : ¬ j = i := fun e => h e.symm
    simp [h, this]

theorem isVisited_set {vis : List Bool} {a v : Int} (ha : inBounds a vis.length = true) :
    isVisited (vis.set a.toNat true) v ↔ v = a ∨ isVisited vis v := by
  unfold isVisited
  rw [List.length_set, getD_set_true _ _ _ (toNat_lt_of_inBounds ha)]
  constructor
  · rintro ⟨hv, h⟩
    simp only [Bool.or_eq_true, decide_eq_true_eq] at h
    rcases h with h | h
    · exact Or.inl ((toNat_eq_iff_of_inBounds hv ha).1 h)
    · exact Or.inr ⟨hv, h⟩
  · rintro (rfl | ⟨hv, h⟩)
    · exact ⟨ha, by simp⟩
    · exact ⟨hv, by rw [h]; simp⟩

theorem not_isVisited_replicate (n : Nat) (v : Int) : ¬ isVisited (List.replicate n false) v := by
  rintro ⟨_, h⟩
  simp only [List.getD_eq_getElem?_getD, List.getElem?_replicate] at h
  split at h <;> simp at h
  
theorem isVisited_inBounds {vis : List Bool} {v : Int} (h : isVisited vis v) :
    inBounds v vis.length = true := h.1

theorem length_le_of_nodup_inBounds {l : List Int} {n : Nat} (hl : l.Nodup)
    (hb : ∀ v ∈ l, inBounds v n = true) : l.length ≤ n := by
  have h1 : (l.map Int.toNat).Nodup :=
    List.Nodup.map_on (fun x hx y hy e => (toNat_eq_iff_of_inBounds (hb x hx) (hb y hy)).1 e) hl
  have h2 : l.map Int.toNat ⊆ List.range n := by
    intro k hk
    obtain ⟨v, hv, rfl⟩ := List.mem_map.1 hk
    exact List.mem_range.2 (toNat_lt_of_inBounds (hb v hv))
  have h3 := (List.subperm_of_subset h1 h2).length_le
  simpa using h3

/-! ## The neighbour loop and the `while` loop of `Graph::BFS` -/

theorem claim_fresh {st : BFSState} {v : Int} (hb : inBounds v st.visited.length = true)
    (hv : ¬ isVisited st.visited v) :
    claim st v = .done { st with visited := st.visited.set v.toNat true, q := st.q ++ [v] } := by
  have h : st.visited.getD v.toNat false = false := by
    cases e : st.visited.getD v.toNat false
    · rfl
    · exact absurd ⟨hb, e⟩ hv
  unfold claim
  rw [if_pos hb, h]
  rfl

theorem claim_seen {st : BFSState} {v : Int} (hv : isVisited st.visited v) :
    claim st v = .done st := by
  unfold claim
  rw [if_pos hv.1, hv.2]
  rfl

theorem scan_spec (l : List Int) : ∀ st : BFSState,
    (∀ v ∈ l, inBounds v st.visited.length = true) →
    ∃ st1 new, scan l st = .done st1 ∧ st1.out = st.out ∧ st1.q = st.q ++ new ∧
      st1.visited.length = st.visited.length ∧ new.Nodup ∧
      (∀ v, v ∈ new ↔ v ∈ l ∧ ¬ isVisited st.visited v) ∧
      (∀ v, isVisited st1.visited v ↔ isVisited st.visited v ∨ v ∈ new) := by
  induction l with
  | nil =>
    intro st _
    exact ⟨st, [], rfl, rfl, by simp, rfl, List.nodup_nil, by simp, by simp⟩
  | cons a rest ih =>
    intro st hb
    have ha := hb a (List.mem_cons_self _ _)
    by_cases hv : isVisited st.visited a
    · obtain ⟨st1, new, h1, h2, h3, h4, h5, h6, h7⟩ :=
        ih st (fun v hv => hb v (List.mem_cons_of_mem _ hv))
      refine ⟨st1, new, ?_, h2, h3, h4, h5, ?_, h7⟩
      · simp [scan, claim_seen hv, h1]
      · intro v
        rw [h6, List.mem_cons]
        constructor
        · rintro ⟨h, h'⟩; exact ⟨Or.inr h, h'⟩
        · rintro ⟨h | h, h'⟩
          · subst h; exact absurd hv h'
          · exact ⟨h, h'⟩
    · obtain ⟨st1, new, h1, h2, h3, h4, h5, h6, h7⟩ :=
        ih { st with visited := st.visited.set a.toNat true, q := st.q ++ [a] }
          (fun v hv => by simpa using hb v (List.mem_cons_of_mem _ hv))
      have hnot : a ∉ new := by
        intro h
        exact ((h6 a).1 h).2 ((isVisited_set ha).2 (Or.inl rfl))
      refine ⟨st1, a :: new, ?_, h2, ?_, ?_, List.nodup_cons.2 ⟨hnot, h5⟩, ?_, ?_⟩
      · simp [scan, claim_fresh ha hv, h1]
      · simp [h3]
      · simpa using h4
      · intro v
        rw [List.mem_cons, h6, List.mem_cons]
        simp only [isVisited_set ha, not_or]
        constructor
        · rintro (h | ⟨h, h', h''⟩)
          · subst h; exact ⟨Or.inl rfl, hv⟩
          · exact ⟨Or.inr h, h''⟩
        · rintro ⟨h | h, h'⟩
          · exact Or.inl h
          · by_cases e : v = a
            · exact Or.inl e
            · exact Or.inr ⟨h, e, h'⟩
      · intro v
        rw [h7, List.mem_cons]
        simp only [isVisited_set ha]
        tauto

theorem Graph.WF.adj_inBounds {g : Graph} (hg : g.WF) {u v : Int} (h : g.Adj u v) :
    inBounds v g.V = true := by
  obtain ⟨hu, hv⟩ := h
  have hlt := toNat_lt_of_inBounds hu
  rw [List.getD_eq_getElem?_getD, List.getElem?_eq_getElem hlt] at hv
  exact hg.2 _ (List.getElem_mem hlt) v hv

theorem bfsBody_step {g : Graph} {s : Int} {st : BFSState} {u : Int} {rest : List Int}
    (hg : g.WF) (h : BFSInv g s st) (hq : st.q = u :: rest) :
    ∃ st2 new, bfsBody g u { st with q := rest, out := st.out ++ [u] } = .done st2 ∧
      st2.out = st.out ++ [u] ∧ st2.q = rest ++ new ∧ new.Nodup ∧
      (∀ v, v ∈ new ↔ g.Adj u v ∧ v ∉ st.out ++ st.q) ∧ BFSInv g s st2 := by
  have humem : u ∈ st.out ++ st.q := by rw [hq]; simp
  have hub : inBounds u g.adj.length = true := by
    have := ((h.vis u).2 humem).1
    rw [h.len] at this; rw [hg.1]; exact this
  have hadj : ∀ v, v ∈ g.adj.getD u.toNat [] ↔ g.Adj u v := fun v => by simp [Graph.Adj, hub]
  obtain ⟨st2, new, h1, h2, h3, h4, h5, h6, h7⟩ :=
    scan_spec (g.adj.getD u.toNat []) { st with q := rest, out := st.out ++ [u] }
      (fun v hv => by
        show inBounds v st.visited.length = true
        rw [h.len]; exact hg.adj_inBounds ((hadj v).1 hv))
  have hnew : ∀ v, v ∈ new ↔ g.Adj u v ∧ v ∉ st.out ++ st.q := fun v => by
    rw [h6, hadj, ← h.vis]
  have hL : st2.out ++ st2.q = (st.out ++ st.q) ++ new := by
    rw [h2, h3, hq]; simp
  refine ⟨st2, new, ?_, h2, h3, h5, hnew, ?_⟩
  · unfold bfsBody; rw [if_pos hub]; exact h1
  · refine ⟨by rw [h4]; exact h.len, ?_, ?_, ?_, ?_, ?_⟩
    · intro v
      rw [h7, hL, List.mem_append]
      exact or_congr (h.vis v) Iff.rfl
    · rw [hL]
      exact List.Nodup.append h.nodup h5 (fun v hv hv' => ((hnew v).1 hv').2 hv)
    · intro v hv
      rw [hL, List.mem_append] at hv
      rcases hv with hv | hv
      · exact h.reach v hv
      · exact (h.reach u humem).tail ((hnew v).1 hv).1
    · intro a ha v hav
      rw [hL, List.mem_append]
      rw [h2, List.mem_append, List.mem_singleton] at ha
      rcases ha with ha | ha
      · exact Or.inl (h.closed a ha v hav)
      · subst ha
        by_cases hv : v ∈ st.out ++ st.q
        · exact Or.inl hv
        · exact Or.inr ((hnew v).2 ⟨hav, hv⟩)
    · rw [hL]; exact List.mem_append_left _ h.start

theorem bfsLoop_spec {g : Graph} {s : Int} (hg : g.WF) (P : BFSState → Prop)
    (hP : ∀ (st st2 : BFSState) (u : Int) (rest new : List Int), BFSInv g s st → P st →
      st.q = u :: rest → st2.out = st.out ++ [u] → st2.q = rest ++ new →
      (∀ v, v ∈ new ↔ g.Adj u v ∧ v ∉ st.out ++ st.q) → BFSInv g s st2 → P st2) :
    ∀ (fuel : Nat) (st : BFSState), BFSInv g s st → P st → g.V ≤ fuel + st.out.length →
      ∃ st1, bfsLoop g fuel st = some (.done st1) ∧ st1.q = [] ∧ BFSInv g s st1 ∧ P st1 := by
  intro fuel
  induction fuel with
  | zero =>
    intro st h hp hf
    cases hq : st.q with
    | nil => exact ⟨st, by simp [bfsLoop, hq], hq, h, hp⟩
    | cons u rest =>
      exfalso
      have hlen := length_le_of_nodup_inBounds h.nodup
        (fun v hv => by have := ((h.vis v).2 hv).1; rwa [h.len] at this)
      rw [hq] at hlen
      simp at hlen hf
      omega
  | succ n ih =>
    intro st h hp hf
    cases hq : st.q with
    | nil => exact ⟨st, by simp [bfsLoop, hq], hq, h, hp⟩
    | cons u rest =>
      obtain ⟨st2, new, h1, h2, h3, _, h5, h6⟩ := bfsBody_step hg h hq
      obtain ⟨st3, e1, e2, e3, e4⟩ := ih st2 h6 (hP st st2 u rest new h hp hq h2 h3 h5 h6)
        (by rw [h2]; simp; omega)
      refine ⟨st3, ?_, e2, e3, e4⟩
      rw [bfsLoop]
      simp only [hq, h1]
      exact e1

/-! ## Walks, distances and the level invariant of `Graph::BFS` -/

theorem Walk.reach {R : Int → Int → Prop} {s v : Int} {n : Nat} (h : Walk R s v n) :
    Relation.ReflTransGen R s v := by
  induction h with
  | refl => exact Relation.ReflTransGen.refl
  | step _ hr ih => exact ih.tail hr

theorem exists_walk_of_reach {R : Int → Int → Prop} {s v : Int}
    (h : Relation.ReflTransGen R s v) : ∃ n, Walk R s v n := by
  induction h with
  | refl => exact ⟨0, Walk.refl⟩
  | tail _ hr ih =>
    obtain ⟨n, hn⟩ := ih
    exact ⟨n + 1, hn.step hr⟩

theorem walk_zero_iff {R : Int → Int → Prop} {s v : Int} : Walk R s v 0 ↔ v = s := by
  constructor
  · intro h; cases h; rfl
  · rintro rfl; exact Walk.refl

theorem walk_succ_iff {R : Int → Int → Prop} {s v : Int} {n : Nat} :
    Walk R s v (n + 1) ↔ ∃ u, Walk R s u n ∧ R u v := by
  constructor
  · intro h; cases h with
    | step hw hr => exact ⟨_, hw, hr⟩
  · rintro ⟨u, hw, hr⟩; exact hw.step hr

theorem exists_isDist_of_reach {R : Int → Int → Prop} {s v : Int}
    (h : Relation.ReflTransGen R s v) : ∃ d, IsDist R s v d := by
  classical
  have hex := exists_walk_of_reach h
  exact ⟨Nat.find hex, Nat.find_spec hex, fun n hn => Nat.find_min' hex hn⟩

theorem IsDist.unique {R : Int → Int → Prop} {s v : Int} {d e : Nat}
    (h1 : IsDist R s v d) (h2 : IsDist R s v e) : d = e :=
  Nat.le_antisymm (h1.2 e h2.1) (h2.2 d h1.1)

theorem isDist_self (R : Int → Int → Prop) (s : Int) : IsDist R s s 0 :=
  ⟨Walk.refl, fun _ _ => Nat.zero_le _⟩

theorem bfsLevel_step {g : Graph} {s : Int} {d : Int → Nat}
    (hd : ∀ v, Relation.ReflTransGen g.Adj s v → IsDist g.Adj s v (d v))
    (st st2 : BFSState) (u : Int) (rest new : List Int) (h : BFSInv g s st)
    (hl : BFSLevelInv d g s st) (hq : st.q = u :: rest) (ho : st2.out = st.out ++ [u])
    (hq2 : st2.q = rest ++ new) (hnew : ∀ v, v ∈ new ↔ g.Adj u v ∧ v ∉ st.out ++ st.q)
    (h2 : BFSInv g s st2) : BFSLevelInv d g s st2 := by
  have hL : st2.out ++ st2.q = (st.out ++ st.q) ++ new := by rw [ho, hq2, hq]; simp
  have humem : u ∈ st.out ++ st.q := by rw [hq]; simp
  have hhead : st.q.head? = some u := by rw [hq]; rfl
  have hru := h.reach u humem
  -- every freshly claimed vertex is one step further than `u`
  have hdnew : ∀ v ∈ new, d v = d u + 1 := by
    intro v hv
    obtain ⟨hadj, hnot⟩ := (hnew v).1 hv
    have hrv : Relation.ReflTransGen g.Adj s v := hru.tail hadj
    have h1 : d v ≤ d u + 1 := (hd v hrv).2 _ ((hd u hru).1.step hadj)
    have h3 : ¬ d v ≤ d u := fun hle => hnot (hl.full u hhead v hrv hle)
    omega
  have hbound : ∀ y ∈ (st.out ++ st.q) ++ new, d y ≤ d u + 1 := by
    intro y hy
    rcases List.mem_append.1 hy with hy | hy
    · exact hl.near u hhead y hy
    · exact (hdnew y hy).le
  have hmono : ((st.out ++ st.q) ++ new).Pairwise (fun a b => d a ≤ d b) := by
    rw [List.pairwise_append]
    refine ⟨hl.mono, ?_, ?_⟩
    · exact List.pairwise_of_forall_mem_list
        (fun a ha b hb => by rw [hdnew a ha, hdnew b hb])
    · intro a ha b hb
      rw [hdnew b hb]; exact hl.near u hhead a ha
  have hrest : ∀ x ∈ rest, d u ≤ d x := by
    have := hl.mono
    rw [hq, List.pairwise_append] at this
    exact fun x hx => (List.pairwise_cons.1 this.2.1).1 x hx
  have hfront : ∀ x, st2.q.head? = some x → d u ≤ d x := by
    intro x hx
    have hxm : x ∈ st2.q := List.mem_of_mem_head? hx
    rw [hq2] at hxm
    rcases List.mem_append.1 hxm with hxm | hxm
    · exact hrest x hxm
    · rw [hdnew x hxm]; omega
  refine ⟨by rw [hL]; exact hmono, ?_, ?_⟩
  · intro x hx y hy
    rw [hL] at hy
    have := hbound y hy
    have := hfront x hx
    omega
  · intro x hx w hw hwx
    by_cases hle : d w ≤ d u
    · rw [hL]; exact List.mem_append_left _ (hl.full u hhead w hw hle)
    · have hxm : x ∈ (st.out ++ st.q) ++ new := by
        rw [← hL]; exact List.mem_append_right _ (List.mem_of_mem_head? hx)
      have hxb := hbound x hxm
      obtain ⟨k, hk⟩ : ∃ k, d w = k + 1 := ⟨d w - 1, by omega⟩
      have hwalk := (hd w hw).1
      rw [hk, walk_succ_iff] at hwalk
      obtain ⟨p, hp, hpw⟩ := hwalk
      have hrp := hp.reach
      have hdp : d p ≤ k := (hd p hrp).2 k hp
      have hpL : p ∈ st.out ++ st.q := hl.full u hhead p hrp (by omega)
      have hpo : p ∈ st2.out := by
        rw [ho, List.mem_append, List.mem_singleton]
        rw [hq, List.mem_append, List.mem_cons] at hpL
        rcases hpL with hpL | hpL | hpL
        · exact Or.inl hpL
        · exact Or.inr hpL
        · exfalso
          have hpq : p ∈ st2.q := by rw [hq2]; exact List.mem_append_left _ hpL
          obtain ⟨t, ht⟩ : ∃ t, st2.q = x :: t := by
            cases hc : st2.q with
            | nil => rw [hc] at hx; simp at hx
            | cons a t => rw [hc] at hx; simp at hx; exact ⟨t, by rw [hx]⟩
          have hm2 : (st2.out ++ st2.q).Pairwise (fun a b => d a ≤ d b) := by
            rw [hL]; exact hmono
          rw [ht, List.pairwise_append] at hm2
          rw [ht, List.mem_cons] at hpq
          rcases hpq with hpq | hpq
          · subst hpq; omega
          · have := (List.pairwise_cons.1 hm2.2.1).1 p hpq
            omega
      exact h2.closed p hpo w hpw

/-! ## `addEdge` and the graphs it builds -/

theorem getD_pushBack (adj : List (List Int)) {u a : Int} (v : Int)
    (hu : inBounds u adj.length = true) (ha : inBounds a adj.length = true) :
    (pushBack adj u v).getD a.toNat [] =
      adj.getD a.toNat [] ++ (if a = u then [v] else []) := by
  unfold pushBack
  simp only [List.getD_eq_getElem?_getD, List.getElem?_set]
  by_cases h : a = u
  · subst h
    simp [toNat_lt_of_inBounds ha]
  · have hne : ¬ u.toNat = a.toNat := fun e => h ((toNat_eq_iff_of_inBounds ha hu).1 e.symm)
    simp [h, hne]

theorem length_pushBack (adj : List (List Int)) (u v : Int) :
    (pushBack adj u v).length = adj.length := by
  simp [pushBack]

theorem addEdge_spec (g : Graph) {u v : Int} (hu : inBounds u g.adj.length = true)
    (hv : inBounds v g.adj.length = true) :
    ∃ g1, g.addEdge u v = .done g1 ∧ g1.V = g.V ∧ g1.adj.length = g.adj.length ∧
      ∀ a, inBounds a g.adj.length = true →
        g1.adj.getD a.toNat [] =
          g.adj.getD a.toNat [] ++ (if a = u then [v] else []) ++ (if a = v then [u] else []) := by
  refine ⟨{ g with adj := pushBack (pushBack g.adj u v) v u }, ?_, rfl, ?_, ?_⟩
  · unfold Graph.addEdge
    simp only [hu, length_pushBack, hv, if_true]
  · simp [length_pushBack]
  · intro a ha
    show (pushBack (pushBack g.adj u v) v u).getD a.toNat [] = _
    rw [getD_pushBack _ _ (by rw [length_pushBack]; exact hv) (by rw [length_pushBack]; exact ha),
      getD_pushBack _ _ hu ha]

theorem addEdges_spec (edges : List (Int × Int)) : ∀ (g : Graph),
    EdgesInRange g.adj.length edges →
    ∃ g1, addEdges g edges = .done g1 ∧ g1.V = g.V ∧ g1.adj.length = g.adj.length ∧
      ∀ a, inBounds a g.adj.length = true →
        g1.adj.getD a.toNat [] = g.adj.getD a.toNat [] ++ insertedNeighbours edges a := by
  induction edges with
  | nil =>
    intro g _
    exact ⟨g, rfl, rfl, rfl, fun a _ => by simp [insertedNeighbours]⟩
  | cons e es ih =>
    intro g h
    obtain ⟨u, v⟩ := e
    have he := h (u, v) (List.mem_cons_self _ _)
    obtain ⟨g1, e1, e2, e3, e4⟩ := addEdge_spec g he.1 he.2
    obtain ⟨g2, f1, f2, f3, f4⟩ := ih g1 (by
      rw [e3]; exact fun x hx => h x (List.mem_cons_of_mem _ hx))
    refine ⟨g2, ?_, f2.trans e2, f3.trans e3, ?_⟩
    · simp only [addEdges, e1]; exact f1
    · intro a ha
      rw [f4 a (by rw [e3]; exact ha), e4 a ha]
      simp [insertedNeighbours, List.append_assoc]

theorem mem_insertedNeighbours {edges : List (Int × Int)} {a b : Int} :
    b ∈ insertedNeighbours edges a ↔ Linked edges a b := by
  induction edges with
  | nil => simp [insertedNeighbours, Linked]
  | cons e es ih =>
    obtain ⟨u, v⟩ := e
    simp only [insertedNeighbours, List.mem_append, ih, Linked, List.mem_cons, Prod.mk.injEq]
    by_cases h1 : a = u <;> by_cases h2 : a = v <;> simp [h1, h2] <;> tauto

theorem Graph.WF.of_getD {g : Graph} (hlen : g.adj.length = g.V)
    (h : ∀ a, inBounds a g.V = true → ∀ v ∈ g.adj.getD a.toNat [], inBounds v g.V = true) :
    g.WF := by
  refine ⟨hlen, fun l hl v hv => ?_⟩
  obtain ⟨i, hi, rfl⟩ := List.getElem_of_mem hl
  have hb : inBounds (i : Int) g.V = true := by
    rw [inBounds_iff]; omega
  apply h (i : Int) hb v
  simpa [List.getD_eq_getElem?_getD, List.getElem?_eq_getElem hi] using hv

theorem buildGraph_spec (V : Nat) (edges : List (Int × Int)) (h : EdgesInRange V edges) :
    ∃ g, buildGraph (V : Int) edges = some (.done g) ∧ g.V = V ∧ g.adj.length = V ∧
      (∀ a, inBounds a V = true → g.adj.getD a.toNat [] = insertedNeighbours edges a) ∧
      g.WF ∧ ∀ a b, g.Adj a b ↔ Linked edges a b := by
  have hc : Graph.create (V : Int) = some ⟨V, List.replicate V []⟩ := by
    simp [Graph.create]
  obtain ⟨g, e1, e2, e3, e4⟩ := addEdges_spec edges ⟨V, List.replicate V []⟩
    (by simpa using h)
  simp only [List.length_replicate] at e2 e3 e4
  have hadj : ∀ a, inBounds a V = true → g.adj.getD a.toNat [] = insertedNeighbours edges a := by
    intro a ha
    rw [e4 a ha]
    simp [List.getD_eq_getElem?_getD, List.getElem?_replicate, toNat_lt_of_inBounds ha]
  have hlink : ∀ a b, Linked edges a b → inBounds a V = true ∧ inBounds b V = true := by
    rintro a b (hab | hab)
    · exact h _ hab
    · exact (h _ hab).symm
  refine ⟨g, ?_, e2, e3, hadj, ?_, ?_⟩
  · simp only [buildGraph, hc, e1]
  · refine Graph.WF.of_getD (e3.trans e2.symm) (fun a ha v hv => ?_)
    rw [e2] at ha ⊢
    rw [hadj a ha, mem_insertedNeighbours] at hv
    exact (hlink a v hv).2
  · intro a b
    constructor
    · rintro ⟨ha, hb⟩
      rw [e3] at ha
      rwa [hadj a ha, mem_insertedNeighbours] at hb
    · intro hab
      have ha := (hlink a b hab).1
      exact ⟨by rw [e3]; exact ha, by rw [hadj a ha, mem_insertedNeighbours]; exact hab⟩

/-! ## `Graph::BFS` from its first state -/

theorem BFSFuel_eq {g : Graph} {s : Int} (hs : inBounds s g.V = true) (fuel : Nat) :
    g.BFSFuel fuel s = bfsLoop g fuel (bfsInit g s) := by
  unfold Graph.BFSFuel bfsInit
  simp only [List.length_replicate, hs, if_true]

theorem bfsInit_inv (g : Graph) {s : Int} (hs : inBounds s g.V = true) :
    BFSInv g s (bfsInit g s) := by
  have hs' : inBounds s (List.replicate g.V false).length = true := by simpa using hs
  refine ⟨by simp [bfsInit], ?_, by simp [bfsInit], ?_, ?_, by simp [bfsInit]⟩
  · intro v
    show isVisited ((List.replicate g.V false).set s.toNat true) v ↔ v ∈ [] ++ [s]
    rw [isVisited_set hs']
    simp [not_isVisited_replicate]
  · intro v hv
    have : v = s := by simpa [bfsInit] using hv
    rw [this]
  · intro u hu
    simp [bfsInit] at hu

theorem BFS_spec {g : Graph} {s : Int} (hg : g.WF) (hs : inBounds s g.V = true)
    (P : BFSState → Prop) (h0 : P (bfsInit g s))
    (hP : ∀ (st st2 : BFSState) (u : Int) (rest new : List Int), BFSInv g s st → P st →
      st.q = u :: rest → st2.out = st.out ++ [u] → st2.q = rest ++ new →
      (∀ v, v ∈ new ↔ g.Adj u v ∧ v ∉ st.out ++ st.q) → BFSInv g s st2 → P st2)
    (fuel : Nat) (hf : g.V ≤ fuel) :
    ∃ st, g.BFSFuel fuel s = some (.done st) ∧ st.q = [] ∧ BFSInv g s st ∧ P st := by
  rw [BFSFuel_eq hs]
  exact bfsLoop_spec hg P hP fuel (bfsInit g s) (bfsInit_inv g hs) h0 (by simp [bfsInit]; omega)

theorem BFSInv.mem_out_iff {g : Graph} {s : Int} {st : BFSState} (h : BFSInv g s st)
    (hq : st.q = []) (v : Int) : v ∈ st.out ↔ Relation.ReflTransGen g.Adj s v := by
  have hL : st.out ++ st.q = st.out := by rw [hq]; simp
  constructor
  · intro hv; exact h.reach v (by rw [hL]; exact hv)
  · intro hr
    induction hr with
    | refl => have := h.start; rwa [hL] at this
    | tail _ hab ih => have := h.closed _ ih _ hab; rwa [hL] at this

theorem bfsInit_level {g : Graph} {s : Int} {d : Int → Nat}
    (hd : ∀ v, Relation.ReflTransGen g.Adj s v → IsDist g.Adj s v (d v)) :
    BFSLevelInv d g s (bfsInit g s) := by
  have hds : d s = 0 := (hd s Relation.ReflTransGen.refl).unique (isDist_self _ _)
  refine ⟨by simp [bfsInit], ?_, ?_⟩
  · intro x hx y hy
    have hx' : s = x := by simpa [bfsInit] using hx
    have hy' : y = s := by simpa [bfsInit] using hy
    subst hx'; subst hy'; omega
  · intro x hx w hw hwx
    have hx' : s = x := by simpa [bfsInit] using hx
    subst hx'
    have hw0 : d w = 0 := by omega
    have := (hd w hw).1
    rw [hw0, walk_zero_iff] at this
    simp [bfsInit, this]

/-- What `Graph::BFS` does on a well-formed graph from a vertex in range. -/
theorem BFS_levels {g : Graph} {s : Int} (hg : g.WF) (hs : inBounds s g.V = true)
    (fuel : Nat) (hf : g.V ≤ fuel) :
    ∃ st, g.BFSFuel fuel s = some (.done st) ∧ st.q = [] ∧ BFSInv g s st ∧
      st.out.Pairwise (fun a b => ∀ da db, IsDist g.Adj s a da → IsDist g.Adj s b db → da ≤ db) := by
  obtain ⟨d, hd⟩ : ∃ d : Int → Nat,
      ∀ v, Relation.ReflTransGen g.Adj s v → IsDist g.Adj s v (d v) := by
    classical
    refine ⟨fun v => if h : Relation.ReflTransGen g.Adj s v
      then (exists_isDist_of_reach h).choose else 0, fun v hv => ?_⟩
    simp only [hv, dif_pos]
    exact (exists_isDist_of_reach hv).choose_spec
  obtain ⟨st, h1, h2, h3, h4⟩ := BFS_spec hg hs (BFSLevelInv d g s) (bfsInit_level hd)
    (fun st st2 u rest new hi hl hq ho hq2 hnew hi2 =>
      bfsLevel_step hd st st2 u rest new hi hl hq ho hq2 hnew hi2) fuel hf
  refine ⟨st, h1, h2, h3, ?_⟩
  have hm := h4.mono
  rw [h2, List.append_nil] at hm
  refine hm.imp_of_mem ?_
  intro a b ha hb hab da db hda hdb
  have ra := (h3.mem_out_iff h2 a).1 ha
  have rb := (h3.mem_out_iff h2 b).1 hb
  rw [hda.unique (hd a ra), hdb.unique (hd b rb)]
  exact hab

/-! ## `Graph::DFSUtil` -/

theorem count_false_set (l : List Bool) (i : Nat) (hi : i < l.length)
    (h : l.getD i false = false) : (l.set i true).count false + 1 = l.count false := by
  induction l generalizing i with
  | nil => simp at hi
  | cons a t ih =>
    cases i with
    | zero =>
      have : a = false := by simpa using h
      subst this
      simp
    | succ k =>
      have hk : k < t.length := by simpa using hi
      have h' : t.getD k false = false := by simpa using h
      have := ih k hk h'
      cases a <;> simp [List.count_cons] <;> omega

theorem getD_false_of_not_isVisited {vis : List Bool} {v : Int}
    (hb : inBounds v vis.length = true) (hv : ¬ isVisited vis v) :
    vis.getD v.toNat false = false := by
  cases e : vis.getD v.toNat false
  · rfl
  · exact absurd ⟨hb, e⟩ hv

theorem dfsScan_cons_seen (call : Int → DFSState → Option (Run DFSState)) (u : Int)
    {v : Int} (rest : List Int) {st : DFSState} (hv : isVisited st.visited v) :
    dfsScan call u (v :: rest) st = dfsScan call u rest st := by
  rw [dfsScan, if_pos hv.1, hv.2]
  rfl

theorem dfsScan_cons_fresh (call : Int → DFSState → Option (Run DFSState)) (u : Int)
    {v : Int} (rest : List Int) {st st1 : DFSState}
    (hb : inBounds v st.visited.length = true) (hv : ¬ isVisited st.visited v)
    (hc : call v { st with calls := st.calls ++ [(u, v)] } = some (.done st1)) :
    dfsScan call u (v :: rest) st = dfsScan call u rest st1 := by
  rw [dfsScan, if_pos hb, getD_false_of_not_isVisited hb hv]
  simp only [Bool.not_false, if_true, hc]

theorem DFSUtil_succ (g : Graph) (f : Nat) {u : Int} {st : DFSState}
    (hb : inBounds u st.visited.length = true) (ha : inBounds u g.adj.length = true) :
    DFSUtil g (f + 1) u st = dfsScan (DFSUtil g f) u (g.adj.getD u.toNat [])
      { st with visited := st.visited.set u.toNat true, out := st.out ++ [u] } := by
  rw [DFSUtil, if_pos hb]
  simp only [ha, if_true]

theorem dfsScan_spec {g : Graph} (f : Nat) (u : Int)
    (ih : ∀ (v : Int) (st : DFSState), st.visited.length = g.V → inBounds v g.V = true →
      ¬ isVisited st.visited v → st.visited.count false ≤ f →
      ∃ st1 new nc, DFSUtil g f v st = some (.done st1) ∧
        DFSPost g v [] st st1 (v :: new) nc ∧ nc.map Prod.snd = new)
    (hin : ∀ b, g.Adj u b → inBounds b g.V = true) :
    ∀ (l : List Int) (st : DFSState), (∀ b ∈ l, g.Adj u b) → st.visited.length = g.V →
      st.visited.count false ≤ f →
      ∃ st1 new nc, dfsScan (DFSUtil g f) u l st = some (.done st1) ∧
        DFSPost g u [u] st st1 new nc ∧ nc.map Prod.snd = new ∧
        ∀ b ∈ l, isVisited st1.visited b := by
  intro l
  induction l with
  | nil =>
    intro st _ _ _
    refine ⟨st, [], [], rfl, ?_, rfl, by simp⟩
    exact ⟨rfl, by simp, by simp, List.nodup_nil, by simp, by simp, by simp, by simp,
      le_refl _, by simp⟩
  | cons v rest ihl =>
    intro st hl hlen hcnt
    have hadj : g.Adj u v := hl v (List.mem_cons_self _ _)
    have hrest : ∀ b ∈ rest, g.Adj u b := fun b hb => hl b (List.mem_cons_of_mem _ hb)
    by_cases hv : isVisited st.visited v
    · obtain ⟨st1, new, nc, h1, h2, h3, h4⟩ := ihl st hrest hlen hcnt
      refine ⟨st1, new, nc, ?_, h2, h3, ?_⟩
      · rw [dfsScan_cons_seen _ _ _ hv]; exact h1
      · intro b hb
        rcases List.mem_cons.1 hb with rfl | hb
        · exact (h2.vis b).2 (Or.inl hv)
        · exact h4 b hb
    · have hvb : inBounds v st.visited.length = true := by rw [hlen]; exact hin v hadj
      obtain ⟨stm, new1, nc1, e1, p1, m1⟩ :=
        ih v { st with calls := st.calls ++ [(u, v)] } hlen (hin v hadj) hv hcnt
      obtain ⟨st1, new2, nc2, e2, p2, m2, x2⟩ :=
        ihl stm hrest (p1.len.trans hlen) (le_trans p1.cnt hcnt)
      refine ⟨st1, (v :: new1) ++ new2, (u, v) :: nc1 ++ nc2, ?_, ?_, ?_, ?_⟩
      · rw [dfsScan_cons_fresh _ _ _ hvb hv e1]; exact e2
      · refine ⟨p2.len.trans p1.len, ?_, ?_, ?_, ?_, ?_, ?_, ?_, le_trans p2.cnt p1.cnt, ?_⟩
        · rw [p2.out, p1.out, List.append_assoc]
        · rw [p2.calls, p1.calls]; simp
        · exact List.Nodup.append p1.nodup p2.nodup
            (fun a ha ha' => p2.fresh a ha' ((p1.vis a).2 (Or.inr ha)))
        · intro a ha
          rcases List.mem_append.1 ha with ha | ha
          · exact p1.fresh a ha
          · exact fun hvis => p2.fresh a ha ((p1.vis a).2 (Or.inl hvis))
        · intro a
          rw [p2.vis, p1.vis, List.mem_append]
          exact or_assoc
        · intro a ha
          rcases List.mem_append.1 ha with ha | ha
          · exact Relation.ReflTransGen.head hadj (p1.reach a ha)
          · exact p2.reach a ha
        · intro a ha b hab
          rcases List.mem_append.1 ha with ha | ha
          · exact (p2.vis b).2 (Or.inl (p1.closed a ha b hab))
          · exact p2.closed a ha b hab
        · intro p c hpc
          rw [List.cons_append, List.mem_cons, List.mem_append] at hpc
          rcases hpc with hpc | hpc | hpc
          · obtain ⟨rfl, rfl⟩ := Prod.mk.inj hpc
            exact ⟨hadj, [], new1 ++ new2, rfl, Or.inl (List.mem_singleton_self _)⟩
          · obtain ⟨ha, l1, l2, hl12, hp⟩ := p1.parent p c hpc
            refine ⟨ha, l1, l2 ++ new2, by rw [hl12]; simp, Or.inr ?_⟩
            rcases hp with hp | hp
            · simp at hp
            · exact hp
          · obtain ⟨ha, l1, l2, hl12, hp⟩ := p2.parent p c hpc
            refine ⟨ha, (v :: new1) ++ l1, l2, by rw [hl12]; simp, ?_⟩
            rcases hp with hp | hp
            · exact Or.inl hp
            · exact Or.inr (List.mem_append_right _ hp)
      · simp [m1, m2]
      · intro b hb
        rcases List.mem_cons.1 hb with rfl | hb
        · exact (p2.vis b).2 (Or.inl ((p1.vis b).2 (Or.inr (List.mem_cons_self _ _))))
        · exact x2 b hb

theorem DFSUtil_spec {g : Graph} (hg : g.WF) : ∀ (f : Nat) (u : Int) (st : DFSState),
    st.visited.length = g.V → inBounds u g.V = true → ¬ isVisited st.visited u →
    st.visited.count false ≤ f →
    ∃ st1 new nc, DFSUtil g f u st = some (.done st1) ∧
      DFSPost g u [] st st1 (u :: new) nc ∧ nc.map Prod.snd = new := by
  intro f
  induction f with
  | zero =>
    intro u st hlen hu hv hcnt
    exfalso
    have hb : inBounds u st.visited.length = true := by rw [hlen]; exact hu
    have := count_false_set st.visited u.toNat (toNat_lt_of_inBounds hb)
      (getD_false_of_not_isVisited hb hv)
    omega
  | succ f ih =>
    intro u st hlen hu hv hcnt
    have hb : inBounds u st.visited.length = true := by rw [hlen]; exact hu
    have ha : inBounds u g.adj.length = true := by rw [hg.1]; exact hu
    have hc := count_false_set st.visited u.toNat (toNat_lt_of_inBounds hb)
      (getD_false_of_not_isVisited hb hv)
    have hmem : ∀ b, b ∈ g.adj.getD u.toNat [] ↔ g.Adj u b := fun b => by simp [Graph.Adj, ha]
    obtain ⟨st1, new, nc, e, p, m, x⟩ := dfsScan_spec f u ih (fun b hb => hg.adj_inBounds hb)
      (g.adj.getD u.toNat [])
      { st with visited := st.visited.set u.toNat true, out := st.out ++ [u] }
      (fun b hb => (hmem b).1 hb) (by simpa using hlen) (by show (st.visited.set u.toNat true).count false ≤ f; omega)
    have hseta : ∀ v, isVisited (st.visited.set u.toNat true) v ↔ v = u ∨ isVisited st.visited v :=
      fun v => isVisited_set hb
    refine ⟨st1, new, nc, ?_, ?_, m⟩
    · rw [DFSUtil_succ g f hb ha]; exact e
    · refine ⟨p.len.trans (by simp), ?_, p.calls, ?_, ?_, ?_, ?_, ?_, ?_, ?_⟩
      · rw [p.out]; simp
      · refine List.nodup_cons.2 ⟨fun hmemu => ?_, p.nodup⟩
        exact p.fresh u hmemu ((hseta u).2 (Or.inl rfl))
      · intro a ha'
        rcases List.mem_cons.1 ha' with rfl | ha'
        · exact hv
        · exact fun hvis => p.fresh a ha' ((hseta a).2 (Or.inr hvis))
      · intro a
        have := p.vis a
        have h2 := hseta a
        simp only [] at this
        rw [this, h2, List.mem_cons]
        tauto
      · intro a ha'
        rcases List.mem_cons.1 ha' with rfl | ha'
        · exact Relation.ReflTransGen.refl
        · exact p.reach a ha'
      · intro a ha' b hab
        rcases List.mem_cons.1 ha' with rfl | ha'
        · exact x b ((hmem b).2 hab)
        · exact p.closed a ha' b hab
      · have := p.cnt
        simp only [] at this
        omega
      · intro q c hqc
        obtain ⟨hadj, l1, l2, hl12, hq⟩ := p.parent q c hqc
        refine ⟨hadj, u :: l1, l2, by rw [hl12]; rfl, Or.inr ?_⟩
        rcases hq with hq | hq
        · rw [List.mem_singleton.1 hq]; exact List.mem_cons_self _ _
        · exact List.mem_cons_of_mem _ hq

/-! ## Entries of `visited` never go back to false -/

theorem VisLE.refl (a : List Bool) : VisLE a a := ⟨rfl, fun _ h => h⟩

theorem VisLE.trans {a b c : List Bool} (h1 : VisLE a b) (h2 : VisLE b c) : VisLE a c :=
  ⟨h1.1.trans h2.1, fun i h => h2.2 i (h1.2 i h)⟩

theorem VisLE.set_true (a : List Bool) (i : Nat) : VisLE a (a.set i true) := by
  refine ⟨by simp, fun j h => ?_⟩
  by_cases hi : i < a.length
  · rw [getD_set_true a i j hi, h]; simp
  · rw [List.set_eq_of_length_le (Nat.le_of_not_lt hi)]; exact h

theorem claim_mono (st : BFSState) (v : Int) : VisLE st.visited (claim st v).state.visited := by
  unfold claim
  repeat' split
  all_goals first | exact VisLE.set_true _ _ | exact VisLE.refl _

theorem scan_mono (l : List Int) : ∀ st : BFSState, VisLE st.visited (scan l st).state.visited := by
  induction l with
  | nil => intro st; exact VisLE.refl _
  | cons v rest ih =>
    intro st
    have h := claim_mono st v
    rw [scan]
    cases hc : claim st v with
    | done st1 => rw [hc] at h; exact h.trans (ih st1)
    | oob st1 => rw [hc] at h; exact h

theorem bfsBody_mono (g : Graph) (u : Int) (st : BFSState) :
    VisLE st.visited (bfsBody g u st).state.visited := by
  unfold bfsBody
  split
  · exact scan_mono _ _
  · exact VisLE.refl _

theorem bfsLoop_mono (g : Graph) : ∀ (fuel : Nat) (st : BFSState) (r : Run BFSState),
    bfsLoop g fuel st = some r → VisLE st.visited r.state.visited := by
  intro fuel
  induction fuel with
  | zero =>
    intro st r h
    rw [bfsLoop] at h
    cases hq : st.q with
    | nil => rw [hq] at h; cases h; exact VisLE.refl _
    | cons u rest => rw [hq] at h; cases h
  | succ n ih =>
    intro st r h
    rw [bfsLoop] at h
    cases hq : st.q with
    | nil => rw [hq] at h; cases h; exact VisLE.refl _
    | cons u rest =>
      rw [hq] at h
      have hb := bfsBody_mono g u { st with q := rest, out := st.out ++ [u] }
      cases hc : bfsBody g u { st with q := rest, out := st.out ++ [u] } with
      | done st1 =>
        rw [hc] at hb
        simp only [hc] at h
        exact VisLE.trans hb (ih st1 r h)
      | oob st1 =>
        rw [hc] at hb
        simp only [hc] at h
        cases h
        exact hb

theorem dfsScan_mono (call : Int → DFSState → Option (Run DFSState)) (u : Int)
    (hcall : ∀ v st r, call v st = some r → VisLE st.visited r.state.visited) :
    ∀ (l : List Int) (st : DFSState) (r : Run DFSState),
      dfsScan call u l st = some r → VisLE st.visited r.state.visited := by
  intro l
  induction l with
  | nil => intro st r h; rw [dfsScan] at h; cases h; exact VisLE.refl _
  | cons v rest ih =>
    intro st r h
    rw [dfsScan] at h
    split at h
    · split at h
      · cases hc : call v { st with calls := st.calls ++ [(u, v)] } with
        | none => rw [hc] at h; cases h
        | some r1 =>
          have hm := hcall _ _ _ hc
          cases r1 with
          | done st1 =>
            rw [hc] at h
            exact VisLE.trans hm (ih st1 r h)
          | oob st1 =>
            rw [hc] at h
            cases h
            exact hm
      · exact ih st r h
    · cases h; exact VisLE.refl _

theorem DFSUtil_mono (g : Graph) : ∀ (fuel : Nat) (u : Int) (st : DFSState) (r : Run DFSState),
    DFSUtil g fuel u st = some r → VisLE st.visited r.state.visited := by
  intro fuel
  induction fuel with
  | zero => intro u st r h; rw [DFSUtil] at h; cases h
  | succ n ih =>
    intro u st r h
    rw [DFSUtil] at h
    split at h
    · have h1 : VisLE st.visited (st.visited.set u.toNat true) := VisLE.set_true _ _
      split at h
      · exact VisLE.trans h1 (dfsScan_mono _ u ih _ _ r h)
      · cases h; exact h1
    · cases h; exact VisLE.refl _

/-! ## `Graph::DFS` from its first state -/

theorem DFS_spec {g : Graph} {s : Int} (hg : g.WF) (hs : inBounds s g.V = true)
    (fuel : Nat) (hf : g.V ≤ fuel) :
    ∃ st new, g.DFSFuel fuel s = some (.done st) ∧ st.out = s :: new ∧
      st.calls.map Prod.snd = new ∧ st.out.Nodup ∧ st.visited.length = g.V ∧
      (∀ v, isVisited st.visited v ↔ v ∈ st.out) ∧
      (∀ v, v ∈ st.out ↔ Relation.ReflTransGen g.Adj s v) ∧
      ∀ p c, (p, c) ∈ st.calls →
        g.Adj p c ∧ ∃ l1 l2, st.out = l1 ++ c :: l2 ∧ p ∈ l1 := by
  obtain ⟨st, new, nc, e, p, m⟩ := DFSUtil_spec hg fuel s
    { visited := List.replicate g.V false, out := [], calls := [] } (by simp) hs
    (not_isVisited_replicate _ _) (by simpa using hf)
  have hout : st.out = s :: new := by simpa using p.out
  have hcalls : st.calls = nc := by simpa using p.calls
  have hvis : ∀ v, isVisited st.visited v ↔ v ∈ st.out := by
    intro v
    rw [p.vis, hout]
    simp [not_isVisited_replicate]
  refine ⟨st, new, e, hout, by rw [hcalls]; exact m, by rw [hout]; exact p.nodup,
    by simpa using p.len, hvis, ?_, ?_⟩
  · intro v
    constructor
    · intro hv; exact p.reach v (by rwa [hout] at hv)
    · intro hr
      induction hr with
      | refl => rw [hout]; exact List.mem_cons_self _ _
      | tail _ hab ih => exact (hvis _).1 (p.closed _ (by rwa [hout] at ih) _ hab)
  · intro q c hqc
    rw [hcalls] at hqc
    obtain ⟨hadj, l1, l2, hl, hq⟩ := p.parent q c hqc
    refine ⟨hadj, l1, l2, by rw [hout]; exact hl, ?_⟩
    rcases hq with hq | hq
    · simp at hq
    · exact hq

/-! ## Positions in the printed sequence -/

theorem adj_eq_linked {g : Graph} {edges : List (Int × Int)}
    (h : ∀ a b, g.Adj a b ↔ Linked edges a b) : g.Adj = Linked edges :=
  funext fun a => funext fun b => propext (h a b)

theorem exists_index_of_split {out l1 l2 : List Int} {p c : Int} (h : out = l1 ++ c :: l2)
    (hp : p ∈ l1) : ∃ i j : Nat, i < j ∧ out[i]? = some p ∧ out[j]? = some c := by
  obtain ⟨i, hi⟩ := List.mem_iff_getElem?.1 hp
  have hlt : i < l1.length := by
    by_contra hge
    rw [List.getElem?_eq_none (Nat.le_of_not_lt hge)] at hi
    cases hi
  refine ⟨i, l1.length, hlt, ?_, ?_⟩
  · rw [h, List.getElem?_append_left hlt]; exact hi
  · rw [h, List.getElem?_append_right (le_refl _)]; simp

theorem index_lt_of_pairwise {out : List Int} {R : Int → Int → Prop}
    (hp : out.Pairwise R) {a b : Int} (ha : a ∈ out) (hb : b ∈ out) (hne : a ≠ b)
    (hR : ¬ R b a) : ∃ i j : Nat, i < j ∧ out[i]? = some a ∧ out[j]? = some b := by
  obtain ⟨i, hi⟩ := List.mem_iff_getElem?.1 ha
  obtain ⟨j, hj⟩ := List.mem_iff_getElem?.1 hb
  refine ⟨i, j, ?_, hi, hj⟩
  obtain ⟨hi1, hi2⟩ := List.getElem?_eq_some_iff.1 hi
  obtain ⟨hj1, hj2⟩ := List.getElem?_eq_some_iff.1 hj
  rcases Nat.lt_trichotomy i j with h | h | h
  · exact h
  · exfalso; subst h; rw [hi] at hj; exact hne (Option.some.inj hj)
  · exfalso
    have := List.pairwise_iff_getElem.1 hp j i hj1 hi1 h
    rw [hi2, hj2] at this
    exact hR this

theorem filter_eq_singleton {α β : Type} [DecidableEq β] (f : α → β) :
    ∀ (l : List α) (e : α), (l.map f).Nodup → e ∈ l →
      l.filter (fun x => decide (f x = f e)) = [e] := by
  intro l
  induction l with
  | nil => intro e _ h; simp at h
  | cons a t ih =>
    intro e hn he
    rw [List.map_cons, List.nodup_cons] at hn
    rcases List.mem_cons.1 he with rfl | he
    · have : t.filter (fun x => decide (f x = f e)) = [] := by
        rw [List.filter_eq_nil_iff]
        intro x hx hfx
        exact hn.1 (by rw [← of_decide_eq_true hfx]; exact List.mem_map_of_mem f hx)
      simp [List.filter_cons, this]
    · have hne : ¬ f a = f e := fun h => hn.1 (by rw [h]; exact List.mem_map_of_mem f he)
      simp [List.filter_cons, hne, ih e hn.2 he]

/-! ## Properties of the traversals and of `addEdge` -/

/-- C1: for a graph built by `addEdge` calls with end points in `[0, V)` and a start `s` in
`[0, V)`, `Graph::BFS(s)` runs to its end, the printed sequence has no repeated vertex, and a
vertex is printed exactly when it lies in the connected component of `s`. -/
theorem C1_bfs_emits_component (V : Nat) (edges : List (Int × Int)) (s : Int)
    (hE : EdgesInRange V edges) (hs : inBounds s V = true) :
    ∃ g st, buildGraph (V : Int) edges = some (.done g) ∧ g.BFS s = some (.done st) ∧
      st.out.Nodup ∧ ∀ v, v ∈ st.out ↔ Connected edges s v := by
  obtain ⟨g, hb, hV, _, _, hwf, hadj⟩ := buildGraph_spec V edges hE
  obtain ⟨st, h1, h2, h3, _⟩ := BFS_spec hwf (by rw [hV]; exact hs) (fun _ => True) trivial
    (fun _ _ _ _ _ _ _ _ _ _ _ _ => trivial) g.V (le_refl _)
  refine ⟨g, st, hb, h1, ?_, fun v => ?_⟩
  · have := h3.nodup; rwa [h2, List.append_nil] at this
  · rw [h3.mem_out_iff h2, adj_eq_linked hadj]; rfl

theorem C1_bfs_emits_component_witness :
    EdgesInRange 5 exampleEdges ∧ inBounds 0 5 = true ∧
    ∃ g st, buildGraph ((5 : Nat) : Int) exampleEdges = some (.done g) ∧
      g.BFS 0 = some (.done st) ∧ st.out.Nodup ∧ ∀ v, v ∈ st.out ↔ Connected exampleEdges 0 v :=
  ⟨by unfold EdgesInRange; decide, by decide,
    C1_bfs_emits_component 5 exampleEdges 0 (by unfold EdgesInRange; decide) (by decide)⟩

/-- When every task body runs where the task is created: for a graph built by `addEdge`
calls with end points in `[0, V)` and a start `s` in `[0, V)`, `Graph::DFS(s)` runs to its
end, the printed sequence has no repeated vertex, and a vertex is printed exactly when it
lies in the connected component of `s`. -/
theorem DFS_inline_component (V : Nat) (edges : List (Int × Int)) (s : Int)
    (hE : EdgesInRange V edges) (hs : inBounds s V = true) :
    ∃ g st, buildGraph (V : Int) edges = some (.done g) ∧ g.DFS s = some (.done st) ∧
      st.out.Nodup ∧ ∀ v, v ∈ st.out ↔ Connected edges s v := by
  obtain ⟨g, hb, hV, _, _, hwf, hadj⟩ := buildGraph_spec V edges hE
  obtain ⟨st, new, h1, _, _, h4, _, _, h7, _⟩ :=
    DFS_spec hwf (by rw [hV]; exact hs) (g.V + 1) (Nat.le_succ _)
  refine ⟨g, st, hb, h1, h4, fun v => ?_⟩
  rw [h7, adj_eq_linked hadj]; rfl

theorem bfsLevels_built {V : Nat} {edges : List (Int × Int)} {s : Int}
    (hE : EdgesInRange V edges) (hs : inBounds s V = true) :
    ∃ g st, buildGraph (V : Int) edges = some (.done g) ∧ g.BFS s = some (.done st) ∧
      st.out.Pairwise (fun a b => ∀ da db,
        IsDist (Linked edges) s a da → IsDist (Linked edges) s b db → da ≤ db) ∧
      (∀ a b L, IsDist (Linked edges) s a L → IsDist (Linked edges) s b (L + 1) →
        ∃ i j : Nat, i < j ∧ st.out[i]? = some a ∧ st.out[j]? = some b) ∧
      (∀ v, v ∈ st.out ↔ ∃ L, IsDist (Linked edges) s v L) := by
  obtain ⟨g, hb, hV, _, _, hwf, hadj⟩ := buildGraph_spec V edges hE
  obtain ⟨st, h1, h2, h3, h4⟩ := BFS_levels hwf (by rw [hV]; exact hs) g.V (le_refl _)
  rw [adj_eq_linked hadj] at h4
  have hmem : ∀ v, v ∈ st.out ↔ ∃ L, IsDist (Linked edges) s v L := by
    intro v
    rw [h3.mem_out_iff h2, adj_eq_linked hadj]
    exact ⟨exists_isDist_of_reach, fun ⟨L, hL⟩ => hL.1.reach⟩
  refine ⟨g, st, hb, h1, h4, ?_, hmem⟩
  intro a b L ha hb'
  refine index_lt_of_pairwise h4 ((hmem a).2 ⟨L, ha⟩) ((hmem b).2 ⟨L + 1, hb'⟩) ?_ ?_
  · rintro rfl
    have := ha.unique hb'
    omega
  · intro hR
    have := hR (L + 1) L hb' ha
    omega

theorem example_levels :
    IsDist (Linked exampleEdges) 0 0 0 ∧ IsDist (Linked exampleEdges) 0 1 1 ∧
    IsDist (Linked exampleEdges) 0 2 1 ∧ IsDist (Linked exampleEdges) 0 3 2 ∧
    IsDist (Linked exampleEdges) 0 4 2 := by
  have w1 : Walk (Linked exampleEdges) 0 1 1 := Walk.refl.step (by decide)
  have w2 : Walk (Linked exampleEdges) 0 2 1 := Walk.refl.step (by decide)
  have w3 : Walk (Linked exampleEdges) 0 3 2 := w1.step (by decide)
  have w4 : Walk (Linked exampleEdges) 0 4 2 := w2.step (by decide)
  have far : ∀ v : Int, v ≠ 0 → ¬ Linked exampleEdges 0 v →
      ∀ n, Walk (Linked exampleEdges) 0 v n → 2 ≤ n := by
    intro v hv hl n hn
    match n, hn with
    | 0, h => exact absurd (walk_zero_iff.1 h) hv
    | 1, h =>
      obtain ⟨u, hu, hl'⟩ := walk_succ_iff.1 h
      rw [walk_zero_iff.1 hu] at hl'
      exact absurd hl' hl
    | n + 2, _ => omega
  have near : ∀ v : Int, v ≠ 0 → ∀ n, Walk (Linked exampleEdges) 0 v n → 1 ≤ n := by
    intro v hv n hn
    match n, hn with
    | 0, h => exact absurd (walk_zero_iff.1 h) hv
    | n + 1, _ => omega
  exact ⟨isDist_self _ _, ⟨w1, near 1 (by decide)⟩, ⟨w2, near 2 (by decide)⟩,
    ⟨w3, far 3 (by decide) (by decide)⟩, ⟨w4, far 4 (by decide) (by decide)⟩⟩

/-- C3: level order of `Graph::BFS`.  For a graph built by `addEdge` calls with end points in
`[0, V)` and a start `s` in `[0, V)`: along the printed sequence the shortest-path distance
from `s` never decreases; a vertex at distance `L` is printed at an earlier position than any
vertex at distance `L + 1`; the printed vertices are exactly those that have a distance, so
the group printed at level `L` is the whole distance class `L`.  For `V = 5`, edges
(0,1), (0,2), (1,3), (2,4) and start 0 the output is 0 1 2 3 4 with distances 0, 1, 1, 2, 2,
that is the levels {0}, {1,2}, {3,4}. -/
theorem C3_bfs_level_order :
    (∀ (V : Nat) (edges : List (Int × Int)) (s : Int),
      EdgesInRange V edges → inBounds s V = true →
      ∃ g st, buildGraph (V : Int) edges = some (.done g) ∧ g.BFS s = some (.done st) ∧
        st.out.Pairwise (fun a b => ∀ da db,
          IsDist (Linked edges) s a da → IsDist (Linked edges) s b db → da ≤ db) ∧
        (∀ a b L, IsDist (Linked edges) s a L → IsDist (Linked edges) s b (L + 1) →
          ∃ i j : Nat, i < j ∧ st.out[i]? = some a ∧ st.out[j]? = some b) ∧
        (∀ v, v ∈ st.out ↔ ∃ L, IsDist (Linked edges) s v L)) ∧
    (∃ g st, buildGraph 5 exampleEdges = some (.done g) ∧ g.BFS 0 = some (.done st) ∧
      st.out = [0, 1, 2, 3, 4] ∧
      IsDist (Linked exampleEdges) 0 0 0 ∧ IsDist (Linked exampleEdges) 0 1 1 ∧
      IsDist (Linked exampleEdges) 0 2 1 ∧ IsDist (Linked exampleEdges) 0 3 2 ∧
      IsDist (Linked exampleEdges) 0 4 2) :=
  ⟨fun _ _ _ hE hs => bfsLevels_built hE hs,
    ⟨⟨5, [[1, 2], [0, 3], [0, 4], [1], [2]]⟩,
      ⟨[true, true, true, true, true], [], [0, 1, 2, 3, 4]⟩,
      by decide, by decide, rfl, example_levels⟩⟩

theorem C3_bfs_level_order_witness :
    EdgesInRange 4 [(0, 1), (1, 2)] ∧ inBounds 0 4 = true ∧
    ∃ g st, buildGraph ((4 : Nat) : Int) [(0, 1), (1, 2)] = some (.done g) ∧
      g.BFS 0 = some (.done st) ∧
      st.out.Pairwise (fun a b => ∀ da db,
        IsDist (Linked [(0, 1), (1, 2)]) 0 a da → IsDist (Linked [(0, 1), (1, 2)]) 0 b db →
          da ≤ db) ∧
      (∀ a b L, IsDist (Linked [(0, 1), (1, 2)]) 0 a L →
        IsDist (Linked [(0, 1), (1, 2)]) 0 b (L + 1) →
        ∃ i j : Nat, i < j ∧ st.out[i]? = some a ∧ st.out[j]? = some b) ∧
      (∀ v, v ∈ st.out ↔ ∃ L, IsDist (Linked [(0, 1), (1, 2)]) 0 v L) :=
  ⟨by unfold EdgesInRange; decide, by decide,
    C3_bfs_level_order.1 4 [(0, 1), (1, 2)] 0 (by unfold EdgesInRange; decide) (by decide)⟩

/-- When every task body runs where the task is created: for a graph built by `addEdge`
calls with end points in `[0, V)` and a start `s` in `[0, V)`, every printed vertex `v ≠ s`
is the target of exactly one call made from a neighbour loop; its caller `u` is adjacent to
`v` and is printed at a strictly earlier position than `v`.  No call has the start vertex as
its target. -/
theorem DFS_inline_unique_parent (V : Nat) (edges : List (Int × Int)) (s : Int)
    (hE : EdgesInRange V edges) (hs : inBounds s V = true) :
    ∃ g st, buildGraph (V : Int) edges = some (.done g) ∧ g.DFS s = some (.done st) ∧
      (∀ v ∈ st.out, v ≠ s →
        ∃ u, st.calls.filter (fun e => decide (e.2 = v)) = [(u, v)] ∧ Linked edges u v ∧
          ∃ i j : Nat, i < j ∧ st.out[i]? = some u ∧ st.out[j]? = some v) ∧
      st.calls.filter (fun e => decide (e.2 = s)) = [] := by
  obtain ⟨g, hb, hV, _, _, hwf, hadj⟩ := buildGraph_spec V edges hE
  obtain ⟨st, new, h1, h2, h3, h4, _, _, _, h8⟩ :=
    DFS_spec hwf (by rw [hV]; exact hs) (g.V + 1) (Nat.le_succ _)
  have hnd : (st.calls.map Prod.snd).Nodup := by
    rw [h3]; rw [h2] at h4; exact (List.nodup_cons.1 h4).2
  refine ⟨g, st, hb, h1, ?_, ?_⟩
  · intro v hv hvs
    have hvn : v ∈ st.calls.map Prod.snd := by
      rw [h3]; rw [h2] at hv
      rcases List.mem_cons.1 hv with h | h
      · exact absurd h hvs
      · exact h
    obtain ⟨⟨u, c⟩, he, hc⟩ := List.mem_map.1 hvn
    simp only at hc
    subst hc
    obtain ⟨hadj', l1, l2, hl, hp⟩ := h8 u c he
    refine ⟨u, filter_eq_singleton Prod.snd st.calls (u, c) hnd he, (hadj u c).1 hadj', ?_⟩
    exact exists_index_of_split hl hp
  · rw [List.filter_eq_nil_iff]
    intro e he hes
    have : s ∈ st.calls.map Prod.snd := by
      rw [← of_decide_eq_true hes]; exact List.mem_map_of_mem _ he
    rw [h3] at this
    rw [h2] at h4
    exact (List.nodup_cons.1 h4).1 this

/-- C5: when `Graph::BFS(s)` or `Graph::DFS(s)` finishes on a graph built by `addEdge` calls
with end points in `[0, V)`, `s` in `[0, V)`, the entry `visited[v]` is true exactly for the
vertices of the connected component of `s`, and the vertices with a true entry are exactly
the printed ones.  For `V = 4`, edges {(0,1)}, start 0 the final vector is
true, true, false, false in both traversals. -/
theorem C5_visited_is_component :
    (∀ (V : Nat) (edges : List (Int × Int)) (s : Int),
      EdgesInRange V edges → inBounds s V = true →
      ∃ g bst dst, buildGraph (V : Int) edges = some (.done g) ∧
        g.BFS s = some (.done bst) ∧ g.DFS s = some (.done dst) ∧
        (∀ v, isVisited bst.visited v ↔ Connected edges s v) ∧
        (∀ v, isVisited bst.visited v ↔ v ∈ bst.out) ∧
        (∀ v, isVisited dst.visited v ↔ Connected edges s v) ∧
        (∀ v, isVisited dst.visited v ↔ v ∈ dst.out)) ∧
    (∃ g bst dst, buildGraph 4 [(0, 1)] = some (.done g) ∧
      g.BFS 0 = some (.done bst) ∧ g.DFS 0 = some (.done dst) ∧
      bst.visited = [true, true, false, false] ∧ bst.out = [0, 1] ∧
      dst.visited = [true, true, false, false] ∧ dst.out = [0, 1]) := by
  constructor
  · intro V edges s hE hs
    obtain ⟨g, hb, hV, _, _, hwf, hadj⟩ := buildGraph_spec V edges hE
    have hs' : inBounds s g.V = true := by rw [hV]; exact hs
    obtain ⟨bst, b1, b2, b3, _⟩ := BFS_spec hwf hs' (fun _ => True) trivial
      (fun _ _ _ _ _ _ _ _ _ _ _ _ => trivial) g.V (le_refl _)
    obtain ⟨dst, new, d1, _, _, _, _, d6, d7, _⟩ := DFS_spec hwf hs' (g.V + 1) (Nat.le_succ _)
    have hbv : ∀ v, isVisited bst.visited v ↔ v ∈ bst.out := by
      intro v; rw [b3.vis v, b2, List.append_nil]
    refine ⟨g, bst, dst, hb, b1, d1, ?_, hbv, ?_, d6⟩
    · intro v
      rw [hbv, b3.mem_out_iff b2, adj_eq_linked hadj]; rfl
    · intro v
      rw [d6, d7, adj_eq_linked hadj]; rfl
  · exact ⟨⟨4, [[1], [0], [], []]⟩, ⟨[true, true, false, false], [], [0, 1]⟩,
      ⟨[true, true, false, false], [0, 1], [(0, 1)]⟩, by decide, by decide, by decide,
      rfl, rfl, rfl, rfl⟩

theorem C5_visited_is_component_witness :
    EdgesInRange 4 [(0, 1)] ∧ inBounds 0 4 = true ∧
    ∃ g bst dst, buildGraph ((4 : Nat) : Int) [(0, 1)] = some (.done g) ∧
      g.BFS 0 = some (.done bst) ∧ g.DFS 0 = some (.done dst) ∧
      (∀ v, isVisited bst.visited v ↔ Connected [(0, 1)] 0 v) ∧
      (∀ v, isVisited bst.visited v ↔ v ∈ bst.out) ∧
      (∀ v, isVisited dst.visited v ↔ Connected [(0, 1)] 0 v) ∧
      (∀ v, isVisited dst.visited v ↔ v ∈ dst.out) :=
  ⟨by unfold EdgesInRange; decide, by decide,
    C5_visited_is_component.1 4 [(0, 1)] 0 (by unfold EdgesInRange; decide) (by decide)⟩

/-- C6: the claim step of `Graph::BFS` for a neighbour `v` with `visited[v]` a defined access
is a test-and-set.  If `visited[v]` reads false, the step sets `visited[v]` to true (no other
entry changes) and appends `v` once at the back of the queue; if `visited[v]` reads true, the
step changes neither the `visited` vector nor the queue.  The output is untouched. -/
theorem C6_claim_test_and_set (st : BFSState) (v : Int)
    (hb : inBounds v st.visited.length = true) :
    (st.visited.getD v.toNat false = false →
      claim st v = .done
        { visited := st.visited.set v.toNat true, q := st.q ++ [v], out := st.out } ∧
      (st.visited.set v.toNat true).getD v.toNat false = true ∧
      ∀ i : Nat, i ≠ v.toNat →
        (st.visited.set v.toNat true).getD i false = st.visited.getD i false) ∧
    (st.visited.getD v.toNat false = true → claim st v = .done st) := by
  have hlt := toNat_lt_of_inBounds hb
  constructor
  · intro h
    refine ⟨claim_fresh hb (fun hv => by rw [hv.2] at h; cases h), ?_, ?_⟩
    · rw [getD_set_true _ _ _ hlt]; simp
    · intro i hi
      rw [getD_set_true _ _ _ hlt]; simp [hi]
  · intro h
    exact claim_seen ⟨hb, h⟩

theorem C6_claim_test_and_set_witness :
    inBounds 2 ([true, false, false] : List Bool).length = true ∧
    claim ⟨[true, false, false], [1], [0]⟩ 2 = .done ⟨[true, false, true], [1, 2], [0]⟩ ∧
    claim ⟨[true, false, true], [1, 2], [0]⟩ 2 = .done ⟨[true, false, true], [1, 2], [0]⟩ :=
  ⟨by decide,
    ((C6_claim_test_and_set ⟨[true, false, false], [1], [0]⟩ 2 (by decide)).1 (by decide)).1,
    (C6_claim_test_and_set ⟨[true, false, true], [1, 2], [0]⟩ 2 (by decide)).2 (by decide)⟩

/-- C7: `visited` only grows.  Across the claim step, across one pass of the `while` body of
`Graph::BFS`, across any run of its loop, and across any run of `Graph::DFSUtil` (to its end
or up to an access outside the bounds), every entry of `visited` that reads true before
reads true afterwards, and the size of the vector is the same. -/
theorem C7_visited_monotone :
    (∀ (st : BFSState) (v : Int), VisLE st.visited (claim st v).state.visited) ∧
    (∀ (g : Graph) (u : Int) (st : BFSState), VisLE st.visited (bfsBody g u st).state.visited) ∧
    (∀ (g : Graph) (fuel : Nat) (st : BFSState) (r : Run BFSState),
      bfsLoop g fuel st = some r → VisLE st.visited r.state.visited) ∧
    (∀ (g : Graph) (fuel : Nat) (u : Int) (st : DFSState) (r : Run DFSState),
      DFSUtil g fuel u st = some r → VisLE st.visited r.state.visited) :=
  ⟨claim_mono, bfsBody_mono, bfsLoop_mono, DFSUtil_mono⟩

theorem C7_visited_monotone_witness :
    bfsLoop ⟨3, [[1], [0, 2], [1]]⟩ 3 ⟨[false, true, false], [1], []⟩ =
      some (.done ⟨[true, true, true], [], [1, 0, 2]⟩) ∧
    VisLE [false, true, false] [true, true, true] ∧
    DFSUtil ⟨3, [[1], [0, 2], [1]]⟩ 3 1 ⟨[false, false, false], [], []⟩ =
      some (.done ⟨[true, true, true], [1, 0, 2], [(1, 0), (1, 2)]⟩) ∧
    VisLE [false, false, false] [true, true, true] :=
  ⟨by decide, C7_visited_monotone.2.2.1 ⟨3, [[1], [0, 2], [1]]⟩ 3 ⟨[false, true, false], [1], []⟩
      (.done ⟨[true, true, true], [], [1, 0, 2]⟩) (by decide),
    by decide, C7_visited_monotone.2.2.2 ⟨3, [[1], [0, 2], [1]]⟩ 3 1 ⟨[false, false, false], [], []⟩
      (.done ⟨[true, true, true], [1, 0, 2], [(1, 0), (1, 2)]⟩) (by decide)⟩

/-- C9: `addEdge(u, v)` with `u`, `v` in `[0, V)` runs to its end, appends `v` at the back of
the list of `u` and then `u` at the back of the list of `v`, and changes nothing else; nothing
is deduplicated, so `addEdge(u, u)` appends `u` twice to the list of `u`, and after a sequence
of `addEdge` calls the list of a vertex is the sequence of its inserted neighbours in the
order of insertion (a repeated edge gives a repeated entry). -/
theorem C9_addEdge_appends :
    (∀ (g : Graph) (u v : Int), g.adj.length = g.V → inBounds u g.V = true →
      inBounds v g.V = true →
      ∃ g1, g.addEdge u v = .done g1 ∧ g1.V = g.V ∧ g1.adj.length = g.adj.length ∧
        (∀ a, inBounds a g.V = true →
          g1.adj.getD a.toNat [] =
            g.adj.getD a.toNat [] ++ (if a = u then [v] else []) ++ (if a = v then [u] else [])) ∧
        (u ≠ v → g1.adj.getD u.toNat [] = g.adj.getD u.toNat [] ++ [v] ∧
          g1.adj.getD v.toNat [] = g.adj.getD v.toNat [] ++ [u]) ∧
        (u = v → g1.adj.getD u.toNat [] = g.adj.getD u.toNat [] ++ [u, u])) ∧
    (∀ (V : Nat) (edges : List (Int × Int)), EdgesInRange V edges →
      ∃ g, buildGraph (V : Int) edges = some (.done g) ∧
        ∀ a, inBounds a V = true → g.adj.getD a.toNat [] = insertedNeighbours edges a) ∧
    buildGraph 3 [(0, 1), (0, 1), (2, 2)] = some (.done ⟨3, [[1, 1], [0, 0], [2, 2]]⟩) := by
  refine ⟨?_, ?_, by decide⟩
  · intro g u v hlen hu hv
    rw [← hlen] at hu hv
    obtain ⟨g1, e1, e2, e3, e4⟩ := addEdge_spec g hu hv
    refine ⟨g1, e1, e2, e3, fun a ha => e4 a (by rw [hlen]; exact ha), ?_, ?_⟩
    · intro hne
      have hne' : ¬ v = u := fun h => hne h.symm
      constructor
      · rw [e4 u hu]; simp [hne]
      · rw [e4 v hv]; simp [hne']
    · intro he
      subst he
      rw [e4 u hu]; simp
  · intro V edges hE
    obtain ⟨g, hb, _, _, hadj, _, _⟩ := buildGraph_spec V edges hE
    exact ⟨g, hb, hadj⟩

theorem C9_addEdge_appends_witness :
    (⟨3, [[1], [0], []]⟩ : Graph).adj.length = (⟨3, [[1], [0], []]⟩ : Graph).V ∧
    inBounds 0 3 = true ∧ inBounds 2 3 = true ∧
    ∃ g1, (⟨3, [[1], [0], []]⟩ : Graph).addEdge 0 2 = .done g1 ∧
      g1.adj.getD 0 [] = [1, 2] ∧ g1.adj.getD 2 [] = [0] := by
  obtain ⟨g1, h1, _, _, _, h5, _⟩ :=
    C9_addEdge_appends.1 ⟨3, [[1], [0], []]⟩ 0 2 rfl (by decide) (by decide)
  exact ⟨rfl, by decide, by decide, g1, h1, (h5 (by decide)).1, (h5 (by decide)).2⟩

/-- C10, as the code has it: `addEdge` makes no range test and has no `InvalidVertex`
result.  With both end points in `[0, V)` the call runs to its end.  With `u` outside
`[0, V)` the access `adj[u]` is outside the bounds and is reached with the graph untouched.
With `u` inside and `v` outside `[0, V)`, `v` has been appended to the list of `u` when the
access `adj[v]` outside the bounds is reached. -/
theorem C10_addEdge_out_of_range (g : Graph) (u v : Int) (hlen : g.adj.length = g.V) :
    (inBounds u g.V = true → inBounds v g.V = true → ∃ g1, g.addEdge u v = .done g1) ∧
    (inBounds u g.V = false → g.addEdge u v = .oob g) ∧
    (inBounds u g.V = true → inBounds v g.V = false →
      g.addEdge u v = .oob { g with adj := pushBack g.adj u v } ∧
      (pushBack g.adj u v).getD u.toNat [] = g.adj.getD u.toNat [] ++ [v]) := by
  refine ⟨?_, ?_, ?_⟩
  · intro hu hv
    rw [← hlen] at hu hv
    obtain ⟨g1, e1, _⟩ := addEdge_spec g hu hv
    exact ⟨g1, e1⟩
  · intro hu
    rw [← hlen] at hu
    unfold Graph.addEdge
    simp [hu]
  · intro hu hv
    rw [← hlen] at hu hv
    constructor
    · unfold Graph.addEdge
      simp [hu, hv, length_pushBack]
    · rw [getD_pushBack _ _ hu hu]; simp

theorem C10_addEdge_out_of_range_witness :
    (⟨4, [[], [], [], []]⟩ : Graph).adj.length = 4 ∧
    (⟨4, [[], [], [], []]⟩ : Graph).addEdge 5 1 = .oob ⟨4, [[], [], [], []]⟩ ∧
    (⟨4, [[], [], [], []]⟩ : Graph).addEdge 1 5 = .oob ⟨4, [[], [5], [], []]⟩ :=
  ⟨rfl, (C10_addEdge_out_of_range ⟨4, [[], [], [], []]⟩ 5 1 rfl).2.1 (by decide),
    ((C10_addEdge_out_of_range ⟨4, [[], [], [], []]⟩ 1 5 rfl).2.2 (by decide) (by decide)).1⟩

/-- C10 as stated fails: on the graph made by `Graph g(4)`, `addEdge(1, 5)` has the end point
5 outside `[0, 4)`, and when the access outside the bounds is reached 5 is already stored in
the list of vertex 1, so the graph has not been left unchanged. -/
theorem C10_counterexample :
    ∃ g g1, Graph.create 4 = some g ∧ inBounds 5 g.V = false ∧
      g.addEdge 1 5 = .oob g1 ∧ g1.adj = [[], [5], [], []] ∧ g1 ≠ g :=
  ⟨⟨4, [[], [], [], []]⟩, ⟨4, [[], [5], [], []]⟩, by decide, by decide, by decide, rfl,
    by decide⟩

/-! ## Start out of range and the entry of `DFSUtil` -/

/-- C11, as the code has it: `Graph::BFS(start)` and `Graph::DFS(start)` make no range test
and have no `InvalidVertex` result.  With `start` outside `[0, V)` the first statement that
uses it, `visited[start] = true`, is an access outside the bounds of `visited`; it is reached
with every entry of `visited` false, the queue empty and nothing printed. -/
theorem C11_start_out_of_range (g : Graph) (start : Int) (h : inBounds start g.V = false) :
    g.BFS start = some (.oob ⟨List.replicate g.V false, [], []⟩) ∧
    g.DFS start = some (.oob ⟨List.replicate g.V false, [], []⟩) := by
  constructor
  · unfold Graph.BFS Graph.BFSFuel
    simp [h]
  · unfold Graph.DFS Graph.DFSFuel
    rw [DFSUtil]
    simp [h]

theorem C11_start_out_of_range_witness :
    inBounds (-1) (⟨4, [[1], [0], [], []]⟩ : Graph).V = false ∧
    (⟨4, [[1], [0], [], []]⟩ : Graph).BFS (-1) =
      some (.oob ⟨[false, false, false, false], [], []⟩) ∧
    (⟨4, [[1], [0], [], []]⟩ : Graph).DFS (-1) =
      some (.oob ⟨[false, false, false, false], [], []⟩) :=
  ⟨by decide, C11_start_out_of_range ⟨4, [[1], [0], [], []]⟩ (-1) (by decide)⟩

/-- C11 as stated fails: on the graph made by `Graph g(4); g.addEdge(0, 1)` the calls
`g.BFS(5)` and `g.DFS(5)` do not end in a checked failure; each reaches the access
`visited[5]` outside the bounds of the 4-entry vector, where the program has no defined
behaviour. -/
theorem C11_counterexample :
    ∃ g, buildGraph 4 [(0, 1)] = some (.done g) ∧ inBounds 5 g.V = false ∧
      g.BFS 5 = some (.oob ⟨[false, false, false, false], [], []⟩) ∧
      g.DFS 5 = some (.oob ⟨[false, false, false, false], [], []⟩) :=
  ⟨⟨4, [[1], [0], [], []]⟩, by decide, by decide, by decide, by decide⟩

theorem dfsScan_congr (call call2 : Int → DFSState → Option (Run DFSState)) (u : Int)
    (h : ∀ v st, ¬ isVisited st.visited v → call v st = call2 v st) :
    ∀ (l : List Int) (st : DFSState), dfsScan call u l st = dfsScan call2 u l st := by
  intro l
  induction l with
  | nil => intro st; rfl
  | cons v rest ih =>
    intro st
    rw [dfsScan, dfsScan]
    by_cases hb : inBounds v st.visited.length = true
    · rw [if_pos hb, if_pos hb]
      cases hv : st.visited.getD v.toNat false with
      | false =>
        have hnot : ¬ isVisited st.visited v := fun hvis => by
          rw [hvis.2] at hv; cases hv
        have := h v { st with calls := st.calls ++ [(u, v)] } hnot
        simp only [Bool.not_false, if_true, this]
        cases call2 v { st with calls := st.calls ++ [(u, v)] } with
        | none => rfl
        | some r =>
          cases r with
          | done st1 => exact ih st1
          | oob st1 => rfl
      | true =>
        simp only [Bool.not_true, Bool.false_eq_true, if_false]
        exact ih st
    · rw [if_neg hb, if_neg hb]

/-- C12 on the code: `DFSUtil` is entered with `visited[u]` still false.  The root call of
`Graph::DFS(start)` gets the fresh all-false vector.  The neighbour loop calls `DFSUtil(v, _)`
only on a state in which `visited[v]` reads false (what the callee would do on a vertex
already marked never matters), and in the first example of `main` the first nested call,
`DFSUtil(1, visited)` from the loop of vertex 0, is entered with `visited[1]` false. -/
theorem C12_dfs_entered_unmarked :
    (∀ (g : Graph) (start : Int),
      g.DFS start = DFSUtil g (g.V + 1) start ⟨List.replicate g.V false, [], []⟩ ∧
      ¬ isVisited (List.replicate g.V false) start) ∧
    (∀ (call call2 : Int → DFSState → Option (Run DFSState)) (u : Int),
      (∀ v st, ¬ isVisited st.visited v → call v st = call2 v st) →
      ∀ (l : List Int) (st : DFSState), dfsScan call u l st = dfsScan call2 u l st) ∧
    dfsScan (fun _ st => some (.oob st)) 0 [1, 2] ⟨[true, false, false, false, false], [0], []⟩ =
      some (.oob ⟨[true, false, false, false, false], [0], [(0, 1)]⟩) :=
  ⟨fun g start => ⟨rfl, not_isVisited_replicate _ _⟩, dfsScan_congr, by decide⟩

theorem C12_dfs_entered_unmarked_witness :
    dfsScan (fun v st => if isVisited st.visited v then none else some (.done st)) 0 [0, 2]
        ⟨[true, false, false], [0], []⟩ =
      dfsScan (fun _ st => some (.done st)) 0 [0, 2] ⟨[true, false, false], [0], []⟩ :=
  C12_dfs_entered_unmarked.2.1 _ (fun _ st => some (.done st)) 0
    (fun v st hv => by simp only [hv, if_false]) [0, 2] ⟨[true, false, false], [0], []⟩

/-! ## Repeated edges, self-loops and the order of the adjacency lists -/

theorem simpleEdges_subset (es : List (Int × Int)) : ∀ e ∈ simpleEdges es, e ∈ es := by
  induction es with
  | nil => intro e he; simp [simpleEdges] at he
  | cons x es ih =>
    obtain ⟨u, v⟩ := x
    intro e he
    rw [simpleEdges] at he
    split at he
    · exact List.mem_cons_of_mem _ (ih e he)
    · rcases List.mem_cons.1 he with h | h
      · rw [h]; exact List.mem_cons_self _ _
      · exact List.mem_cons_of_mem _ (ih e h)

theorem simpleEdges_simple (es : List (Int × Int)) :
    (simpleEdges es).Nodup ∧ ∀ a b, (a, b) ∈ simpleEdges es → a ≠ b ∧ (b, a) ∉ simpleEdges es := by
  induction es with
  | nil => simp [simpleEdges]
  | cons x es ih =>
    obtain ⟨u, v⟩ := x
    rw [simpleEdges]
    split
    · exact ih
    · rename_i hc
      simp only [not_or] at hc
      obtain ⟨huv, h1, h2⟩ := hc
      refine ⟨List.nodup_cons.2 ⟨h1, ih.1⟩, ?_⟩
      intro a b hab
      rcases List.mem_cons.1 hab with h | h
      · obtain ⟨rfl, rfl⟩ := Prod.mk.inj h
        refine ⟨huv, fun hba => ?_⟩
        rcases List.mem_cons.1 hba with h' | h'
        · exact huv (Prod.mk.inj h').2
        · exact h2 h'
      · refine ⟨(ih.2 a b h).1, fun hba => ?_⟩
        rcases List.mem_cons.1 hba with h' | h'
        · obtain ⟨rfl, rfl⟩ := Prod.mk.inj h'
          exact h2 h
        · exact (ih.2 a b h).2 h'

theorem linked_simpleEdges (es : List (Int × Int)) {a b : Int} (hab : a ≠ b) :
    Linked (simpleEdges es) a b ↔ Linked es a b := by
  constructor
  · rintro (h | h)
    · exact Or.inl (simpleEdges_subset es _ h)
    · exact Or.inr (simpleEdges_subset es _ h)
  · induction es with
    | nil => intro h; simp [Linked] at h
    | cons x es ih =>
      obtain ⟨u, v⟩ := x
      intro h
      have hstep : Linked es a b → Linked (simpleEdges ((u, v) :: es)) a b := by
        intro h'
        have := ih h'
        rw [simpleEdges]
        split
        · exact this
        · rcases this with t | t
          · exact Or.inl (List.mem_cons_of_mem _ t)
          · exact Or.inr (List.mem_cons_of_mem _ t)
      have hnew : (a = u ∧ b = v) ∨ (b = u ∧ a = v) →
          Linked (simpleEdges ((u, v) :: es)) a b := by
        intro hc
        have huv : u ≠ v := by
          rcases hc with ⟨rfl, rfl⟩ | ⟨rfl, rfl⟩
          · exact hab
          · exact fun e => hab e.symm
        rw [simpleEdges]
        split
        · rename_i hcond
          rcases hcond with h0 | h1 | h2
          · exact absurd h0 huv
          · rcases hc with ⟨rfl, rfl⟩ | ⟨rfl, rfl⟩
            · exact Or.inl h1
            · exact Or.inr h1
          · rcases hc with ⟨rfl, rfl⟩ | ⟨rfl, rfl⟩
            · exact Or.inr h2
            · exact Or.inl h2
        · rcases hc with ⟨rfl, rfl⟩ | ⟨rfl, rfl⟩
          · exact Or.inl (List.mem_cons_self _ _)
          · exact Or.inr (List.mem_cons_self _ _)
      rcases h with h | h
      · rcases List.mem_cons.1 h with h' | h'
        · exact hnew (Or.inl (Prod.mk.inj h'))
        · exact hstep (Or.inl h')
      · rcases List.mem_cons.1 h with h' | h'
        · exact hnew (Or.inr (Prod.mk.inj h'))
        · exact hstep (Or.inr h')

theorem connected_simpleEdges (es : List (Int × Int)) (s v : Int) :
    Connected (simpleEdges es) s v ↔ Connected es s v := by
  constructor
  · intro h
    refine Relation.ReflTransGen.mono ?_ h
    rintro a b (h | h)
    · exact Or.inl (simpleEdges_subset es _ h)
    · exact Or.inr (simpleEdges_subset es _ h)
  · intro h
    induction h with
    | refl => exact Relation.ReflTransGen.refl
    | @tail a b _ hab ih =>
      by_cases e : a = b
      · rw [← e]; exact ih
      · exact ih.tail ((linked_simpleEdges es e).2 hab)

theorem visited_ext {a b : List Bool} (hlen : a.length = b.length)
    (h : ∀ v : Int, isVisited a v ↔ isVisited b v) : a = b := by
  apply List.ext_getElem hlen
  intro i hi hi2
  have hba : inBounds (i : Int) a.length = true := by rw [inBounds_iff]; omega
  have hbb : inBounds (i : Int) b.length = true := by rw [inBounds_iff]; omega
  have key := h (i : Int)
  unfold isVisited at key
  simp only [hba, hbb, true_and, Int.toNat_ofNat, List.getD_eq_getElem?_getD,
    List.getElem?_eq_getElem hi, List.getElem?_eq_getElem hi2, Option.getD_some] at key
  cases ha : a[i] <;> cases hb : b[i] <;> simp [ha, hb] at key ⊢

/-- Both traversals on a graph built by `addEdge` calls, from a start in range. -/
theorem traversals_built {V : Nat} {edges : List (Int × Int)} {s : Int}
    (hE : EdgesInRange V edges) (hs : inBounds s V = true) :
    ∃ g b d, buildGraph (V : Int) edges = some (.done g) ∧
      g.BFS s = some (.done b) ∧ g.DFS s = some (.done d) ∧
      b.visited.length = V ∧ d.visited.length = V ∧ b.out.Nodup ∧ d.out.Nodup ∧
      (∀ v, isVisited b.visited v ↔ v ∈ b.out) ∧ (∀ v, isVisited d.visited v ↔ v ∈ d.out) ∧
      (∀ v, v ∈ b.out ↔ Connected edges s v) ∧ (∀ v, v ∈ d.out ↔ Connected edges s v) := by
  obtain ⟨g, hb, hV, _, _, hwf, hadj⟩ := buildGraph_spec V edges hE
  have hs2 : inBounds s g.V = true := by rw [hV]; exact hs
  obtain ⟨b, b1, b2, b3, _⟩ := BFS_spec hwf hs2 (fun _ => True) trivial
    (fun _ _ _ _ _ _ _ _ _ _ _ _ => trivial) g.V (le_refl _)
  obtain ⟨d, new, d1, _, _, d4, d5, d6, d7, _⟩ := DFS_spec hwf hs2 (g.V + 1) (Nat.le_succ _)
  refine ⟨g, b, d, hb, b1, d1, b3.len.trans hV, d5.trans hV, ?_, d4, ?_, d6, ?_, ?_⟩
  · have := b3.nodup; rwa [b2, List.append_nil] at this
  · intro v; rw [b3.vis v, b2, List.append_nil]
  · intro v; rw [b3.mem_out_iff b2, adj_eq_linked hadj]; rfl
  · intro v; rw [d7, adj_eq_linked hadj]; rfl

/-- What both traversals reach on a graph whose stored neighbours are in range. -/
theorem traversals_wf {g : Graph} {s : Int} (hg : g.WF) (hs : inBounds s g.V = true) :
    ∃ b d, g.BFS s = some (.done b) ∧ g.DFS s = some (.done d) ∧
      b.visited.length = g.V ∧ d.visited.length = g.V ∧
      (∀ v, isVisited b.visited v ↔ v ∈ b.out) ∧ (∀ v, isVisited d.visited v ↔ v ∈ d.out) ∧
      (∀ v, v ∈ b.out ↔ Relation.ReflTransGen g.Adj s v) ∧
      (∀ v, v ∈ d.out ↔ Relation.ReflTransGen g.Adj s v) := by
  obtain ⟨b, b1, b2, b3, _⟩ := BFS_spec hg hs (fun _ => True) trivial
    (fun _ _ _ _ _ _ _ _ _ _ _ _ => trivial) g.V (le_refl _)
  obtain ⟨d, new, d1, _, _, _, d5, d6, d7, _⟩ := DFS_spec hg hs (g.V + 1) (Nat.le_succ _)
  refine ⟨b, d, b1, d1, b3.len, d5, ?_, d6, b3.mem_out_iff b2, d7⟩
  intro v; rw [b3.vis v, b2, List.append_nil]

/-- Repeated edges and self-loops when every task body runs where the task is created.
For every edge list with end points in `[0, V)` (repeats and self-loops allowed) and every
start in range, `Graph::BFS` and `Graph::DFS` run to their end and print no vertex twice,
and they print the same set of vertices as on the graph built from the edge list with the
self-loops and the repeated edges removed. -/
theorem duplicates_inline_safe (V : Nat) (edges : List (Int × Int)) (s : Int)
    (hE : EdgesInRange V edges) (hs : inBounds s V = true) :
    ∃ g g2 b b2 d d2, buildGraph (V : Int) edges = some (.done g) ∧
      buildGraph (V : Int) (simpleEdges edges) = some (.done g2) ∧
      g.BFS s = some (.done b) ∧ g2.BFS s = some (.done b2) ∧
      g.DFS s = some (.done d) ∧ g2.DFS s = some (.done d2) ∧
      b.out.Nodup ∧ d.out.Nodup ∧
      (∀ v, v ∈ b.out ↔ v ∈ b2.out) ∧ (∀ v, v ∈ d.out ↔ v ∈ d2.out) ∧
      (simpleEdges edges).Nodup ∧
      (∀ x y, (x, y) ∈ simpleEdges edges →
        x ≠ y ∧ (y, x) ∉ simpleEdges edges ∧ (x, y) ∈ edges) ∧
      (∀ x y, x ≠ y → (Linked (simpleEdges edges) x y ↔ Linked edges x y)) := by
  have hE2 : EdgesInRange V (simpleEdges edges) :=
    fun e he => hE e (simpleEdges_subset edges e he)
  obtain ⟨g, b, d, h1, h2, h3, _, _, h6, h7, _, _, h10, h11⟩ := traversals_built hE hs
  obtain ⟨g2, b2, d2, k1, k2, k3, _, _, _, _, _, _, k10, k11⟩ := traversals_built hE2 hs
  refine ⟨g, g2, b, b2, d, d2, h1, k1, h2, k2, h3, k3, h6, h7, ?_, ?_,
    (simpleEdges_simple edges).1, ?_, fun x y hxy => linked_simpleEdges edges hxy⟩
  · intro v; rw [h10, k10, connected_simpleEdges]
  · intro v; rw [h11, k11, connected_simpleEdges]
  · intro x y hxy
    exact ⟨((simpleEdges_simple edges).2 x y hxy).1, ((simpleEdges_simple edges).2 x y hxy).2,
      simpleEdges_subset edges _ hxy⟩

theorem adj_eq_of_perm {g g2 : Graph} (hlen : g2.adj.length = g.adj.length)
    (hperm : ∀ i : Nat, (g2.adj.getD i []).Perm (g.adj.getD i [])) : g2.Adj = g.Adj := by
  funext u v
  apply propext
  unfold Graph.Adj
  rw [hlen, (hperm u.toNat).mem_iff]

theorem linked_eq_of_perm {edges edges2 : List (Int × Int)} (h : edges2.Perm edges) :
    Linked edges2 = Linked edges := by
  funext a b
  apply propext
  unfold Linked
  rw [h.mem_iff, h.mem_iff]

/-- C14: the set of visited vertices does not depend on the order inside the adjacency
lists.  If two graphs with in-range neighbours have the same `V` and each adjacency list of
one is a reordering of the list of the other, then from every start in range `Graph::BFS`
ends with the same `visited` vector on both and prints the same set of vertices, and so does
`Graph::DFS`; the same holds for two graphs built from the same edges inserted in a different
order.  On `adj = [[1,2],[0],[0]]` and `adj = [[2,1],[0],[0]]` the printed sequences differ
(0 1 2 and 0 2 1) and the `visited` vectors agree. -/
theorem C14_visited_set_stable :
    (∀ (g g2 : Graph) (s : Int), g.WF → g2.WF → g2.V = g.V →
      (∀ i : Nat, (g2.adj.getD i []).Perm (g.adj.getD i [])) → inBounds s g.V = true →
      ∃ b b2 d d2, g.BFS s = some (.done b) ∧ g2.BFS s = some (.done b2) ∧
        g.DFS s = some (.done d) ∧ g2.DFS s = some (.done d2) ∧
        b2.visited = b.visited ∧ d2.visited = d.visited ∧
        (∀ v, v ∈ b2.out ↔ v ∈ b.out) ∧ (∀ v, v ∈ d2.out ↔ v ∈ d.out)) ∧
    (∀ (V : Nat) (edges edges2 : List (Int × Int)) (s : Int), EdgesInRange V edges →
      edges2.Perm edges → inBounds s V = true →
      ∃ g g2 b b2 d d2, buildGraph (V : Int) edges = some (.done g) ∧
        buildGraph (V : Int) edges2 = some (.done g2) ∧
        g.BFS s = some (.done b) ∧ g2.BFS s = some (.done b2) ∧
        g.DFS s = some (.done d) ∧ g2.DFS s = some (.done d2) ∧
        b2.visited = b.visited ∧ d2.visited = d.visited ∧
        (∀ v, v ∈ b2.out ↔ v ∈ b.out) ∧ (∀ v, v ∈ d2.out ↔ v ∈ d.out)) ∧
    (Graph.BFS ⟨3, [[1, 2], [0], [0]]⟩ 0 = some (.done ⟨[true, true, true], [], [0, 1, 2]⟩) ∧
      Graph.BFS ⟨3, [[2, 1], [0], [0]]⟩ 0 = some (.done ⟨[true, true, true], [], [0, 2, 1]⟩)) := by
  refine ⟨?_, ?_, by decide, by decide⟩
  · intro g g2 s hg hg2 hV hperm hs
    have hadj : g2.Adj = g.Adj := adj_eq_of_perm (by rw [hg2.1, hg.1, hV]) hperm
    obtain ⟨b, d, h1, h2, h3, h4, h5, h6, h7, h8⟩ := traversals_wf hg hs
    obtain ⟨b2, d2, k1, k2, k3, k4, k5, k6, k7, k8⟩ := traversals_wf hg2 (by rw [hV]; exact hs)
    rw [hadj] at k7 k8
    have hbo : ∀ v, v ∈ b2.out ↔ v ∈ b.out := fun v => by rw [k7, h7]
    have hdo : ∀ v, v ∈ d2.out ↔ v ∈ d.out := fun v => by rw [k8, h8]
    refine ⟨b, b2, d, d2, h1, k1, h2, k2, ?_, ?_, hbo, hdo⟩
    · exact visited_ext (by rw [k3, h3, hV]) (fun v => by rw [k5, h5, hbo])
    · exact visited_ext (by rw [k4, h4, hV]) (fun v => by rw [k6, h6, hdo])
  · intro V edges edges2 s hE hp hs
    have hE2 : EdgesInRange V edges2 := fun e he => hE e (hp.mem_iff.1 he)
    obtain ⟨g, b, d, h1, h2, h3, h4, h5, _, _, h8, h9, h10, h11⟩ := traversals_built hE hs
    obtain ⟨g2, b2, d2, k1, k2, k3, k4, k5, _, _, k8, k9, k10, k11⟩ := traversals_built hE2 hs
    have hc : ∀ v, Connected edges2 s v ↔ Connected edges s v := fun v => by
      unfold Connected; rw [linked_eq_of_perm hp]
    have hbo : ∀ v, v ∈ b2.out ↔ v ∈ b.out := fun v => by rw [k10, h10, hc]
    have hdo : ∀ v, v ∈ d2.out ↔ v ∈ d.out := fun v => by rw [k11, h11, hc]
    refine ⟨g, g2, b, b2, d, d2, h1, k1, h2, k2, h3, k3, ?_, ?_, hbo, hdo⟩
    · exact visited_ext (by rw [k4, h4]) (fun v => by rw [k8, h8, hbo])
    · exact visited_ext (by rw [k5, h5]) (fun v => by rw [k9, h9, hdo])

theorem C14_visited_set_stable_witness :
    ∃ b b2 d d2, Graph.BFS ⟨3, [[1, 2], [0], [0]]⟩ 0 = some (.done b) ∧
      Graph.BFS ⟨3, [[2, 1], [0], [0]]⟩ 0 = some (.done b2) ∧
      Graph.DFS ⟨3, [[1, 2], [0], [0]]⟩ 0 = some (.done d) ∧
      Graph.DFS ⟨3, [[2, 1], [0], [0]]⟩ 0 = some (.done d2) ∧
      b2.visited = b.visited ∧ d2.visited = d.visited ∧
      (∀ v, v ∈ b2.out ↔ v ∈ b.out) ∧ (∀ v, v ∈ d2.out ↔ v ∈ d.out) :=
  C14_visited_set_stable.1 ⟨3, [[1, 2], [0], [0]]⟩ ⟨3, [[2, 1], [0], [0]]⟩ 0
    (by unfold Graph.WF; decide) (by unfold Graph.WF; decide) rfl
    (fun i => by
      match i with
      | 0 => exact List.Perm.swap 1 2 []
      | 1 => exact List.Perm.refl _
      | 2 => exact List.Perm.refl _
      | n + 3 => exact List.Perm.refl _) (by decide)

/-! ## The outer test of `visited[v]` -/

theorem claimInner_eq (st : BFSState) (v : Int) : claimInner st v = claim st v := by
  unfold claimInner claim
  by_cases hb : inBounds v st.visited.length = true
  · rw [if_pos hb, if_pos hb]
    cases st.visited.getD v.toNat false <;> rfl
  · rw [if_neg hb, if_neg hb]

theorem scanInner_eq (l : List Int) : ∀ st : BFSState, scanInner l st = scan l st := by
  induction l with
  | nil => intro st; rfl
  | cons v rest ih =>
    intro st
    rw [scanInner, scan, claimInner_eq]
    cases claim st v with
    | done st1 => exact ih st1
    | oob st1 => rfl

theorem bfsBodyInner_eq (g : Graph) (u : Int) (st : BFSState) :
    bfsBodyInner g u st = bfsBody g u st := by
  unfold bfsBodyInner bfsBody
  rw [scanInner_eq]

theorem bfsLoopInner_eq (g : Graph) : ∀ (fuel : Nat) (st : BFSState),
    bfsLoopInner g fuel st = bfsLoop g fuel st := by
  intro fuel
  induction fuel with
  | zero =>
    intro st
    cases hq : st.q <;> simp [bfsLoopInner, bfsLoop, hq]
  | succ n ih =>
    intro st
    rw [bfsLoopInner, bfsLoop]
    cases st.q with
    | nil => rfl
    | cons u rest =>
      simp only [bfsBodyInner_eq]
      cases bfsBody g u { st with q := rest, out := st.out ++ [u] } with
      | done st1 => exact ih st1
      | oob st1 => rfl

/-- C15: the outer test of `visited[v]` in `Graph::BFS` changes nothing.  For every graph and
every start, `Graph::BFS` with only the test inside the critical block gives the same result
as the code as written: the same printed sequence, the same final `visited` vector and queue,
and the same stop at an access outside the bounds when there is one; on a graph built by
`addEdge` calls with a start in range both run to their end. -/
theorem C15_outer_check_redundant :
    (∀ (g : Graph) (fuel : Nat) (start : Int),
      g.BFSInnerFuel fuel start = g.BFSFuel fuel start) ∧
    (∀ (g : Graph) (start : Int), g.BFSInner start = g.BFS start) ∧
    (∀ (V : Nat) (edges : List (Int × Int)) (s : Int),
      EdgesInRange V edges → inBounds s V = true →
      ∃ g st, buildGraph (V : Int) edges = some (.done g) ∧
        g.BFS s = some (.done st) ∧ g.BFSInner s = some (.done st)) := by
  have h1 : ∀ (g : Graph) (fuel : Nat) (start : Int),
      g.BFSInnerFuel fuel start = g.BFSFuel fuel start := by
    intro g fuel start
    unfold Graph.BFSInnerFuel Graph.BFSFuel
    simp only [bfsLoopInner_eq]
  refine ⟨h1, fun g start => h1 g g.V start, ?_⟩
  intro V edges s hE hs
  obtain ⟨g, hb, hV, _, _, hwf, _⟩ := buildGraph_spec V edges hE
  obtain ⟨st, e, _⟩ := BFS_spec hwf (by rw [hV]; exact hs) (fun _ => True) trivial
    (fun _ _ _ _ _ _ _ _ _ _ _ _ => trivial) g.V (le_refl _)
  exact ⟨g, st, hb, e, (h1 g g.V s).trans e⟩

theorem C15_outer_check_redundant_witness :
    EdgesInRange 5 exampleEdges ∧ inBounds 0 5 = true ∧
    ∃ g st, buildGraph ((5 : Nat) : Int) exampleEdges = some (.done g) ∧
      g.BFS 0 = some (.done st) ∧ g.BFSInner 0 = some (.done st) :=
  ⟨by unfold EdgesInRange; decide, by decide,
    C15_outer_check_redundant.2.2 5 exampleEdges 0 (by unfold EdgesInRange; decide) (by decide)⟩

/-! ## The constructor -/

/-- C18: for every `V ≥ 0` the constructor `Graph(V)` makes a graph with `V` vertices:
the field `V` is the argument, `adj` has `V` entries and each of them is the empty list, so
no vertex has a neighbour. -/
theorem C18_constructor_isolated (V : Int) (hV : 0 ≤ V) :
    ∃ g, Graph.create V = some g ∧ (g.V : Int) = V ∧ g.adj.length = g.V ∧
      g.adj = List.replicate g.V [] ∧ (∀ l ∈ g.adj, l = []) ∧
      (∀ a, g.adj.getD a [] = []) ∧ (∀ u v, ¬ g.Adj u v) := by
  have hget : ∀ a : Nat, (List.replicate V.toNat ([] : List Int)).getD a [] = [] := by
    intro a
    simp only [List.getD_eq_getElem?_getD, List.getElem?_replicate]
    split <;> rfl
  refine ⟨⟨V.toNat, List.replicate V.toNat []⟩, by simp [Graph.create, hV],
    Int.toNat_of_nonneg hV, by simp, rfl, ?_, hget, ?_⟩
  · intro l hl
    exact (List.mem_replicate.1 hl).2
  · rintro u v ⟨_, hv⟩
    rw [show (Graph.mk V.toNat (List.replicate V.toNat [])).adj.getD u.toNat [] = [] from
      hget u.toNat] at hv
    cases hv

theorem C18_constructor_isolated_witness :
    (0 : Int) ≤ 4 ∧ ∃ g, Graph.create 4 = some g ∧ (g.V : Int) = 4 ∧ g.adj.length = g.V ∧
      g.adj = List.replicate g.V [] ∧ (∀ l ∈ g.adj, l = []) ∧
      (∀ a, g.adj.getD a [] = []) ∧ (∀ u v, ¬ g.Adj u v) :=
  ⟨by decide, C18_constructor_isolated 4 (by decide)⟩

theorem bfsLoop_fuel_mono (g : Graph) : ∀ (fuel : Nat) (st : BFSState) (r : Run BFSState),
    bfsLoop g fuel st = some r → ∀ k, bfsLoop g (fuel + k) st = some r := by
  intro fuel
  induction fuel with
  | zero =>
    intro st r h k
    cases hq : st.q with
    | nil =>
      have h0 : bfsLoop g 0 st = some (.done st) := by simp [bfsLoop, hq]
      rw [h0] at h
      cases k with
      | zero => rw [← h]; exact h0
      | succ k => rw [← h]; simp [bfsLoop, hq]
    | cons u rest =>
      have h0 : bfsLoop g 0 st = none := by simp [bfsLoop, hq]
      rw [h0] at h; cases h
  | succ n ih =>
    intro st r h k
    rw [Nat.add_right_comm]
    rw [bfsLoop] at h ⊢
    cases hq : st.q with
    | nil => rw [hq] at h; exact h
    | cons u rest =>
      rw [hq] at h
      simp only at h ⊢
      cases hb : bfsBody g u { st with q := rest, out := st.out ++ [u] } with
      | done st1 => rw [hb] at h; simp only at h ⊢; exact ih st1 r h k
      | oob st1 => rw [hb] at h; exact h

/-- C28: `Graph::BFS` ends.  On a graph whose stored neighbours are in `[0, V)` and from a
start in `[0, V)` the loop stops with an empty queue within `V` passes (a larger bound gives
the same result); every pass takes one vertex from the queue and prints it, the printed
vertices are pairwise different, so no vertex entered the queue twice and at most `V`
vertices were taken out. -/
theorem C28_bfs_terminates (g : Graph) (s : Int) (hg : g.WF) (hs : inBounds s g.V = true) :
    ∃ st, g.BFS s = some (.done st) ∧ st.q = [] ∧ st.out.Nodup ∧ st.out.length ≤ g.V ∧
      (∀ v ∈ st.out, inBounds v g.V = true) ∧
      ∀ fuel, g.V ≤ fuel → g.BFSFuel fuel s = some (.done st) := by
  obtain ⟨st, h1, h2, h3, _⟩ := BFS_spec hg hs (fun _ => True) trivial
    (fun _ _ _ _ _ _ _ _ _ _ _ _ => trivial) g.V (le_refl _)
  have hnd : st.out.Nodup := by have := h3.nodup; rwa [h2, List.append_nil] at this
  have hin : ∀ v ∈ st.out, inBounds v g.V = true := by
    intro v hv
    have := ((h3.vis v).2 (List.mem_append_left _ hv)).1
    rwa [h3.len] at this
  refine ⟨st, h1, h2, hnd, length_le_of_nodup_inBounds hnd hin, hin, ?_⟩
  intro fuel hf
  obtain ⟨k, rfl⟩ := Nat.exists_eq_add_of_le hf
  rw [BFSFuel_eq hs] at h1 ⊢
  exact bfsLoop_fuel_mono g g.V _ _ h1 k

theorem C28_bfs_terminates_witness :
    (⟨5, [[1, 2], [0, 3], [0, 4], [1], [2]]⟩ : Graph).WF ∧ inBounds 0 5 = true ∧
    ∃ st, (⟨5, [[1, 2], [0, 3], [0, 4], [1], [2]]⟩ : Graph).BFS 0 = some (.done st) ∧
      st.q = [] ∧ st.out.Nodup ∧ st.out.length ≤ 5 ∧
      (∀ v ∈ st.out, inBounds v 5 = true) ∧
      ∀ fuel, 5 ≤ fuel →
        (⟨5, [[1, 2], [0, 3], [0, 4], [1], [2]]⟩ : Graph).BFSFuel fuel 0 = some (.done st) :=
  ⟨by unfold Graph.WF; decide, by decide,
    C28_bfs_terminates ⟨5, [[1, 2], [0, 3], [0, 4], [1], [2]]⟩ 0
      (by unfold Graph.WF; decide) (by decide)⟩

/-- C29: the start vertex comes first.  On a graph whose stored neighbours are in `[0, V)`
and from a start `s` in `[0, V)`, both traversals run to their end and the first vertex they
print is `s`.  The first assignment to `visited` is `visited[s] = true` on the all-false
vector: `Graph::BFS` enters its loop, and `Graph::DFS` enters the neighbour loop of
`DFSUtil(s, _)`, with `s` the only vertex marked. -/
theorem C29_start_first (g : Graph) (s : Int) (hg : g.WF) (hs : inBounds s g.V = true) :
    ∃ b d, g.BFS s = some (.done b) ∧ g.DFS s = some (.done d) ∧
      b.out.head? = some s ∧ d.out.head? = some s ∧
      g.BFS s = bfsLoop g g.V (bfsInit g s) ∧
      (∀ v, isVisited (bfsInit g s).visited v ↔ v = s) ∧
      g.DFS s = dfsScan (DFSUtil g g.V) s (g.adj.getD s.toNat [])
        ⟨(List.replicate g.V false).set s.toNat true, [s], []⟩ ∧
      (∀ v, isVisited ((List.replicate g.V false).set s.toNat true) v ↔ v = s) := by
  have hset : ∀ v, isVisited ((List.replicate g.V false).set s.toNat true) v ↔ v = s := by
    intro v
    rw [isVisited_set (by simpa using hs)]
    simp [not_isVisited_replicate]
  obtain ⟨b, b1, b2, _, b4⟩ := BFS_spec hg hs (fun st => (st.out ++ st.q).head? = some s)
    (by simp [bfsInit])
    (fun st st2 u rest new _ hp hq ho hq2 _ _ => by
      show (st2.out ++ st2.q).head? = some s
      replace hp : (st.out ++ st.q).head? = some s := hp
      rw [ho, hq2]
      rw [hq] at hp
      have : st.out ++ [u] ++ (rest ++ new) = (st.out ++ u :: rest) ++ new := by simp
      rw [this]
      cases hL : st.out ++ u :: rest with
      | nil => simp at hL
      | cons a t => rw [hL] at hp; simpa using hp) g.V (le_refl _)
  obtain ⟨d, new, d1, d2, _⟩ := DFS_spec hg hs (g.V + 1) (Nat.le_succ _)
  refine ⟨b, d, b1, d1, ?_, by rw [d2]; rfl, BFSFuel_eq hs g.V, hset, ?_, hset⟩
  · rw [b2, List.append_nil] at b4; exact b4
  · show DFSUtil g (g.V + 1) s _ = _
    rw [DFSUtil_succ g g.V (by simpa using hs) (by rw [hg.1]; exact hs)]
    rfl

theorem C29_start_first_witness :
    (⟨5, [[1, 2], [0, 3], [0, 4], [1], [2]]⟩ : Graph).WF ∧ inBounds 2 5 = true ∧
    (⟨5, [[1, 2], [0, 3], [0, 4], [1], [2]]⟩ : Graph).BFS 2 =
      some (.done ⟨[true, true, true, true, true], [], [2, 0, 4, 1, 3]⟩) ∧
    ∃ b d, (⟨5, [[1, 2], [0, 3], [0, 4], [1], [2]]⟩ : Graph).BFS 2 = some (.done b) ∧
      (⟨5, [[1, 2], [0, 3], [0, 4], [1], [2]]⟩ : Graph).DFS 2 = some (.done d) ∧
      b.out.head? = some 2 ∧ d.out.head? = some 2 := by
  obtain ⟨b, d, h1, h2, h3, h4, _⟩ :=
    C29_start_first ⟨5, [[1, 2], [0, 3], [0, 4], [1], [2]]⟩ 2 (by unfold Graph.WF; decide)
      (by decide)
  exact ⟨by unfold Graph.WF; decide, by decide, by decide, b, d, h1, h2, h3, h4⟩

theorem minLoop_spec (xs : List Int) : ∀ m : Int,
    (minLoop xs m = m ∨ minLoop xs m ∈ xs) ∧ minLoop xs m ≤ m ∧ ∀ x ∈ xs, minLoop xs m ≤ x := by
  induction xs with
  | nil => intro m; simp [minLoop]
  | cons a t ih =>
    intro m
    rw [minLoop]
    by_cases hc : a < m
    · rw [if_pos hc]
      obtain ⟨h1, h2, h3⟩ := ih a
      refine ⟨Or.inr ?_, by omega, ?_⟩
      · rcases h1 with h | h
        · rw [h]; exact List.mem_cons_self _ _
        · exact List.mem_cons_of_mem _ h
      · intro x hx
        rcases List.mem_cons.1 hx with rfl | hx
        · exact h2
        · exact h3 x hx
    · rw [if_neg hc]
      obtain ⟨h1, h2, h3⟩ := ih m
      refine ⟨?_, h2, ?_⟩
      · rcases h1 with h | h
        · exact Or.inl h
        · exact Or.inr (List.mem_cons_of_mem _ h)
      · intro x hx
        rcases List.mem_cons.1 hx with rfl | hx
        · omega
        · exact h3 x hx

theorem maxLoop_spec (xs : List Int) : ∀ m : Int,
    (maxLoop xs m = m ∨ maxLoop xs m ∈ xs) ∧ m ≤ maxLoop xs m ∧ ∀ x ∈ xs, x ≤ maxLoop xs m := by
  induction xs with
  | nil => intro m; simp [maxLoop]
  | cons a t ih =>
    intro m
    rw [maxLoop]
    by_cases hc : a > m
    · rw [if_pos hc]
      obtain ⟨h1, h2, h3⟩ := ih a
      refine ⟨Or.inr ?_, by omega, ?_⟩
      · rcases h1 with h | h
        · rw [h]; exact List.mem_cons_self _ _
        · exact List.mem_cons_of_mem _ h
      · intro x hx
        rcases List.mem_cons.1 hx with rfl | hx
        · exact h2
        · exact h3 x hx
    · rw [if_neg hc]
      obtain ⟨h1, h2, h3⟩ := ih m
      refine ⟨?_, h2, ?_⟩
      · rcases h1 with h | h
        · exact Or.inl h
        · exact Or.inr (List.mem_cons_of_mem _ h)
      · intro x hx
        rcases List.mem_cons.1 hx with rfl | hx
        · omega
        · exact h3 x hx

/-- C27: for a non-empty vector `parallelMin` returns an element of the vector that is below
or equal to every element, and `parallelMax` returns an element of the vector that is above
or equal to every element. -/
theorem C27_min_max (vec : List Int) (h : vec ≠ []) :
    (∃ m, parallelMin vec = some m ∧ m ∈ vec ∧ ∀ x ∈ vec, m ≤ x) ∧
    (∃ m, parallelMax vec = some m ∧ m ∈ vec ∧ ∀ x ∈ vec, x ≤ m) := by
  cases vec with
  | nil => exact absurd rfl h
  | cons a t =>
    obtain ⟨h1, h2, h3⟩ := minLoop_spec t a
    obtain ⟨k1, k2, k3⟩ := maxLoop_spec t a
    refine ⟨⟨minLoop t a, rfl, ?_, ?_⟩, ⟨maxLoop t a, rfl, ?_, ?_⟩⟩
    · rcases h1 with e | e
      · rw [e]; exact List.mem_cons_self _ _
      · exact List.mem_cons_of_mem _ e
    · intro x hx
      rcases List.mem_cons.1 hx with rfl | hx
      · exact h2
      · exact h3 x hx
    · rcases k1 with e | e
      · rw [e]; exact List.mem_cons_self _ _
      · exact List.mem_cons_of_mem _ e
    · intro x hx
      rcases List.mem_cons.1 hx with rfl | hx
      · exact k2
      · exact k3 x hx

theorem C27_min_max_witness :
    ([3, -1, 4, -1, 5] : List Int) ≠ [] ∧ parallelMin [3, -1, 4, -1, 5] = some (-1) ∧
    parallelMax [3, -1, 4, -1, 5] = some 5 ∧
    (∃ m, parallelMin [3, -1, 4, -1, 5] = some m ∧ m ∈ ([3, -1, 4, -1, 5] : List Int) ∧
      ∀ x ∈ ([3, -1, 4, -1, 5] : List Int), m ≤ x) ∧
    (∃ m, parallelMax [3, -1, 4, -1, 5] = some m ∧ m ∈ ([3, -1, 4, -1, 5] : List Int) ∧
      ∀ x ∈ ([3, -1, 4, -1, 5] : List Int), x ≤ m) :=
  ⟨by decide, by decide, by decide, C27_min_max [3, -1, 4, -1, 5] (by decide)⟩

/-- C24: for 32-bit `int` values `l`, `r` with `0 ≤ l < r`, every step of `l + (r - l) / 2`
stays inside the 32-bit range (`r - l`, its half, and the sum), the midpoint `m` satisfies
`l ≤ m < r`, and both halves `[l, m]` and `[m + 1, r]` are strictly shorter than `[l, r]`. -/
theorem C24_midpoint (l r : Int) (hl : 0 ≤ l) (hlr : l < r) (hr : inInt32 r) :
    inInt32 (r - l) ∧ inInt32 ((r - l).tdiv 2) ∧ inInt32 (midpoint l r) ∧
    l ≤ midpoint l r ∧ midpoint l r < r ∧
    midpoint l r - l < r - l ∧ r - (midpoint l r + 1) < r - l := by
  unfold inInt32 at *
  unfold midpoint
  have hd : (r - l).tdiv 2 = (r - l) / 2 := Int.tdiv_eq_ediv (by omega) (by omega)
  rw [hd]
  omega

theorem C24_midpoint_witness :
    (0 : Int) ≤ 2147483646 ∧ (2147483646 : Int) < 2147483647 ∧ inInt32 2147483647 ∧
    midpoint 2147483646 2147483647 = 2147483646 ∧
    inInt32 (midpoint 2147483646 2147483647) :=
  ⟨by decide, by decide, by unfold inInt32; decide, by decide,
    (C24_midpoint 2147483646 2147483647 (by decide) (by decide) (by unfold inInt32; decide)).2.2.1⟩

theorem example_sorts :
    sequentialBubbleSort [3, 1, 2, 1] = some (.done [1, 1, 2, 3]) ∧
    parallelOddEvenSort [3, 1, 2, 1] = some (.done [1, 1, 2, 3]) ∧
    sequentialBubbleSort [] = some (.done []) ∧ parallelOddEvenSort [7] = some (.done [7]) := by
  decide

/-! ## Merge sort: the merge step, the recursion and the two versions -/

theorem rd_cast (v : List Int) (k : Nat) : rd v ((k : Nat) : Int) = v[k]? := by
  unfold rd
  by_cases h : k < v.length
  · have : inBounds (k : Int) v.length = true := by rw [inBounds_iff]; omega
    rw [if_pos this]; simp
  · have : ¬ inBounds (k : Int) v.length = true := by rw [inBounds_iff]; omega
    rw [if_neg this, List.getElem?_eq_none (by omega)]

theorem getElem?_frame (A X B : List Int) (i : Nat) (hi : i < X.length) :
    (A ++ X ++ B)[A.length + i]? = X[i]? := by
  rw [List.append_assoc, List.getElem?_append_right (by omega)]
  simp only [Nat.add_sub_cancel_left]
  rw [List.getElem?_append_left hi]

theorem drop_eq_cons {X : List Int} {i : Nat} (hi : i < X.length) :
    X.drop i = X[i] :: X.drop (i + 1) := by
  rw [List.drop_eq_getElem_cons hi]

theorem mergeLeft_spec (arr X : List Int) (a0 : Nat)
    (hread : ∀ k, k < X.length → arr[a0 + k]? = X[k]?) :
    ∀ (fuel i : Nat) (temp : List Int) (right : Int), i ≤ X.length → X.length - i ≤ fuel →
      mergeLeft arr (((a0 + X.length : Nat) : Int) - 1) fuel
          ⟨temp, ((a0 + i : Nat) : Int), right⟩ =
        some (.done ⟨temp ++ X.drop i, ((a0 + X.length : Nat) : Int), right⟩) := by
  intro fuel
  induction fuel with
  | zero =>
    intro i temp right hi hf
    have hi2 : i = X.length := by omega
    subst hi2
    rw [mergeLeft, if_neg (by push_cast; omega)]
    simp
  | succ fuel ih =>
    intro i temp right hi hf
    rw [mergeLeft]
    by_cases hlt : i < X.length
    · rw [if_pos (by push_cast; omega)]
      simp only [rd_cast, hread i hlt, List.getElem?_eq_getElem hlt]
      have e : ((a0 + i : Nat) : Int) + 1 = ((a0 + (i + 1) : Nat) : Int) := by push_cast; omega
      rw [e, ih (i + 1) _ right (by omega) (by omega), drop_eq_cons hlt]
      simp
    · have hi2 : i = X.length := by omega
      subst hi2
      rw [if_neg (by push_cast; omega)]
      simp

theorem mergeRight_spec (arr X : List Int) (b0 : Nat)
    (hread : ∀ k, k < X.length → arr[b0 + k]? = X[k]?) :
    ∀ (fuel j : Nat) (temp : List Int) (left : Int), j ≤ X.length → X.length - j ≤ fuel →
      mergeRight arr (((b0 + X.length : Nat) : Int) - 1) fuel
          ⟨temp, left, ((b0 + j : Nat) : Int)⟩ =
        some (.done ⟨temp ++ X.drop j, left, ((b0 + X.length : Nat) : Int)⟩) := by
  intro fuel
  induction fuel with
  | zero =>
    intro j temp left hj hf
    have hj2 : j = X.length := by omega
    subst hj2
    rw [mergeRight, if_neg (by push_cast; omega)]
    simp
  | succ fuel ih =>
    intro j temp left hj hf
    rw [mergeRight]
    by_cases hlt : j < X.length
    · rw [if_pos (by push_cast; omega)]
      simp only [rd_cast, hread j hlt, List.getElem?_eq_getElem hlt]
      have e : ((b0 + j : Nat) : Int) + 1 = ((b0 + (j + 1) : Nat) : Int) := by push_cast; omega
      rw [e, ih (j + 1) _ left (by omega) (by omega), drop_eq_cons hlt]
      simp
    · have hj2 : j = X.length := by omega
      subst hj2
      rw [if_neg (by push_cast; omega)]
      simp

theorem mergeBoth_spec (arr X1 X2 : List Int) (a0 b0 : Nat)
    (hr1 : ∀ k, k < X1.length → arr[a0 + k]? = X1[k]?)
    (hr2 : ∀ k, k < X2.length → arr[b0 + k]? = X2[k]?) :
    ∀ (fuel i j : Nat) (temp : List Int), i ≤ X1.length → j ≤ X2.length →
      (X1.length - i) + (X2.length - j) ≤ fuel →
      ∃ i2 j2 pre,
        mergeBoth arr (((a0 + X1.length : Nat) : Int) - 1) (((b0 + X2.length : Nat) : Int) - 1)
            fuel ⟨temp, ((a0 + i : Nat) : Int), ((b0 + j : Nat) : Int)⟩ =
          some (.done ⟨temp ++ pre, ((a0 + i2 : Nat) : Int), ((b0 + j2 : Nat) : Int)⟩) ∧
        i2 ≤ X1.length ∧ j2 ≤ X2.length ∧
        pre ++ X1.drop i2 ++ X2.drop j2 = List.merge (X1.drop i) (X2.drop j) leB := by
  intro fuel
  induction fuel with
  | zero =>
    intro i j temp hi hj hf
    have hi2 : i = X1.length := by omega
    have hj2 : j = X2.length := by omega
    subst hi2; subst hj2
    refine ⟨X1.length, X2.length, [], ?_, le_refl _, le_refl _, by simp⟩
    rw [mergeBoth, if_neg (by push_cast; omega)]
    simp
  | succ fuel ih =>
    intro i j temp hi hj hf
    rw [mergeBoth]
    by_cases hlt : i < X1.length ∧ j < X2.length
    · obtain ⟨h1, h2⟩ := hlt
      rw [if_pos (by push_cast; omega)]
      simp only [rd_cast, hr1 i h1, hr2 j h2, List.getElem?_eq_getElem h1,
        List.getElem?_eq_getElem h2]
      have e1 : ((a0 + i : Nat) : Int) + 1 = ((a0 + (i + 1) : Nat) : Int) := by push_cast; omega
      have e2 : ((b0 + j : Nat) : Int) + 1 = ((b0 + (j + 1) : Nat) : Int) := by push_cast; omega
      rw [drop_eq_cons h1, drop_eq_cons h2, List.cons_merge_cons]
      by_cases hab : X1[i] ≤ X2[j]
      · rw [if_pos hab, e1]
        obtain ⟨i2, j2, pre, r1, r2, r3, r4⟩ := ih (i + 1) j (temp ++ [X1[i]]) (by omega) hj
          (by omega)
        refine ⟨i2, j2, X1[i] :: pre, ?_, r2, r3, ?_⟩
        · rw [r1]; simp
        · have hl : leB X1[i] X2[j] = true := by simpa [leB] using hab
          rw [if_pos hl, ← drop_eq_cons h2, ← r4]
          simp
      · rw [if_neg hab, e2]
        obtain ⟨i2, j2, pre, r1, r2, r3, r4⟩ := ih i (j + 1) (temp ++ [X2[j]]) hi (by omega)
          (by omega)
        refine ⟨i2, j2, X2[j] :: pre, ?_, r2, r3, ?_⟩
        · rw [r1]; simp
        · have hl : ¬ leB X1[i] X2[j] = true := by simpa [leB] using hab
          rw [if_neg hl, ← drop_eq_cons h1, ← r4]
          simp
    · rw [if_neg (by push_cast; omega)]
      refine ⟨i, j, [], by simp, hi, hj, ?_⟩
      by_cases h1 : i < X1.length
      · have hj2 : j = X2.length := by omega
        subst hj2
        simp
      · have hi2 : i = X1.length := by omega
        subst hi2
        simp

theorem set_at_length (A : List Int) (x v : Int) (C : List Int) :
    (A ++ x :: C).set A.length v = A ++ v :: C := by
  induction A with
  | nil => rfl
  | cons a t ih => simp [ih]

theorem writeBack_spec (A X B temp : List Int) (hlen : temp.length = X.length) :
    ∀ (fuel k : Nat), k ≤ X.length → X.length - k ≤ fuel →
      writeBack temp (A.length : Int) (((A.length + X.length : Nat) : Int) - 1) fuel
          ((A.length + k : Nat) : Int) (A ++ temp.take k ++ X.drop k ++ B) =
        some (.done (A ++ temp ++ B)) := by
  intro fuel
  induction fuel with
  | zero =>
    intro k hk hf
    have hk2 : k = X.length := by omega
    subst hk2
    have ht : temp.take X.length = temp := by rw [← hlen, List.take_length]
    rw [writeBack, if_neg (by push_cast; omega), ht, List.drop_length]
    simp
  | succ fuel ih =>
    intro k hk hf
    rw [writeBack]
    by_cases hlt : k < X.length
    · rw [if_pos (by push_cast; omega)]
      have e0 : ((A.length + k : Nat) : Int) - (A.length : Int) = ((k : Nat) : Int) := by
        push_cast; omega
      have hkt : k < temp.length := by omega
      rw [e0, rd_cast, List.getElem?_eq_getElem hkt]
      simp only
      have hb : inBounds ((A.length + k : Nat) : Int)
          (A ++ temp.take k ++ X.drop k ++ B).length = true := by
        rw [inBounds_iff]
        simp only [List.length_append, List.length_take, List.length_drop]
        push_cast
        omega
      rw [if_pos hb]
      have e1 : ((A.length + k : Nat) : Int) + 1 = ((A.length + (k + 1) : Nat) : Int) := by
        push_cast; omega
      rw [e1, Int.toNat_ofNat]
      have hset : (A ++ temp.take k ++ X.drop k ++ B).set (A.length + k) temp[k] =
          A ++ temp.take (k + 1) ++ X.drop (k + 1) ++ B := by
        have hl : (A ++ temp.take k).length = A.length + k := by
          simp [List.length_take]; omega
        have h1 : A ++ temp.take k ++ X.drop k ++ B =
            (A ++ temp.take k) ++ X[k] :: (X.drop (k + 1) ++ B) := by
          rw [drop_eq_cons hlt]
          simp only [List.append_assoc, List.cons_append]
        rw [h1, ← hl, set_at_length, List.take_succ, List.getElem?_eq_getElem hkt]
        simp only [Option.toList, List.append_assoc, List.cons_append, List.nil_append]
      rw [hset]
      exact ih (k + 1) (by omega) (by omega)
    · have hk2 : k = X.length := by omega
      subst hk2
      have ht : temp.take X.length = temp := by rw [← hlen, List.take_length]
      rw [if_neg (by push_cast; omega), ht, List.drop_length]
      simp

/-- What `merge` does on a vector cut as `A ++ X1 ++ X2 ++ B`, with `l`, `m`, `r` the
positions of the first element of `X1`, the last of `X1` and the last of `X2`. -/
theorem merge_frame (A X1 X2 B : List Int) :
    merge (A ++ X1 ++ X2 ++ B) (A.length : Int) (((A.length + X1.length : Nat) : Int) - 1)
        (((A.length + X1.length + X2.length : Nat) : Int) - 1) =
      some (.done (A ++ List.merge X1 X2 leB ++ B)) := by
  have hr1 : ∀ k, k < X1.length → (A ++ X1 ++ X2 ++ B)[A.length + k]? = X1[k]? := by
    intro k hk
    have : A ++ X1 ++ X2 ++ B = A ++ X1 ++ (X2 ++ B) := by simp
    rw [this]; exact getElem?_frame A X1 _ k hk
  have hr2 : ∀ k, k < X2.length →
      (A ++ X1 ++ X2 ++ B)[A.length + X1.length + k]? = X2[k]? := by
    intro k hk
    have := getElem?_frame (A ++ X1) X2 B k hk
    simpa using this
  have hF : ((((A.length + X1.length + X2.length : Nat) : Int) - 1) - (A.length : Int)
      + 1).toNat = X1.length + X2.length := by
    push_cast; omega
  obtain ⟨i2, j2, pre, r1, r2, r3, r4⟩ :=
    mergeBoth_spec (A ++ X1 ++ X2 ++ B) X1 X2 A.length (A.length + X1.length) hr1 hr2
      (X1.length + X2.length) 0 0 [] (Nat.zero_le _) (Nat.zero_le _) (by omega)
  have e1 : (((A.length + X1.length : Nat) : Int) - 1) + 1 =
      ((A.length + X1.length : Nat) : Int) := by push_cast; omega
  simp only [Nat.add_zero, List.nil_append, List.drop_zero] at r1 r4
  have hfill : mergeFill (A ++ X1 ++ X2 ++ B) (A.length : Int)
      (((A.length + X1.length : Nat) : Int) - 1)
      (((A.length + X1.length + X2.length : Nat) : Int) - 1) (X1.length + X2.length) =
      some (.done ⟨List.merge X1 X2 leB, ((A.length + X1.length : Nat) : Int),
        ((A.length + X1.length + X2.length : Nat) : Int)⟩) := by
    unfold mergeFill
    rw [e1, r1]
    simp only
    rw [mergeLeft_spec _ X1 A.length hr1 _ i2 pre _ r2 (by omega)]
    simp only
    rw [mergeRight_spec _ X2 (A.length + X1.length) hr2 _ j2 _ _ r3 (by omega)]
    rw [r4]
  unfold merge
  rw [hF, hfill]
  simp only
  have hlen : (List.merge X1 X2 leB).length = (X1 ++ X2).length := by
    simp [List.length_merge]
  have hw := writeBack_spec A (X1 ++ X2) B (List.merge X1 X2 leB) hlen
    (X1.length + X2.length) 0 (Nat.zero_le _) (by simp)
  simp only [List.take_zero, List.drop_zero, List.append_nil, List.length_append,
    Nat.add_zero] at hw
  have e3 : ((A.length + (X1.length + X2.length) : Nat) : Int) =
      ((A.length + X1.length + X2.length : Nat) : Int) := by push_cast; omega
  rw [e3] at hw
  have e4 : A ++ (X1 ++ X2) ++ B = A ++ X1 ++ X2 ++ B := by simp
  rw [e4] at hw
  exact hw

theorem sorted_leB_merge {s1 s2 : List Int} (h1 : s1.Sorted (· ≤ ·)) (h2 : s2.Sorted (· ≤ ·)) :
    (List.merge s1 s2 leB).Sorted (· ≤ ·) := by
  have := @List.sorted_merge Int leB
    (fun a b c hab hbc => by
      simp only [leB, decide_eq_true_eq] at hab hbc ⊢; omega)
    (fun a b => by
      simp only [leB, Bool.or_eq_true, decide_eq_true_eq]; omega)
    s1 s2 (by simpa [List.Sorted, leB] using h1) (by simpa [List.Sorted, leB] using h2)
  simpa [List.Sorted, leB] using this

theorem midpoint_cast (a n : Nat) (hn : 2 ≤ n) :
    midpoint (a : Int) (((a + n : Nat) : Int) - 1) = ((a + ((n - 1) / 2 + 1) : Nat) : Int) - 1 := by
  unfold midpoint
  rw [Int.tdiv_eq_ediv (by push_cast; omega) (by omega)]
  push_cast
  omega

/-- What `parallelMergeSort` (either order of the sections) does on a vector cut as
`A ++ X ++ B`, with `l` and `r` the positions of the first and the last element of `X`. -/
theorem mergeSort_frame (b : Bool) : ∀ (fuel : Nat) (A X B : List Int), X.length < fuel →
    ∃ s, parallelMergeSortFuel b fuel (A ++ X ++ B) (A.length : Int)
        (((A.length + X.length : Nat) : Int) - 1) = some (.done (A ++ s ++ B)) ∧
      s.Sorted (· ≤ ·) ∧ s.Perm X := by
  intro fuel
  induction fuel with
  | zero => intro A X B h; omega
  | succ fuel ih =>
    intro A X B hf
    rw [parallelMergeSortFuel]
    by_cases h2 : 2 ≤ X.length
    · rw [if_pos (by push_cast; omega)]
      have hk : (X.length - 1) / 2 + 1 < X.length := by omega
      have hX : X = X.take ((X.length - 1) / 2 + 1) ++ X.drop ((X.length - 1) / 2 + 1) :=
        (List.take_append_drop _ _).symm
      have hl1 : (X.take ((X.length - 1) / 2 + 1)).length = (X.length - 1) / 2 + 1 := by
        rw [List.length_take]; omega
      have hl2 : (X.drop ((X.length - 1) / 2 + 1)).length =
          X.length - ((X.length - 1) / 2 + 1) := List.length_drop _ _
      generalize hX1 : X.take ((X.length - 1) / 2 + 1) = X1 at hX hl1
      generalize hX2 : X.drop ((X.length - 1) / 2 + 1) = X2 at hX hl2
      rw [midpoint_cast _ _ h2]
      have hm : ((A.length + ((X.length - 1) / 2 + 1) : Nat) : Int) - 1 =
          ((A.length + X1.length : Nat) : Int) - 1 := by rw [hl1]
      have hm1 : ((A.length + ((X.length - 1) / 2 + 1) : Nat) : Int) - 1 + 1 =
          (((A ++ X1).length : Nat) : Int) := by
        rw [List.length_append, hl1]; push_cast; omega
      obtain ⟨s1, e1, p1, q1⟩ := ih A X1 (X2 ++ B) (by omega)
      have hs1 : s1.length = X1.length := q1.length_eq
      cases b with
      | false =>
        simp only [Bool.false_eq_true, if_false]
        have ha : A ++ X ++ B = A ++ X1 ++ (X2 ++ B) := by rw [hX]; simp
        rw [ha, hm, e1]
        simp only
        obtain ⟨s2, e2, p2, q2⟩ := ih (A ++ s1) X2 B (by omega)
        have hr : ((A.length + X.length : Nat) : Int) - 1 =
            (((A ++ s1).length + X2.length : Nat) : Int) - 1 := by
          rw [List.length_append, hs1, hl1, hl2]; push_cast; omega
        have hl : ((A.length + X1.length : Nat) : Int) - 1 + 1 =
            (((A ++ s1).length : Nat) : Int) := by
          rw [List.length_append, hs1]; push_cast; omega
        have hb2 : A ++ s1 ++ (X2 ++ B) = A ++ s1 ++ X2 ++ B := by simp
        rw [hb2, hl, hr, e2]
        simp only
        have hs2 : s2.length = X2.length := q2.length_eq
        have hmm : ((A.length + X1.length : Nat) : Int) - 1 =
            ((A.length + s1.length : Nat) : Int) - 1 := by rw [hs1]
        have hrr : (((A ++ s1).length + X2.length : Nat) : Int) - 1 =
            ((A.length + s1.length + s2.length : Nat) : Int) - 1 := by
          rw [List.length_append, hs2]
        rw [hmm, hrr, merge_frame A s1 s2 B]
        refine ⟨List.merge s1 s2 leB, rfl, sorted_leB_merge p1 p2, ?_⟩
        rw [hX]
        exact (List.merge_perm_append leB).trans (q1.append q2)
      | true =>
        simp only [if_true]
        obtain ⟨s2, e2, p2, q2⟩ := ih (A ++ X1) X2 B (by omega)
        have hs2 : s2.length = X2.length := q2.length_eq
        have ha : A ++ X ++ B = A ++ X1 ++ X2 ++ B := by rw [hX]; simp
        have hr : ((A.length + X.length : Nat) : Int) - 1 =
            (((A ++ X1).length + X2.length : Nat) : Int) - 1 := by
          rw [List.length_append, hl1, hl2]; push_cast; omega
        rw [ha, hm1, hr, e2]
        simp only
        obtain ⟨s1b, e1b, p1b, q1b⟩ := ih A X1 (s2 ++ B) (by omega)
        have hs1b : s1b.length = X1.length := q1b.length_eq
        have hb2 : A ++ X1 ++ s2 ++ B = A ++ X1 ++ (s2 ++ B) := by simp
        rw [hb2, hm, e1b]
        simp only
        have hb3 : A ++ s1b ++ (s2 ++ B) = A ++ s1b ++ s2 ++ B := by simp
        have hmm : ((A.length + X1.length : Nat) : Int) - 1 =
            ((A.length + s1b.length : Nat) : Int) - 1 := by rw [hs1b]
        have hrr : (((A ++ X1).length + X2.length : Nat) : Int) - 1 =
            ((A.length + s1b.length + s2.length : Nat) : Int) - 1 := by
          rw [List.length_append, hs2, hs1b]
        rw [hb3, hmm, hrr, merge_frame A s1b s2 B]
        refine ⟨List.merge s1b s2 leB, rfl, sorted_leB_merge p1b p2, ?_⟩
        rw [hX]
        exact (List.merge_perm_append leB).trans (q1b.append q2)
    · rw [if_neg (by push_cast; omega)]
      refine ⟨X, rfl, ?_, List.Perm.refl _⟩
      match X, h2 with
      | [], _ => exact List.sorted_nil
      | [x], _ => exact List.sorted_singleton x
      | _ :: _ :: _, h => simp at h

theorem parallel_false_eq_sequential : ∀ (fuel : Nat) (arr : List Int) (l r : Int),
    parallelMergeSortFuel false fuel arr l r = sequentialMergeSortFuel fuel arr l r := by
  intro fuel
  induction fuel with
  | zero => intro arr l r; rfl
  | succ fuel ih =>
    intro arr l r
    rw [parallelMergeSortFuel, sequentialMergeSortFuel]
    simp only [Bool.false_eq_true, if_false, ih]

theorem segment_frame (A Y B : List Int) :
    segment (A ++ Y ++ B) (A.length : Int) (((A.length + Y.length : Nat) : Int) - 1) = Y := by
  unfold segment
  have e : (((A.length + Y.length : Nat) : Int) - 1 + 1 - (A.length : Int)).toNat = Y.length := by
    push_cast; omega
  rw [e, Int.toNat_ofNat, List.append_assoc, List.drop_left, List.take_left]

theorem decompose_segment (arr : List Int) (l r : Int) (hl : 0 ≤ l) (hlr : l ≤ r + 1)
    (hr : r < arr.length) :
    arr = arr.take l.toNat ++ segment arr l r ++ arr.drop (r + 1).toNat ∧
    (arr.take l.toNat).length = l.toNat ∧ (segment arr l r).length = (r + 1 - l).toNat := by
  have h1 : (arr.take l.toNat).length = l.toNat := by
    rw [List.length_take]; omega
  have h2 : (segment arr l r).length = (r + 1 - l).toNat := by
    unfold segment
    rw [List.length_take, List.length_drop]; omega
  refine ⟨?_, h1, h2⟩
  unfold segment
  have e : (r + 1).toNat = l.toNat + (r + 1 - l).toNat := by omega
  rw [e, ← List.drop_drop, List.append_assoc, List.take_append_drop, List.take_append_drop]

theorem getElem?_outside (A Y Z B : List Int) (hlen : Z.length = Y.length) (i : Nat)
    (hi : i < A.length ∨ A.length + Y.length ≤ i) :
    (A ++ Z ++ B)[i]? = (A ++ Y ++ B)[i]? := by
  rcases hi with hi | hi
  · rw [List.append_assoc, List.append_assoc, List.getElem?_append_left hi,
      List.getElem?_append_left hi]
  · rw [List.getElem?_append_right (by simp; omega),
      List.getElem?_append_right (by simp; omega)]
    simp [hlen]

/-- C22: for indexes `0 ≤ l ≤ m < r < arr.size()` with `arr[l..m]` and `arr[m+1..r]` each
sorted in non-decreasing order, `merge(arr, l, m, r)` runs to its end, keeps the size, leaves
`arr[l..r]` sorted in non-decreasing order and a permutation of what it was, and leaves every
element outside `[l, r]` as it was. -/
theorem C22_merge_sorted (arr : List Int) (l m r : Int) (hl : 0 ≤ l) (hlm : l ≤ m)
    (hmr : m < r) (hr : r < arr.length) (h1 : (segment arr l m).Sorted (· ≤ ·))
    (h2 : (segment arr (m + 1) r).Sorted (· ≤ ·)) :
    ∃ arr1, merge arr l m r = some (.done arr1) ∧ arr1.length = arr.length ∧
      (segment arr1 l r).Sorted (· ≤ ·) ∧ (segment arr1 l r).Perm (segment arr l r) ∧
      ∀ i : Nat, ((i : Int) < l ∨ r < (i : Int)) → arr1[i]? = arr[i]? := by
  obtain ⟨d1, d2, d3⟩ := decompose_segment arr l m hl (by omega) (by omega)
  obtain ⟨f1, f2, f3⟩ := decompose_segment (arr.drop (m + 1).toNat) 0 (r - (m + 1))
    (le_refl _) (by omega) (by rw [List.length_drop]; omega)
  have hseg2 : segment (arr.drop (m + 1).toNat) 0 (r - (m + 1)) = segment arr (m + 1) r := by
    unfold segment
    simp only [Int.toNat_zero, List.drop_zero]
    congr 1
    omega
  have hdd : (arr.drop (m + 1).toNat).drop (r - (m + 1) + 1).toNat = arr.drop (r + 1).toNat := by
    rw [List.drop_drop]; congr 1; omega
  simp only [Int.toNat_zero, List.take_zero, List.nil_append] at f1
  rw [hseg2, hdd] at f1
  rw [hseg2] at f3
  generalize hA : arr.take l.toNat = A at d1 d2
  generalize hX1 : segment arr l m = X1 at d1 d3 h1
  generalize hX2 : segment arr (m + 1) r = X2 at f1 f3 h2
  generalize hB : arr.drop (r + 1).toNat = B at f1
  have harr : arr = A ++ X1 ++ X2 ++ B := by
    rw [f1] at d1; rw [d1]; simp
  have el : l = (A.length : Int) := by omega
  have em : m = ((A.length + X1.length : Nat) : Int) - 1 := by push_cast; omega
  have er : r = ((A.length + X1.length + X2.length : Nat) : Int) - 1 := by push_cast; omega
  have hres := merge_frame A X1 X2 B
  rw [← harr, ← el, ← em, ← er] at hres
  have hml : (List.merge X1 X2 leB).length = (X1 ++ X2).length := by
    simp [List.length_merge]
  have er2 : r = ((A.length + (List.merge X1 X2 leB).length : Nat) : Int) - 1 := by
    rw [hml, List.length_append]; push_cast; omega
  have er3 : r = ((A.length + (X1 ++ X2).length : Nat) : Int) - 1 := by
    rw [List.length_append]; push_cast; omega
  have hs1 : segment (A ++ List.merge X1 X2 leB ++ B) l r = List.merge X1 X2 leB := by
    rw [el, er2]; exact segment_frame _ _ _
  have hs0 : segment arr l r = X1 ++ X2 := by
    have : arr = A ++ (X1 ++ X2) ++ B := by rw [harr]; simp
    rw [this, el, er3]; exact segment_frame _ _ _
  refine ⟨A ++ List.merge X1 X2 leB ++ B, hres, ?_, ?_, ?_, ?_⟩
  · rw [harr]; simp [List.length_merge]; omega
  · rw [hs1]; exact sorted_leB_merge h1 h2
  · rw [hs1, hs0]; exact List.merge_perm_append leB
  · intro i hi
    have : arr = A ++ (X1 ++ X2) ++ B := by rw [harr]; simp
    rw [this]
    apply getElem?_outside A (X1 ++ X2) _ B hml i
    rw [List.length_append]
    omega

theorem C22_merge_sorted_witness :
    ∃ arr1, merge [9, 1, 4, 2, 3, 0] 1 2 4 = some (.done arr1) ∧
      arr1.length = ([9, 1, 4, 2, 3, 0] : List Int).length ∧
      (segment arr1 1 4).Sorted (· ≤ ·) ∧
      (segment arr1 1 4).Perm (segment [9, 1, 4, 2, 3, 0] 1 4) ∧
      ∀ i : Nat, ((i : Int) < 1 ∨ 4 < (i : Int)) → arr1[i]? = ([9, 1, 4, 2, 3, 0] : List Int)[i]? :=
  C22_merge_sorted [9, 1, 4, 2, 3, 0] 1 2 4 (by decide) (by decide) (by decide) (by decide)
    (by decide) (by decide)

theorem mergeSort_range (b : Bool) (arr : List Int) (l r : Int) (hl : 0 ≤ l)
    (hlr : l ≤ r + 1) (hr : r < arr.length) :
    ∃ s, parallelMergeSortFuel b ((r - l + 1).toNat + 1) arr l r =
        some (.done (arr.take l.toNat ++ s ++ arr.drop (r + 1).toNat)) ∧
      s.Sorted (· ≤ ·) ∧ s.Perm (segment arr l r) := by
  obtain ⟨d1, d2, d3⟩ := decompose_segment arr l r hl hlr hr
  obtain ⟨s, e, p, q⟩ := mergeSort_frame b ((r - l + 1).toNat + 1) (arr.take l.toNat)
    (segment arr l r) (arr.drop (r + 1).toNat) (by rw [d3]; omega)
  rw [← d1, d2, d3] at e
  have el : ((l.toNat : Nat) : Int) = l := Int.toNat_of_nonneg hl
  have er : ((l.toNat + (r + 1 - l).toNat : Nat) : Int) - 1 = r := by push_cast; omega
  rw [el, er] at e
  exact ⟨s, e, p, q⟩

theorem segment_whole (arr : List Int) : segment arr 0 ((arr.length : Int) - 1) = arr := by
  unfold segment
  have e : ((arr.length : Int) - 1 + 1 - 0).toNat = arr.length := by omega
  rw [e, Int.toNat_zero, List.drop_zero, List.take_length]

theorem mergeSort_base (b : Bool) (arr : List Int) (l r : Int) (h : r ≤ l) (fuel : Nat) :
    parallelMergeSortFuel b (fuel + 1) arr l r = some (.done arr) := by
  rw [parallelMergeSortFuel, if_neg (by omega)]

/-- C21: for every vector `arr` of length `n`, `sequentialMergeSort(arr, 0, n - 1)` runs to
its end and leaves `arr` sorted in non-decreasing order and a permutation of its original
contents; and a call with `l >= r` runs to its end and leaves `arr` as it was. -/
theorem C21_merge_sort_sorts (arr : List Int) :
    (∃ arr1, sequentialMergeSort arr 0 ((arr.length : Int) - 1) = some (.done arr1) ∧
      arr1.Sorted (· ≤ ·) ∧ arr1.Perm arr) ∧
    ∀ l r : Int, r ≤ l → sequentialMergeSort arr l r = some (.done arr) := by
  constructor
  · obtain ⟨s, e, hs, hp⟩ := mergeSort_range false arr 0 ((arr.length : Int) - 1)
      (le_refl _) (by omega) (by omega)
    have e2 : ((arr.length : Int) - 1 + 1).toNat = arr.length := by omega
    rw [Int.toNat_zero, List.take_zero, List.nil_append, e2, List.drop_length,
      List.append_nil, parallel_false_eq_sequential] at e
    rw [segment_whole] at hp
    exact ⟨s, e, hs, hp⟩
  · intro l r h
    unfold sequentialMergeSort
    rw [← parallel_false_eq_sequential]
    exact mergeSort_base false arr l r h _

theorem C21_merge_sort_sorts_witness :
    (∃ arr1, sequentialMergeSort [5, 2, 4, 1, 3] 0 ((([5, 2, 4, 1, 3] : List Int).length : Int) - 1)
        = some (.done arr1) ∧
      arr1.Sorted (· ≤ ·) ∧ arr1.Perm [5, 2, 4, 1, 3]) ∧
    sequentialMergeSort [5, 2, 4, 1, 3] 3 3 = some (.done [5, 2, 4, 1, 3]) :=
  ⟨(C21_merge_sort_sorts [5, 2, 4, 1, 3]).1,
    (C21_merge_sort_sorts [5, 2, 4, 1, 3]).2 3 3 (by decide)⟩

/-- C23: for every vector `arr` and every `l` and `r`, `parallelMergeSort(arr, l, r)` gives
exactly what `sequentialMergeSort(arr, l, r)` gives on the same input; and when the range
is empty or inside the vector, both run to their end with the same final array, also when
every pair of sections runs the second section first. -/
theorem C23_parallel_same_as_sequential :
    (∀ (arr : List Int) (l r : Int), parallelMergeSort arr l r = sequentialMergeSort arr l r) ∧
    ∀ (arr : List Int) (l r : Int), (l < r → 0 ≤ l ∧ r < arr.length) →
      ∃ arr1, sequentialMergeSort arr l r = some (.done arr1) ∧
        parallelMergeSort arr l r = some (.done arr1) ∧
        parallelMergeSortFuel true ((r - l + 1).toNat + 1) arr l r = some (.done arr1) := by
  have heq : ∀ (arr : List Int) (l r : Int),
      parallelMergeSort arr l r = sequentialMergeSort arr l r := by
    intro arr l r
    unfold parallelMergeSort sequentialMergeSort
    exact parallel_false_eq_sequential _ _ _ _
  refine ⟨heq, ?_⟩
  intro arr l r h
  by_cases hlr : l < r
  · obtain ⟨hl, hr⟩ := h hlr
    obtain ⟨s, e, hs, hp⟩ := mergeSort_range false arr l r hl (by omega) hr
    obtain ⟨s', e', hs', hp'⟩ := mergeSort_range true arr l r hl (by omega) hr
    have hss : s' = s := List.eq_of_perm_of_sorted (hp'.trans hp.symm) hs' hs
    rw [hss] at e'
    refine ⟨_, ?_, e, e'⟩
    rw [← heq]
    exact e
  · refine ⟨arr, ?_, ?_, ?_⟩
    · rw [← heq]
      exact mergeSort_base false arr l r (by omega) _
    · exact mergeSort_base false arr l r (by omega) _
    · exact mergeSort_base true arr l r (by omega) _

theorem C23_parallel_same_as_sequential_witness :
    parallelMergeSort [5, 2, 4, 1, 3] 0 4 = sequentialMergeSort [5, 2, 4, 1, 3] 0 4 ∧
    ∃ arr1, sequentialMergeSort [5, 2, 4, 1, 3] 1 3 = some (.done arr1) ∧
      parallelMergeSort [5, 2, 4, 1, 3] 1 3 = some (.done arr1) ∧
      parallelMergeSortFuel true ((3 - 1 + 1 : Int).toNat + 1) [5, 2, 4, 1, 3] 1 3 =
        some (.done arr1) :=
  ⟨C23_parallel_same_as_sequential.1 [5, 2, 4, 1, 3] 0 4,
    C23_parallel_same_as_sequential.2 [5, 2, 4, 1, 3] 1 3 (fun _ => by decide)⟩

/-! ## The tree: places, levels and the two traversals -/

theorem nodeAt_append (p q : List Nat) : ∀ t : TreeNode,
    nodeAt (p ++ q) t = (nodeAt p t).bind (nodeAt q) := by
  induction p with
  | nil => intro t; rfl
  | cons i rest ih =>
    intro t
    rw [List.cons_append, nodeAt, nodeAt]
    cases t.children[i]? with
    | none => rfl
    | some c => exact ih c

theorem nodeAt_singleton (i : Nat) (t : TreeNode) : nodeAt [i] t = t.children[i]? := by
  rw [nodeAt]
  cases t.children[i]? <;> rfl

theorem nodeAt_prefix {p q : List Nat} {t n : TreeNode} (h : nodeAt (p ++ q) t = some n) :
    ∃ m, nodeAt p t = some m ∧ nodeAt q m = some n := by
  rw [nodeAt_append] at h
  cases hp : nodeAt p t with
  | none => rw [hp] at h; cases h
  | some m => rw [hp] at h; exact ⟨m, rfl, h⟩

theorem mem_kidsFrom (addr : List Nat) (cs : List TreeNode) : ∀ (k : Nat) (x : NodePtr),
    x ∈ kidsFrom addr k cs ↔ ∃ i c, cs[i]? = some c ∧ x = ⟨addr ++ [k + i], c⟩ := by
  induction cs with
  | nil => intro k x; simp [kidsFrom]
  | cons c cs ih =>
    intro k x
    rw [kidsFrom, List.mem_cons, ih]
    constructor
    · rintro (h | ⟨i, c2, hc, hx⟩)
      · exact ⟨0, c, by simp, by rw [h]; rfl⟩
      · refine ⟨i + 1, c2, by simpa using hc, ?_⟩
        rw [hx]
        have e : k + 1 + i = k + (i + 1) := by omega
        rw [e]
    · rintro ⟨i, c2, hc, hx⟩
      cases i with
      | zero =>
        left
        simp only [List.getElem?_cons_zero, Option.some.injEq] at hc
        rw [hx, ← hc]; rfl
      | succ j =>
        right
        refine ⟨j, c2, by simpa using hc, ?_⟩
        rw [hx]
        have e : k + 1 + j = k + (j + 1) := by omega
        rw [e]

theorem mem_kids (x y : NodePtr) :
    y ∈ x.kids ↔ ∃ i c, x.node.children[i]? = some c ∧ y = ⟨x.addr ++ [i], c⟩ := by
  unfold NodePtr.kids
  rw [mem_kidsFrom]
  simp

theorem kidsFrom_addr_nodup (addr : List Nat) (cs : List TreeNode) : ∀ k : Nat,
    ((kidsFrom addr k cs).map NodePtr.addr).Nodup := by
  induction cs with
  | nil => intro k; simp [kidsFrom]
  | cons c cs ih =>
    intro k
    rw [kidsFrom, List.map_cons, List.nodup_cons]
    refine ⟨?_, ih (k + 1)⟩
    intro hmem
    obtain ⟨y, hy, hya⟩ := List.mem_map.1 hmem
    obtain ⟨i, c2, _, hyx⟩ := (mem_kidsFrom addr cs (k + 1) y).1 hy
    rw [hyx] at hya
    have h2 := List.append_cancel_left hya
    simp at h2
    omega

theorem mem_levelNodes (t : TreeNode) : ∀ (d : Nat) (x : NodePtr),
    x ∈ levelNodes t d ↔ x.addr.length = d ∧ nodeAt x.addr t = some x.node := by
  intro d
  induction d with
  | zero =>
    intro x
    rw [levelNodes, List.mem_singleton]
    constructor
    · intro h; rw [h]; exact ⟨rfl, rfl⟩
    · rintro ⟨h1, h2⟩
      obtain ⟨a, n⟩ := x
      simp only at h1 h2
      have ha : a = [] := List.length_eq_zero.1 h1
      subst ha
      simp only [nodeAt, Option.some.injEq] at h2
      rw [h2]
  | succ d ih =>
    intro x
    rw [levelNodes, List.mem_flatMap]
    constructor
    · rintro ⟨q, hq, hx⟩
      obtain ⟨hq1, hq2⟩ := (ih q).1 hq
      obtain ⟨i, c, hc, hxe⟩ := (mem_kids q x).1 hx
      rw [hxe]
      refine ⟨by simp [hq1], ?_⟩
      show nodeAt (q.addr ++ [i]) t = some c
      rw [nodeAt_append, hq2, Option.some_bind, nodeAt_singleton, hc]
    · rintro ⟨h1, h2⟩
      obtain ⟨a, n⟩ := x
      simp only at h1 h2
      have hne : a ≠ [] := by
        intro h; rw [h] at h1; simp at h1
      have hsplit : a = a.dropLast ++ [a.getLast hne] := (List.dropLast_append_getLast hne).symm
      have hlen : a.dropLast.length = d := by rw [List.length_dropLast]; omega
      rw [hsplit] at h2
      obtain ⟨m, hm1, hm2⟩ := nodeAt_prefix h2
      refine ⟨⟨a.dropLast, m⟩, (ih _).2 ⟨hlen, hm1⟩, ?_⟩
      rw [mem_kids]
      rw [nodeAt_singleton] at hm2
      refine ⟨a.getLast hne, n, hm2, ?_⟩
      show (⟨a, n⟩ : NodePtr) = ⟨a.dropLast ++ [a.getLast hne], n⟩
      rw [← hsplit]

theorem flatMap_kids_nodup : ∀ L : List NodePtr, (L.map NodePtr.addr).Nodup →
    ((L.flatMap NodePtr.kids).map NodePtr.addr).Nodup := by
  intro L
  induction L with
  | nil => intro _; simp
  | cons x xs ih =>
    intro h
    rw [List.map_cons, List.nodup_cons] at h
    rw [List.flatMap_cons, List.map_append, List.nodup_append]
    refine ⟨kidsFrom_addr_nodup _ _ _, ih h.2, ?_⟩
    intro a ha1 ha2
    obtain ⟨y1, hy1, e1⟩ := List.mem_map.1 ha1
    obtain ⟨y2, hy2, e2⟩ := List.mem_map.1 ha2
    obtain ⟨i, c, _, hi⟩ := (mem_kids x y1).1 hy1
    obtain ⟨z, hz, hy2z⟩ := List.mem_flatMap.1 hy2
    obtain ⟨j, c2, _, hj⟩ := (mem_kids z y2).1 hy2z
    rw [hi] at e1
    rw [hj] at e2
    have e : x.addr ++ [i] = z.addr ++ [j] := by
      rw [show x.addr ++ [i] = a from e1, show z.addr ++ [j] = a from e2]
    have e3 : x.addr = z.addr := (List.append_inj' e rfl).1
    apply h.1
    rw [e3]
    exact List.mem_map_of_mem _ hz

theorem levelNodes_nodup (t : TreeNode) : ∀ d : Nat,
    ((levelNodes t d).map NodePtr.addr).Nodup := by
  intro d
  induction d with
  | zero => simp [levelNodes]
  | succ d ih => exact flatMap_kids_nodup _ ih

theorem height_le_heightKids : ∀ (cs : List TreeNode) (c : TreeNode), c ∈ cs →
    c.height ≤ heightKids cs := by
  intro cs
  induction cs with
  | nil => intro c h; cases h
  | cons x xs ih =>
    intro c h
    rw [heightKids]
    rcases List.mem_cons.1 h with h | h
    · rw [h]; exact le_max_left _ _
    · exact le_trans (ih c h) (le_max_right _ _)

theorem nodeAt_height : ∀ (p : List Nat) (t n : TreeNode), nodeAt p t = some n →
    p.length < t.height := by
  intro p
  induction p with
  | nil =>
    intro t n _
    cases t with
    | mk d cs => rw [TreeNode.height]; simp
  | cons i rest ih =>
    intro t n h
    cases t with
    | mk d cs =>
      rw [nodeAt] at h
      simp only [TreeNode.children] at h
      cases hc : cs[i]? with
      | none => rw [hc] at h; cases h
      | some c =>
        rw [hc] at h
        have h1 := ih c n h
        have h2 := height_le_heightKids cs c (List.mem_iff_getElem?.2 ⟨i, hc⟩)
        rw [TreeNode.height, List.length_cons]
        omega

theorem levelNodes_height (t : TreeNode) : levelNodes t t.height = [] := by
  apply List.eq_nil_iff_forall_not_mem.2
  intro x hx
  obtain ⟨h1, h2⟩ := (mem_levelNodes t _ x).1 hx
  have := nodeAt_height _ _ _ h2
  omega

theorem levelNodes_nil_add (t : TreeNode) (d : Nat) (h : levelNodes t d = []) :
    ∀ k, levelNodes t (d + k) = [] := by
  intro k
  induction k with
  | zero => exact h
  | succ k ih =>
    show levelNodes t (d + k + 1) = []
    rw [levelNodes, ih]
    rfl

theorem levelsOut_nil (t : TreeNode) : ∀ (k d : Nat), levelNodes t d = [] →
    levelsOut t d k = [] := by
  intro k
  induction k with
  | zero => intro d _; rfl
  | succ k ih =>
    intro d h
    rw [levelsOut, h, ih (d + 1) (levelNodes_nil_add t d h 1)]
    rfl

theorem levelLoop_spec : ∀ (xs rest nl : List NodePtr) (o : List (List Nat × Int)),
    levelLoop xs.length { q := xs ++ rest, nextLevel := nl, out := o } =
      .done { q := rest, nextLevel := nl ++ xs.flatMap NodePtr.kids, out := o ++ printed xs } := by
  intro xs
  induction xs with
  | nil => intro rest nl o; simp [levelLoop, printed]
  | cons x xs ih =>
    intro rest nl o
    rw [List.length_cons, levelLoop]
    simp only [levelStep, List.cons_append]
    rw [ih]
    simp [printed, List.flatMap_cons]

theorem treeBfsLoop_spec (t : TreeNode) : ∀ (fuel d : Nat) (q nl : List NodePtr)
    (o : List (List Nat × Int)), q = levelNodes t d → levelNodes t (d + fuel) = [] →
    ∃ nl1, treeBfsLoop fuel { q := q, nextLevel := nl, out := o } =
      some (.done { q := [], nextLevel := nl1, out := o ++ levelsOut t d fuel }) := by
  intro fuel
  induction fuel with
  | zero =>
    intro d q nl o hq hd
    rw [Nat.add_zero] at hd
    rw [hq, hd]
    exact ⟨nl, by simp [treeBfsLoop, levelsOut]⟩
  | succ fuel ih =>
    intro d q nl o hq hd
    cases q with
    | nil =>
      refine ⟨nl, ?_⟩
      rw [levelsOut_nil t _ d hq.symm]
      simp [treeBfsLoop]
    | cons x xs =>
      have hl := levelLoop_spec (x :: xs) [] [] o
      rw [List.append_nil] at hl
      have hd2 : levelNodes t (d + 1 + fuel) = [] := by
        rw [← hd]; congr 1; omega
      obtain ⟨nl1, h1⟩ := ih (d + 1) ((x :: xs).flatMap NodePtr.kids)
        ((x :: xs).flatMap NodePtr.kids) (o ++ printed (x :: xs))
        (by rw [levelNodes, ← hq]) hd2
      refine ⟨nl1, ?_⟩
      rw [treeBfsLoop]
      simp only []
      rw [hl]
      simp only [List.nil_append]
      rw [h1, levelsOut, ← hq, List.append_assoc]

theorem mem_printed (L : List NodePtr) (a : List Nat) (x : Int) :
    (a, x) ∈ printed L ↔ ∃ p ∈ L, p.addr = a ∧ p.node.data = x := by
  unfold printed
  simp [List.mem_map]

theorem mem_levelsOut (t : TreeNode) : ∀ (k d : Nat) (a : List Nat) (x : Int),
    (a, x) ∈ levelsOut t d k ↔
      ∃ n, nodeAt a t = some n ∧ n.data = x ∧ d ≤ a.length ∧ a.length < d + k := by
  intro k
  induction k with
  | zero =>
    intro d a x
    simp only [levelsOut, List.not_mem_nil, false_iff]
    rintro ⟨n, _, _, h1, h2⟩
    omega
  | succ k ih =>
    intro d a x
    rw [levelsOut, List.mem_append, ih, mem_printed]
    constructor
    · rintro (⟨p, hp, hpa, hpx⟩ | ⟨n, h1, h2, h3, h4⟩)
      · obtain ⟨q1, q2⟩ := (mem_levelNodes t d p).1 hp
        rw [hpa] at q1 q2
        exact ⟨p.node, q2, hpx, by omega, by omega⟩
      · exact ⟨n, h1, h2, by omega, by omega⟩
    · rintro ⟨n, h1, h2, h3, h4⟩
      by_cases hd : a.length = d
      · left
        exact ⟨⟨a, n⟩, (mem_levelNodes t d _).2 ⟨hd, h1⟩, rfl, h2⟩
      · right
        exact ⟨n, h1, h2, by omega, by omega⟩

theorem printed_fst (L : List NodePtr) : (printed L).map Prod.fst = L.map NodePtr.addr := by
  unfold printed
  rw [List.map_map]
  rfl

theorem levelsOut_nodup (t : TreeNode) : ∀ (k d : Nat),
    ((levelsOut t d k).map Prod.fst).Nodup := by
  intro k
  induction k with
  | zero => intro d; simp [levelsOut]
  | succ k ih =>
    intro d
    rw [levelsOut, List.map_append, List.nodup_append, printed_fst]
    refine ⟨levelNodes_nodup t d, ih (d + 1), ?_⟩
    intro a h1 h2
    obtain ⟨p, hp, hpa⟩ := List.mem_map.1 h1
    obtain ⟨e, he, hea⟩ := List.mem_map.1 h2
    obtain ⟨q1, _⟩ := (mem_levelNodes t d p).1 hp
    obtain ⟨a2, x2⟩ := e
    obtain ⟨n, _, _, h3, _⟩ := (mem_levelsOut t k (d + 1) a2 x2).1 he
    simp only at hea
    rw [hpa] at q1
    rw [hea] at h3
    omega

theorem levelsOut_sorted (t : TreeNode) : ∀ (k d : Nat),
    (levelsOut t d k).Pairwise (fun a b => a.1.length ≤ b.1.length) := by
  intro k
  induction k with
  | zero => intro d; simp [levelsOut]
  | succ k ih =>
    intro d
    rw [levelsOut, List.pairwise_append]
    refine ⟨?_, ih (d + 1), ?_⟩
    · rw [List.pairwise_iff_forall_sublist]
      intro a b hab
      have ha : a ∈ printed (levelNodes t d) := hab.subset (by simp)
      have hb : b ∈ printed (levelNodes t d) := hab.subset (by simp)
      obtain ⟨a1, a2⟩ := a
      obtain ⟨b1, b2⟩ := b
      obtain ⟨p, hp, hpa, _⟩ := (mem_printed _ a1 a2).1 ha
      obtain ⟨q, hq, hqa, _⟩ := (mem_printed _ b1 b2).1 hb
      have h1 := ((mem_levelNodes t d p).1 hp).1
      have h2 := ((mem_levelNodes t d q).1 hq).1
      simp only
      rw [← hpa, ← hqa, h1, h2]
    · intro a ha b hb
      obtain ⟨a1, a2⟩ := a
      obtain ⟨b1, b2⟩ := b
      obtain ⟨p, hp, hpa, _⟩ := (mem_printed _ a1 a2).1 ha
      have h1 := ((mem_levelNodes t d p).1 hp).1
      obtain ⟨n, _, _, h3, _⟩ := (mem_levelsOut t k (d + 1) b1 b2).1 hb
      simp only
      rw [← hpa, h1]
      omega

theorem sorted_index_lt {α : Type} (f : α → Nat) : ∀ (l : List α),
    l.Pairwise (fun a b => f a ≤ f b) → ∀ (i j : Nat) (a b : α), l[i]? = some a →
    l[j]? = some b → f a < f b → i < j := by
  intro l h i j a b hi hj hab
  by_contra hij
  have hji : j ≤ i := by omega
  rcases Nat.lt_or_eq_of_le hji with h1 | h1
  · have hi2 := List.getElem?_eq_some_iff.1 hi
    have hj2 := List.getElem?_eq_some_iff.1 hj
    obtain ⟨hil, hie⟩ := hi2
    obtain ⟨hjl, hje⟩ := hj2
    have := List.pairwise_iff_getElem.1 h j i hjl hil h1
    rw [hie, hje] at this
    omega
  · rw [h1] at hj
    rw [hi] at hj
    cases hj
    omega

theorem parallelBFS_out (r : TreeNode) : ∃ nl,
    Tree.parallelBFS { root := some r } =
      some (.done { q := [], nextLevel := nl, out := levelsOut r 0 r.height }) := by
  obtain ⟨nl, h⟩ := treeBfsLoop_spec r r.height 0 [{ addr := [], node := r }] [] [] rfl
    (by rw [Nat.zero_add]; exact levelNodes_height r)
  exact ⟨nl, by simpa [Tree.parallelBFS, Tree.parallelBFSFuel] using h⟩

theorem TreeNode.ind {P : TreeNode → Prop}
    (h : ∀ d cs, (∀ c ∈ cs, P c) → P (.mk d cs)) : ∀ t, P t
  | .mk d cs => h d cs (fun c _ => TreeNode.ind h c)
termination_by t => sizeOf t
decreasing_by
  simp_wf
  have := List.sizeOf_lt_of_mem ‹c ∈ cs›
  omega

theorem dfsNode_head (addr : List Nat) (n : TreeNode) :
    ∃ tail, dfsNode addr n = (addr, n.data) :: tail := by
  cases n with
  | mk d cs => exact ⟨dfsKids addr 0 cs, by rw [dfsNode]; rfl⟩

theorem mem_dfsKids_of (cs : List TreeNode)
    (hcs : ∀ c ∈ cs, ∀ (addr a : List Nat) (x : Int), (a, x) ∈ dfsNode addr c ↔
      ∃ p n, a = addr ++ p ∧ nodeAt p c = some n ∧ n.data = x) :
    ∀ (addr : List Nat) (i : Nat) (a : List Nat) (x : Int), (a, x) ∈ dfsKids addr i cs ↔
      ∃ k c p n, cs[k]? = some c ∧ a = addr ++ (i + k) :: p ∧ nodeAt p c = some n ∧
        n.data = x := by
  induction cs with
  | nil =>
    intro addr i a x
    rw [dfsKids]
    simp
  | cons c cs ih =>
    intro addr i a x
    rw [dfsKids, List.mem_append, hcs c (List.mem_cons_self _ _),
      ih (fun c2 hc2 => hcs c2 (List.mem_cons_of_mem _ hc2))]
    constructor
    · rintro (⟨p, n, h1, h2, h3⟩ | ⟨k, c2, p, n, h0, h1, h2, h3⟩)
      · exact ⟨0, c, p, n, by simp, by rw [h1]; simp, h2, h3⟩
      · refine ⟨k + 1, c2, p, n, by simpa using h0, ?_, h2, h3⟩
        rw [h1]
        have e : i + 1 + k = i + (k + 1) := by omega
        rw [e]
    · rintro ⟨k, c2, p, n, h0, h1, h2, h3⟩
      cases k with
      | zero =>
        left
        simp only [List.getElem?_cons_zero, Option.some.injEq] at h0
        rw [← h0] at h2
        exact ⟨p, n, by rw [h1]; simp, h2, h3⟩
      | succ k =>
        right
        refine ⟨k, c2, p, n, by simpa using h0, ?_, h2, h3⟩
        rw [h1]
        have e : i + 1 + k = i + (k + 1) := by omega
        rw [e]

theorem mem_dfsNode : ∀ (t : TreeNode) (addr a : List Nat) (x : Int),
    (a, x) ∈ dfsNode addr t ↔ ∃ p n, a = addr ++ p ∧ nodeAt p t = some n ∧ n.data = x := by
  apply TreeNode.ind
  intro d cs hcs addr a x
  rw [dfsNode, List.mem_cons, mem_dfsKids_of cs hcs]
  constructor
  · rintro (h | ⟨k, c, p, n, h0, h1, h2, h3⟩)
    · simp only [Prod.mk.injEq] at h
      exact ⟨[], .mk d cs, by rw [h.1]; simp, rfl, h.2.symm⟩
    · refine ⟨k :: p, n, by rw [h1, Nat.zero_add], ?_, h3⟩
      rw [nodeAt]
      simp only [TreeNode.children]
      rw [h0]
      exact h2
  · rintro ⟨p, n, h1, h2, h3⟩
    cases p with
    | nil =>
      left
      simp only [nodeAt, Option.some.injEq] at h2
      rw [← h2] at h3
      simp only [TreeNode.data] at h3
      rw [h1, ← h3]
      simp
    | cons k p =>
      right
      rw [nodeAt] at h2
      simp only [TreeNode.children] at h2
      cases hc : cs[k]? with
      | none => rw [hc] at h2; cases h2
      | some c =>
        rw [hc] at h2
        exact ⟨k, c, p, n, hc, by rw [h1, Nat.zero_add], h2, h3⟩

theorem mem_dfsKids (cs : List TreeNode) (addr : List Nat) (i : Nat) (a : List Nat) (x : Int) :
    (a, x) ∈ dfsKids addr i cs ↔
      ∃ k c p n, cs[k]? = some c ∧ a = addr ++ (i + k) :: p ∧ nodeAt p c = some n ∧
        n.data = x :=
  mem_dfsKids_of cs (fun c _ => mem_dfsNode c) addr i a x

theorem dfsKids_nodup_of (cs : List TreeNode)
    (hcs : ∀ c ∈ cs, ∀ addr : List Nat, ((dfsNode addr c).map Prod.fst).Nodup) :
    ∀ (addr : List Nat) (i : Nat), ((dfsKids addr i cs).map Prod.fst).Nodup := by
  induction cs with
  | nil => intro addr i; rw [dfsKids]; simp
  | cons c cs ih =>
    intro addr i
    rw [dfsKids, List.map_append, List.nodup_append]
    refine ⟨hcs c (List.mem_cons_self _ _) _,
      ih (fun c2 hc2 => hcs c2 (List.mem_cons_of_mem _ hc2)) addr (i + 1), ?_⟩
    intro a h1 h2
    obtain ⟨⟨a1, x1⟩, he1, hea1⟩ := List.mem_map.1 h1
    obtain ⟨⟨a2, x2⟩, he2, hea2⟩ := List.mem_map.1 h2
    simp only at hea1 hea2
    obtain ⟨p, _, hp, _, _⟩ := (mem_dfsNode c _ a1 x1).1 he1
    obtain ⟨k, _, p2, _, _, hp2, _, _⟩ := (mem_dfsKids cs addr (i + 1) a2 x2).1 he2
    rw [hea1] at hp
    rw [hea2] at hp2
    rw [hp, List.append_assoc] at hp2
    have h3 := List.append_cancel_left hp2
    simp only [List.singleton_append, List.cons.injEq] at h3
    omega

theorem dfsNode_nodup : ∀ (t : TreeNode) (addr : List Nat),
    ((dfsNode addr t).map Prod.fst).Nodup := by
  apply TreeNode.ind
  intro d cs hcs addr
  rw [dfsNode, List.map_cons, List.nodup_cons]
  refine ⟨?_, dfsKids_nodup_of cs hcs addr 0⟩
  intro h
  obtain ⟨⟨a2, x2⟩, he2, hea2⟩ := List.mem_map.1 h
  simp only at hea2
  obtain ⟨k, _, p2, _, _, hp2, _, _⟩ := (mem_dfsKids cs addr 0 a2 x2).1 he2
  rw [hea2] at hp2
  have := congrArg List.length hp2
  simp at this

theorem dfsKids_block : ∀ (cs : List TreeNode) (addr : List Nat) (i k : Nat) (c : TreeNode),
    cs[k]? = some c →
    ∃ pre post, dfsKids addr i cs = pre ++ dfsNode (addr ++ [i + k]) c ++ post := by
  intro cs
  induction cs with
  | nil => intro addr i k c h; simp at h
  | cons c0 cs ih =>
    intro addr i k c h
    rw [dfsKids]
    cases k with
    | zero =>
      simp only [List.getElem?_cons_zero, Option.some.injEq] at h
      rw [h]
      exact ⟨[], dfsKids addr (i + 1) cs, by simp⟩
    | succ k =>
      obtain ⟨pre, post, e⟩ := ih addr (i + 1) k c (by simpa using h)
      have e2 : i + 1 + k = i + (k + 1) := by omega
      rw [e, e2]
      exact ⟨dfsNode (addr ++ [i]) c0 ++ pre, post, by simp⟩

theorem dfsNode_block : ∀ (p : List Nat) (t : TreeNode) (addr : List Nat) (n : TreeNode),
    nodeAt p t = some n →
    ∃ pre post, dfsNode addr t = pre ++ dfsNode (addr ++ p) n ++ post := by
  intro p
  induction p with
  | nil =>
    intro t addr n h
    simp only [nodeAt, Option.some.injEq] at h
    rw [h]
    exact ⟨[], [], by simp⟩
  | cons k p ih =>
    intro t addr n h
    cases t with
    | mk d cs =>
      rw [nodeAt] at h
      simp only [TreeNode.children] at h
      cases hc : cs[k]? with
      | none => rw [hc] at h; cases h
      | some c =>
        rw [hc] at h
        obtain ⟨pre, post, e⟩ := ih c (addr ++ [k]) n h
        obtain ⟨pre2, post2, e2⟩ := dfsKids_block cs addr 0 k c hc
        rw [Nat.zero_add] at e2
        rw [dfsNode, e2, e]
        refine ⟨(addr, d) :: pre2 ++ pre, post ++ post2, ?_⟩
        simp

theorem dfs_order_exists (t : TreeNode) (a q : List Nat) (n m : TreeNode)
    (hn : nodeAt a t = some n) (hm : nodeAt (a ++ q) t = some m) (hq : q ≠ []) :
    ∃ i j : Nat, i < j ∧ (dfsNode [] t)[i]? = some (a, n.data) ∧
      (dfsNode [] t)[j]? = some (a ++ q, m.data) := by
  obtain ⟨pre, post, e⟩ := dfsNode_block a t [] n hn
  rw [List.nil_append] at e
  obtain ⟨tail, ht⟩ := dfsNode_head a n
  obtain ⟨n2, hn2, hqm⟩ := nodeAt_prefix hm
  rw [hn] at hn2
  cases hn2
  have hmem : (a ++ q, m.data) ∈ dfsNode a n := (mem_dfsNode n a _ _).2 ⟨q, m, rfl, hqm, rfl⟩
  rw [ht, List.mem_cons] at hmem
  have hne : (a ++ q, m.data) ≠ (a, n.data) := by
    intro h
    simp only [Prod.mk.injEq] at h
    have := congrArg List.length h.1
    simp at this
    exact hq this
  rcases hmem with h | h
  · exact absurd h hne
  · obtain ⟨j0, hj0⟩ := List.mem_iff_getElem?.1 h
    refine ⟨pre.length, pre.length + 1 + j0, by omega, ?_, ?_⟩
    · rw [e, ht, List.append_assoc, List.getElem?_append_right (le_refl _), Nat.sub_self,
        List.cons_append, List.getElem?_cons_zero]
    · rw [e, ht, List.append_assoc, List.getElem?_append_right (by omega)]
      have e3 : pre.length + 1 + j0 - pre.length = j0 + 1 := by omega
      rw [e3, List.cons_append, List.getElem?_cons_succ, List.getElem?_append_left
        (by
          have := (List.getElem?_eq_some_iff.1 hj0).1
          exact this)]
      exact hj0

theorem nodup_fst_index {l : List (List Nat × Int)} (h : (l.map Prod.fst).Nodup)
    {i j : Nat} {e1 e2 : List Nat × Int} (hi : l[i]? = some e1) (hj : l[j]? = some e2)
    (he : e1.1 = e2.1) : i = j := by
  have hi2 : (l.map Prod.fst)[i]? = some e1.1 := by rw [List.getElem?_map, hi]; rfl
  have hj2 : (l.map Prod.fst)[j]? = some e1.1 := by rw [List.getElem?_map, hj, he]; rfl
  have hil := (List.getElem?_eq_some_iff.1 hi2).1
  have hjl := (List.getElem?_eq_some_iff.1 hj2).1
  rcases Nat.lt_trichotomy i j with h1 | h1 | h1
  · exact absurd (hi2.trans hj2.symm) (List.nodup_iff_getElem?_ne_getElem?.1 h i j h1 hjl)
  · exact h1
  · exact absurd (hj2.trans hi2.symm) (List.nodup_iff_getElem?_ne_getElem?.1 h j i h1 hil)

theorem dfs_order (t : TreeNode) (a q : List Nat) (x y : Int) (i j : Nat) (hq : q ≠ [])
    (hi : (dfsNode [] t)[i]? = some (a, x)) (hj : (dfsNode [] t)[j]? = some (a ++ q, y)) :
    i < j := by
  obtain ⟨p, n, hp, hn, _⟩ := (mem_dfsNode t [] a x).1 (List.mem_iff_getElem?.2 ⟨i, hi⟩)
  obtain ⟨p2, m, hp2, hm, _⟩ := (mem_dfsNode t [] (a ++ q) y).1 (List.mem_iff_getElem?.2 ⟨j, hj⟩)
  rw [List.nil_append] at hp hp2
  rw [← hp] at hn
  rw [← hp2] at hm
  obtain ⟨i0, j0, hlt, h1, h2⟩ := dfs_order_exists t a q n m hn hm hq
  have e1 : i = i0 := nodup_fst_index (dfsNode_nodup t []) hi h1 rfl
  have e2 : j = j0 := nodup_fst_index (dfsNode_nodup t []) hj h2 rfl
  omega

/-! ## The tree traversals: what is printed and in which order -/

/-- C19: for every tree (a root node with any finite arrangement of descendants, as built by
`Tree(val)` and `addChild`), `Tree::parallelBFS` runs to its end with an empty queue; no
node is printed twice; the entries printed are exactly the nodes of the tree, each with its
own data; and a node is printed before every node at a greater depth, in particular every
node at depth `L` before any node at depth `L + 1`.  For the tree built by `main` the
output is `1`, then `2 3 4`, then `5 6 7 8`. -/
theorem C19_tree_bfs_levels :
    (∀ r : TreeNode, ∃ st, Tree.parallelBFS { root := some r } = some (.done st) ∧
      st.q = [] ∧ (st.out.map Prod.fst).Nodup ∧
      (∀ (a : List Nat) (x : Int), (a, x) ∈ st.out ↔ ∃ n, nodeAt a r = some n ∧ n.data = x) ∧
      ∀ (i j : Nat) (a b : List Nat × Int), st.out[i]? = some a → st.out[j]? = some b →
        a.1.length < b.1.length → i < j) ∧
    mainTree = some { root := some exampleTree } ∧
    ∃ st, Tree.parallelBFS { root := some exampleTree } = some (.done st) ∧
      st.out = [([], 1), ([0], 2), ([1], 3), ([2], 4), ([0, 0], 5), ([0, 1], 6), ([2, 0], 7),
        ([2, 1], 8)] := by
  refine ⟨?_, rfl, ⟨_, rfl, rfl⟩⟩
  intro r
  obtain ⟨nl, h⟩ := parallelBFS_out r
  refine ⟨_, h, rfl, levelsOut_nodup r _ _, ?_, ?_⟩
  · intro a x
    show (a, x) ∈ levelsOut r 0 r.height ↔ _
    rw [mem_levelsOut]
    constructor
    · rintro ⟨n, h1, h2, _, _⟩
      exact ⟨n, h1, h2⟩
    · rintro ⟨n, h1, h2⟩
      have := nodeAt_height a r n h1
      exact ⟨n, h1, h2, by omega, by omega⟩
  · exact sorted_index_lt (fun e : List Nat × Int => e.1.length) _ (levelsOut_sorted r _ _)

theorem C19_tree_bfs_levels_witness :
    ∃ st, Tree.parallelBFS { root := some (.mk 7 [.mk 7 [], .mk 9 [.mk 7 []]]) } =
        some (.done st) ∧
      st.q = [] ∧ (st.out.map Prod.fst).Nodup ∧
      (∀ (a : List Nat) (x : Int), (a, x) ∈ st.out ↔
        ∃ n, nodeAt a (.mk 7 [.mk 7 [], .mk 9 [.mk 7 []]]) = some n ∧ n.data = x) ∧
      ∀ (i j : Nat) (a b : List Nat × Int), st.out[i]? = some a → st.out[j]? = some b →
        a.1.length < b.1.length → i < j :=
  C19_tree_bfs_levels.1 (.mk 7 [.mk 7 [], .mk 9 [.mk 7 []]])

/-- C20: for every tree, `Tree::parallelDFS(root)` prints no node twice; the entries printed
are exactly the nodes of the tree, each with its own data; and each node is printed before
every other node of its subtree, so a parent before its children.  `parallelDFS(nullptr)`
prints nothing.  For the tree built by `main` the output is `1 2 5 6 3 4 7 8`. -/
theorem C20_tree_dfs_preorder :
    (∀ r : TreeNode,
      ((Tree.parallelDFS (some { addr := [], node := r })).map Prod.fst).Nodup ∧
      (∀ (a : List Nat) (x : Int),
        (a, x) ∈ Tree.parallelDFS (some { addr := [], node := r }) ↔
          ∃ n, nodeAt a r = some n ∧ n.data = x) ∧
      ∀ (i j : Nat) (a q : List Nat) (x y : Int), q ≠ [] →
        (Tree.parallelDFS (some { addr := [], node := r }))[i]? = some (a, x) →
        (Tree.parallelDFS (some { addr := [], node := r }))[j]? = some (a ++ q, y) → i < j) ∧
    Tree.parallelDFS none = [] ∧
    Tree.parallelDFS (some { addr := [], node := exampleTree }) =
      [([], 1), ([0], 2), ([0, 0], 5), ([0, 1], 6), ([1], 3), ([2], 4), ([2, 0], 7),
        ([2, 1], 8)] := by
  refine ⟨?_, rfl, by decide⟩
  intro r
  refine ⟨dfsNode_nodup r [], ?_, ?_⟩
  · intro a x
    show (a, x) ∈ dfsNode [] r ↔ _
    rw [mem_dfsNode]
    simp
  · intro i j a q x y hq hi hj
    exact dfs_order r a q x y i j hq hi hj

theorem C20_tree_dfs_preorder_witness :
    ((Tree.parallelDFS (some { addr := [], node := .mk 7 [.mk 7 [], .mk 9 [.mk 7 []]] })).map
        Prod.fst).Nodup ∧
      (∀ (a : List Nat) (x : Int),
        (a, x) ∈ Tree.parallelDFS (some { addr := [], node := .mk 7 [.mk 7 [], .mk 9 [.mk 7 []]] }) ↔
          ∃ n, nodeAt a (.mk 7 [.mk 7 [], .mk 9 [.mk 7 []]]) = some n ∧ n.data = x) ∧
      ∀ (i j : Nat) (a q : List Nat) (x y : Int), q ≠ [] →
        (Tree.parallelDFS (some { addr := [], node := .mk 7 [.mk 7 [], .mk 9 [.mk 7 []]] }))[i]? =
          some (a, x) →
        (Tree.parallelDFS (some { addr := [], node := .mk 7 [.mk 7 [], .mk 9 [.mk 7 []]] }))[j]? =
          some (a ++ q, y) → i < j :=
  C20_tree_dfs_preorder.1 (.mk 7 [.mk 7 [], .mk 9 [.mk 7 []]])

/-! ## The memory of a call and the object in it -/

theorem claimMem_sim (g : Graph) (st : BFSState) (v : Int) :
    claimMem (g.withBFS st) v = (claim st v).map g.withBFS := by
  unfold claimMem claim
  simp only [Graph.withBFS]
  repeat' split
  all_goals rfl

theorem getD_eq_of_lt (l : List Int) (i : Nat) (h : i < l.length) :
    l.drop i = l.getD i 0 :: l.drop (i + 1) := by
  rw [List.drop_eq_getElem_cons h]
  congr 1
  simp [List.getD, List.getElem?_eq_getElem h]

theorem scanMem_sim (g : Graph) (u : Int) (hu : inBounds u g.adj.length = true) :
    ∀ (passes i : Nat) (st : BFSState), passes + i = (g.adj.getD u.toNat []).length →
      scanMem u passes i (g.withBFS st) =
        some ((scan ((g.adj.getD u.toNat []).drop i) st).map g.withBFS) := by
  intro passes
  induction passes with
  | zero =>
    intro i st h
    rw [Nat.zero_add] at h
    rw [scanMem]
    have hu2 : inBounds u (g.withBFS st).adj.length = true := hu
    have hl : ¬ i < ((g.withBFS st).adj.getD u.toNat []).length := by
      show ¬ i < (g.adj.getD u.toNat []).length
      omega
    rw [if_pos hu2, if_neg hl, h, List.drop_length]
    rfl
  | succ p ih =>
    intro i st h
    rw [scanMem]
    have hu2 : inBounds u (g.withBFS st).adj.length = true := hu
    have hl : i < ((g.withBFS st).adj.getD u.toNat []).length := by
      show i < (g.adj.getD u.toNat []).length
      omega
    rw [if_pos hu2, if_pos hl]
    have hd := getD_eq_of_lt (g.adj.getD u.toNat []) i hl
    rw [hd, scan]
    show (match claimMem (g.withBFS st) ((g.adj.getD u.toNat []).getD i 0) with
      | .done m1 => scanMem u p (i + 1) m1
      | .oob m1 => some (.oob m1)) = _
    rw [claimMem_sim]
    cases claim st ((g.adj.getD u.toNat []).getD i 0) with
    | done st1 => exact ih (i + 1) st1 (by omega)
    | oob st1 => rfl

theorem scanMem_oob (u : Int) (m : BFSMem) (hu : ¬ inBounds u m.adj.length = true) :
    ∀ passes i, scanMem u passes i m = some (.oob m) := by
  intro passes i
  cases passes with
  | zero => rw [scanMem, if_neg hu]
  | succ p => rw [scanMem, if_neg hu]

theorem bfsLoopMem_sim (g : Graph) : ∀ (fuel : Nat) (st : BFSState),
    bfsLoopMem fuel (g.withBFS st) = (bfsLoop g fuel st).map (Run.map g.withBFS) := by
  intro fuel
  induction fuel with
  | zero =>
    intro st
    obtain ⟨vis, q, out⟩ := st
    cases q <;> rfl
  | succ fuel ih =>
    intro st
    obtain ⟨vis, q, out⟩ := st
    cases q with
    | nil => rfl
    | cons u rest =>
      rw [bfsLoopMem, bfsLoop]
      simp only [Graph.withBFS]
      show (match scanMem u (g.adj.getD u.toNat []).length 0
          (g.withBFS ⟨vis, rest, out ++ [u]⟩) with
        | some (.done m1) => bfsLoopMem fuel m1
        | some (.oob m1) => some (.oob m1)
        | none => none) = _
      unfold bfsBody
      by_cases hu : inBounds u g.adj.length = true
      · rw [scanMem_sim g u hu _ 0 _ (Nat.add_zero _), List.drop_zero, if_pos hu]
        cases scan (g.adj.getD u.toNat []) ⟨vis, rest, out ++ [u]⟩ with
        | done st1 => exact ih st1
        | oob st1 => rfl
      · rw [scanMem_oob u _ hu, if_neg hu]
        rfl

theorem bfsCall_sim (m : BFSMem) (s : Int) :
    m.call s = (m.graph.BFS s).map (Run.map m.graph.withBFS) := by
  unfold BFSMem.call Graph.BFS Graph.BFSFuel
  simp only
  by_cases hs : inBounds s (List.replicate m.V false).length = true
  · have hs2 : inBounds s (List.replicate m.graph.V false).length = true := hs
    rw [if_pos hs, if_pos hs2]
    exact bfsLoopMem_sim m.graph m.V
      { visited := (List.replicate m.V false).set s.toNat true, q := [s], out := [] }
  · have hs2 : ¬ inBounds s (List.replicate m.graph.V false).length = true := hs
    rw [if_neg hs, if_neg hs2]
    rfl

theorem callBFS_sim (g : Graph) (s : Int) :
    g.callBFS s = (g.BFS s).map (Run.map g.withBFS) :=
  bfsCall_sim { V := g.V, adj := g.adj, visited := [], q := [], out := [] } s

theorem dfsScanMem_oob (call : Int → DFSMem → Option (Run DFSMem)) (u : Int) (m : DFSMem)
    (hu : ¬ inBounds u m.adj.length = true) :
    ∀ passes i, dfsScanMem call u passes i m = some (.oob m) := by
  intro passes i
  cases passes with
  | zero => rw [dfsScanMem, if_neg hu]
  | succ p => rw [dfsScanMem, if_neg hu]

theorem dfsScanMem_sim (g : Graph) (u : Int) (hu : inBounds u g.adj.length = true)
    (call : Int → DFSState → Option (Run DFSState))
    (callM : Int → DFSMem → Option (Run DFSMem))
    (hcall : ∀ v st, callM v (g.withDFS st) = (call v st).map (Run.map g.withDFS)) :
    ∀ (passes i : Nat) (st : DFSState), passes + i = (g.adj.getD u.toNat []).length →
      dfsScanMem callM u passes i (g.withDFS st) =
        (dfsScan call u ((g.adj.getD u.toNat []).drop i) st).map (Run.map g.withDFS) := by
  intro passes
  induction passes with
  | zero =>
    intro i st h
    rw [Nat.zero_add] at h
    rw [dfsScanMem]
    have hu2 : inBounds u (g.withDFS st).adj.length = true := hu
    have hl : ¬ i < ((g.withDFS st).adj.getD u.toNat []).length := by
      show ¬ i < (g.adj.getD u.toNat []).length
      omega
    rw [if_pos hu2, if_neg hl, h, List.drop_length]
    rfl
  | succ p ih =>
    intro i st h
    rw [dfsScanMem]
    have hu2 : inBounds u (g.withDFS st).adj.length = true := hu
    have hl : i < ((g.withDFS st).adj.getD u.toNat []).length := by
      show i < (g.adj.getD u.toNat []).length
      omega
    rw [if_pos hu2, if_pos hl]
    have hd := getD_eq_of_lt (g.adj.getD u.toNat []) i hl
    rw [hd, dfsScan]
    show (if inBounds ((g.adj.getD u.toNat []).getD i 0) st.visited.length then
        if !(st.visited.getD ((g.adj.getD u.toNat []).getD i 0).toNat false) then
          match callM ((g.adj.getD u.toNat []).getD i 0)
              (g.withDFS { st with calls := st.calls ++ [(u, (g.adj.getD u.toNat []).getD i 0)] }) with
          | some (.done m1) => dfsScanMem callM u p (i + 1) m1
          | some (.oob m1) => some (.oob m1)
          | none => none
        else dfsScanMem callM u p (i + 1) (g.withDFS st)
      else some (.oob (g.withDFS st))) = _
    generalize (g.adj.getD u.toNat []).getD i 0 = v at *
    by_cases hv : inBounds v st.visited.length = true
    · rw [if_pos hv, if_pos hv]
      by_cases hn : (!(st.visited.getD v.toNat false)) = true
      · rw [if_pos hn, if_pos hn, hcall]
        cases call v { st with calls := st.calls ++ [(u, v)] } with
        | none => rfl
        | some r =>
          cases r with
          | done st1 =>
            show dfsScanMem callM u p (i + 1) (g.withDFS st1) = _
            rw [ih (i + 1) st1 (by omega)]
          | oob st1 => rfl
      · rw [if_neg hn, if_neg hn]
        exact ih (i + 1) st (by omega)
    · rw [if_neg hv, if_neg hv]
      rfl

theorem DFSUtilMem_sim (g : Graph) : ∀ (fuel : Nat) (u : Int) (st : DFSState),
    DFSUtilMem fuel u (g.withDFS st) = (DFSUtil g fuel u st).map (Run.map g.withDFS) := by
  intro fuel
  induction fuel with
  | zero => intro u st; rfl
  | succ fuel ih =>
    intro u st
    rw [DFSUtilMem, DFSUtil]
    by_cases hb : inBounds u st.visited.length = true
    · have hb2 : inBounds u (g.withDFS st).visited.length = true := hb
      rw [if_pos hb2, if_pos hb]
      simp only
      show dfsScanMem (DFSUtilMem fuel) u (g.adj.getD u.toNat []).length 0
        (g.withDFS { st with visited := st.visited.set u.toNat true, out := st.out ++ [u] }) = _
      by_cases hu : inBounds u g.adj.length = true
      · rw [dfsScanMem_sim g u hu (DFSUtil g fuel) (DFSUtilMem fuel) (ih) _ 0 _ (Nat.add_zero _),
          List.drop_zero, if_pos hu]
      · rw [dfsScanMem_oob _ u _ hu, if_neg hu]
        rfl
    · have hb2 : ¬ inBounds u (g.withDFS st).visited.length = true := hb
      rw [if_neg hb2, if_neg hb]
      rfl

theorem dfsCall_sim (m : DFSMem) (s : Int) :
    m.call s = (m.graph.DFS s).map (Run.map m.graph.withDFS) :=
  DFSUtilMem_sim m.graph (m.V + 1) s
    { visited := List.replicate m.V false, out := [], calls := [] }

theorem callDFS_sim (g : Graph) (s : Int) :
    g.callDFS s = (g.DFS s).map (Run.map g.withDFS) :=
  dfsCall_sim { V := g.V, adj := g.adj, visited := [], out := [], calls := [] } s

theorem Run.state_map {σ τ : Type} (f : σ → τ) (r : Run σ) : (r.map f).state = f r.state := by
  cases r <;> rfl

theorem Run.map_map {σ τ υ : Type} (f : σ → τ) (h : τ → υ) (r : Run σ) :
    (r.map f).map h = r.map (fun x => h (f x)) := by
  cases r <;> rfl

theorem Run.map_self {σ : Type} (r : Run σ) : r.map (fun x => x) = r := by
  cases r <;> rfl

theorem BFSMem.eq_withBFS (m : BFSMem) : m.graph.withBFS m.locals = m := rfl

theorem DFSMem.eq_withDFS (m : DFSMem) : m.graph.withDFS m.locals = m := rfl

theorem sim_frame_bfs {g : Graph} {x : Option (Run BFSState)} {r : Run BFSMem}
    (h : x.map (Run.map g.withBFS) = some r) :
    r.state.V = g.V ∧ r.state.adj = g.adj ∧ x = some (r.map BFSMem.locals) ∧
      r.state.graph = g := by
  cases x with
  | none => cases h
  | some r0 =>
    simp only [Option.map_some', Option.some.injEq] at h
    subst h
    rw [Run.state_map, Run.map_map]
    exact ⟨rfl, rfl, by rw [show (fun x => (g.withBFS x).locals) = fun x => x from rfl,
      Run.map_self], rfl⟩

theorem sim_frame_dfs {g : Graph} {x : Option (Run DFSState)} {r : Run DFSMem}
    (h : x.map (Run.map g.withDFS) = some r) :
    r.state.V = g.V ∧ r.state.adj = g.adj ∧ x = some (r.map DFSMem.locals) ∧
      r.state.graph = g := by
  cases x with
  | none => cases h
  | some r0 =>
    simp only [Option.map_some', Option.some.injEq] at h
    subst h
    rw [Run.state_map, Run.map_map]
    exact ⟨rfl, rfl, by rw [show (fun x => (g.withDFS x).locals) = fun x => x from rfl,
      Run.map_self], rfl⟩

/-- C17: the traversals only read the graph and start from a fresh `visited` vector.  With
the fields `V` and `adj` held in the memory that the statements of `Graph::BFS`, `Graph::DFS`
and `DFSUtil` work on, and `adj[u]` read from that memory at every pass: whenever the `while`
loop of `BFS` or a call of `DFSUtil` ends, at its last statement or at an access out of
bounds, `V` and every adjacency list are what they were.  So a call `BFS(s)` or `DFS(s)`
entered with any memory leaves `V` and `adj` as they were and prints what `Graph.BFS` and
`Graph.DFS` print for the object in that memory, whatever the memory held in the place of
the locals; and a second call, entered with the memory the first one left (its `visited`
with true entries), ends in the same memory again: same printed sequence, same `visited`.
On a graph built by `addEdge` calls with `s` in range both calls run to their end. -/
theorem C17_graph_unchanged :
    (∀ (fuel : Nat) (m : BFSMem) (r : Run BFSMem), bfsLoopMem fuel m = some r →
      r.state.V = m.V ∧ r.state.adj = m.adj) ∧
    (∀ (fuel : Nat) (u : Int) (m : DFSMem) (r : Run DFSMem), DFSUtilMem fuel u m = some r →
      r.state.V = m.V ∧ r.state.adj = m.adj) ∧
    (∀ (m : BFSMem) (s : Int) (r : Run BFSMem), m.call s = some r →
      r.state.V = m.V ∧ r.state.adj = m.adj ∧ m.graph.BFS s = some (r.map BFSMem.locals) ∧
        r.state.call s = some r) ∧
    (∀ (m : DFSMem) (s : Int) (r : Run DFSMem), m.call s = some r →
      r.state.V = m.V ∧ r.state.adj = m.adj ∧ m.graph.DFS s = some (r.map DFSMem.locals) ∧
        r.state.call s = some r) ∧
    (∀ (g : Graph) (s : Int) (r : Run BFSMem), g.callBFS s = some r →
      r.state.graph = g ∧ g.BFS s = some (r.map BFSMem.locals) ∧
        r.state.graph.callBFS s = some r) ∧
    (∀ (g : Graph) (s : Int) (r : Run DFSMem), g.callDFS s = some r →
      r.state.graph = g ∧ g.DFS s = some (r.map DFSMem.locals) ∧
        r.state.graph.callDFS s = some r) ∧
    (∀ (V : Nat) (edges : List (Int × Int)) (s : Int),
      EdgesInRange V edges → inBounds s V = true →
      ∃ g b d, buildGraph (V : Int) edges = some (.done g) ∧
        g.callBFS s = some (.done b) ∧ g.callDFS s = some (.done d)) := by
  refine ⟨?_, ?_, ?_, ?_, ?_, ?_, ?_⟩
  · intro fuel m r h
    rw [← BFSMem.eq_withBFS m, bfsLoopMem_sim] at h
    exact ⟨(sim_frame_bfs h).1, (sim_frame_bfs h).2.1⟩
  · intro fuel u m r h
    rw [← DFSMem.eq_withDFS m, DFSUtilMem_sim] at h
    exact ⟨(sim_frame_dfs h).1, (sim_frame_dfs h).2.1⟩
  · intro m s r h
    have h0 := h
    rw [bfsCall_sim] at h
    obtain ⟨h1, h2, h3, h4⟩ := sim_frame_bfs h
    refine ⟨h1, h2, h3, ?_⟩
    rw [bfsCall_sim, h4, ← bfsCall_sim]
    exact h0
  · intro m s r h
    have h0 := h
    rw [dfsCall_sim] at h
    obtain ⟨h1, h2, h3, h4⟩ := sim_frame_dfs h
    refine ⟨h1, h2, h3, ?_⟩
    rw [dfsCall_sim, h4, ← dfsCall_sim]
    exact h0
  · intro g s r h
    have h0 := h
    rw [callBFS_sim] at h
    obtain ⟨_, _, h3, h4⟩ := sim_frame_bfs h
    exact ⟨h4, h3, by rw [h4]; exact h0⟩
  · intro g s r h
    have h0 := h
    rw [callDFS_sim] at h
    obtain ⟨_, _, h3, h4⟩ := sim_frame_dfs h
    exact ⟨h4, h3, by rw [h4]; exact h0⟩
  · intro V edges s hE hs
    obtain ⟨g, hb, hV, _, _, hwf, _⟩ := buildGraph_spec V edges hE
    have hs2 : inBounds s g.V = true := by rw [hV]; exact hs
    obtain ⟨b, e, _⟩ := BFS_spec hwf hs2 (fun _ => True) trivial
      (fun _ _ _ _ _ _ _ _ _ _ _ _ => trivial) g.V (le_refl _)
    obtain ⟨d, new, e2, _⟩ := DFS_spec hwf hs2 (g.V + 1) (Nat.le_succ _)
    refine ⟨g, g.withBFS b, g.withDFS d, hb, ?_, ?_⟩
    · rw [callBFS_sim, show g.BFS s = some (.done b) from e]; rfl
    · rw [callDFS_sim, show g.DFS s = some (.done d) from e2]; rfl

theorem C17_graph_unchanged_witness :
    (⟨3, [[1], [0, 2], [1]], [], [], []⟩ : BFSMem).call 0 =
      some (.done ⟨3, [[1], [0, 2], [1]], [true, true, true], [], [0, 1, 2]⟩) ∧
    (Run.done (⟨3, [[1], [0, 2], [1]], [true, true, true], [], [0, 1, 2]⟩ : BFSMem)).state.V =
      (⟨3, [[1], [0, 2], [1]], [], [], []⟩ : BFSMem).V ∧
    (Run.done (⟨3, [[1], [0, 2], [1]], [true, true, true], [], [0, 1, 2]⟩ : BFSMem)).state.adj =
      (⟨3, [[1], [0, 2], [1]], [], [], []⟩ : BFSMem).adj ∧
    (⟨3, [[1], [0, 2], [1]]⟩ : Graph).BFS 0 = some (.done ⟨[true, true, true], [], [0, 1, 2]⟩) ∧
    (⟨3, [[1], [0, 2], [1]], [true, true, true], [], [0, 1, 2]⟩ : BFSMem).call 0 =
      some (.done ⟨3, [[1], [0, 2], [1]], [true, true, true], [], [0, 1, 2]⟩) :=
  ⟨by decide, C17_graph_unchanged.2.2.1 ⟨3, [[1], [0, 2], [1]], [], [], []⟩ 0
    (.done ⟨3, [[1], [0, 2], [1]], [true, true, true], [], [0, 1, 2]⟩) (by decide)⟩

/-! ## `Graph::DFS` when tasks are deferred -/

/-- C2 on the code, in a run that defers its tasks: a vertex is printed twice.  On the
triangle built by `addEdge(0,1)`, `addEdge(1,2)`, `addEdge(2,0)`, the neighbour loop of
`DFSUtil(0)` finds `visited[1]` and `visited[2]` false and creates a task for each; the task
for vertex 1 finds `visited[2]` still false and creates a second task for vertex 2; both
tasks for vertex 2 run, and `DFS(0)` prints `0 1 2 2`.  The run of the same call in which
every task body runs where the task is created prints `0 1 2`. -/
theorem C2_dfs_deferred_prints_twice :
    buildGraph 3 [(0, 1), (1, 2), (2, 0)] = some (.done ⟨3, [[1, 2], [0, 2], [1, 0]]⟩) ∧
    (⟨3, [[1, 2], [0, 2], [1, 0]]⟩ : Graph).DFSDeferred 0 =
      some (.done ⟨[true, true, true], [0, 1, 2, 2], [(0, 1), (0, 2), (1, 2)]⟩) ∧
    ¬ ([0, 1, 2, 2] : List Int).Nodup ∧
    (⟨3, [[1, 2], [0, 2], [1, 0]]⟩ : Graph).DFS 0 =
      some (.done ⟨[true, true, true], [0, 1, 2], [(0, 1), (1, 2)]⟩) := by
  refine ⟨by decide, by decide, by decide, by decide⟩

/-- C4 on the code, in a run that defers its tasks: a vertex has two parents.  On the
triangle built by `addEdge(0,1)`, `addEdge(1,2)`, `addEdge(2,0)` and the start 0, the calls
`DFSUtil(2, visited)` are two, one created by the neighbour loop of vertex 0 and one by the
neighbour loop of vertex 1, and vertex 2 is printed once for each. -/
theorem C4_dfs_deferred_two_parents :
    ∃ st, (⟨3, [[1, 2], [0, 2], [1, 0]]⟩ : Graph).DFSDeferred 0 = some (.done st) ∧
      st.calls.filter (fun e => decide (e.2 = 2)) = [(0, 2), (1, 2)] ∧
      st.out.filter (fun v => decide (v = 2)) = [2, 2] ∧
      st.out = [0, 1, 2, 2] :=
  ⟨⟨[true, true, true], [0, 1, 2, 2], [(0, 1), (0, 2), (1, 2)]⟩, by decide, by decide,
    by decide, by decide⟩

/-- C13 on the code.  `Graph::BFS` prints no vertex twice on any edge list with end points
in `[0, V)`, repeats and self-loops allowed, and prints the same set as on the graph built
without them.  `Graph::DFS` in a run that defers its tasks does print a vertex twice on a
repeated edge: after `addEdge(0,1)` twice on `Graph g(2)`, `adj[0]` is `1 1`, the neighbour
loop of `DFSUtil(0)` creates two tasks for vertex 1, and `DFS(0)` prints `0 1 1`, where the
graph with the single edge gives `0 1`. -/
theorem C13_deferred_repeated_edge :
    (∀ (V : Nat) (edges : List (Int × Int)) (s : Int),
      EdgesInRange V edges → inBounds s V = true →
      ∃ g g2 b b2, buildGraph (V : Int) edges = some (.done g) ∧
        buildGraph (V : Int) (simpleEdges edges) = some (.done g2) ∧
        g.BFS s = some (.done b) ∧ g2.BFS s = some (.done b2) ∧
        b.out.Nodup ∧ ∀ v, v ∈ b.out ↔ v ∈ b2.out) ∧
    buildGraph 2 [(0, 1), (0, 1)] = some (.done ⟨2, [[1, 1], [0, 0]]⟩) ∧
    (⟨2, [[1, 1], [0, 0]]⟩ : Graph).DFSDeferred 0 =
      some (.done ⟨[true, true], [0, 1, 1], [(0, 1), (0, 1)]⟩) ∧
    ¬ ([0, 1, 1] : List Int).Nodup ∧
    buildGraph 2 (simpleEdges [(0, 1), (0, 1)]) = some (.done ⟨2, [[1], [0]]⟩) ∧
    (⟨2, [[1], [0]]⟩ : Graph).DFSDeferred 0 =
      some (.done ⟨[true, true], [0, 1], [(0, 1)]⟩) := by
  refine ⟨?_, by decide, by decide, by decide, by decide, by decide⟩
  intro V edges s hE hs
  have hE2 : EdgesInRange V (simpleEdges edges) :=
    fun e he => hE e (simpleEdges_subset edges e he)
  obtain ⟨g, b, d, h1, h2, _, _, _, h6, _, _, _, h10, _⟩ := traversals_built hE hs
  obtain ⟨g2, b2, d2, k1, k2, _, _, _, _, _, _, _, k10, _⟩ := traversals_built hE2 hs
  refine ⟨g, g2, b, b2, h1, k1, h2, k2, h6, ?_⟩
  intro v; rw [h10, k10, connected_simpleEdges]

theorem C13_deferred_repeated_edge_witness :
    ∃ g g2 b b2, buildGraph ((3 : Nat) : Int) [(0, 1), (1, 1), (1, 0), (0, 1)] =
        some (.done g) ∧
      buildGraph ((3 : Nat) : Int) (simpleEdges [(0, 1), (1, 1), (1, 0), (0, 1)]) =
        some (.done g2) ∧
      g.BFS 0 = some (.done b) ∧ g2.BFS 0 = some (.done b2) ∧
      b.out.Nodup ∧ ∀ v, v ∈ b.out ↔ v ∈ b2.out :=
  C13_deferred_repeated_edge.1 3 [(0, 1), (1, 1), (1, 0), (0, 1)] 0
    (by unfold EdgesInRange; decide) (by decide)

/-! ## The first example of `main` -/

theorem example_build : buildGraph 5 exampleEdges =
    some (.done ⟨5, [[1, 2], [0, 3], [0, 4], [1], [2]]⟩) := by decide

theorem example_bfs :
    Graph.BFS ⟨5, [[1, 2], [0, 3], [0, 4], [1], [2]]⟩ 0 =
      some (.done ⟨[true, true, true, true, true], [], [0, 1, 2, 3, 4]⟩) := by decide

theorem example_dfs :
    Graph.DFS ⟨5, [[1, 2], [0, 3], [0, 4], [1], [2]]⟩ 0 =
      some (.done ⟨[true, true, true, true, true], [0, 1, 3, 2, 4],
        [(0, 1), (1, 3), (0, 2), (2, 4)]⟩) := by decide

end LP5
